import Mathlib

/-!
# Sequential schedule generation (`src/driver/perm.c`)

A shallow embedding of the permutation-table code of the linearizability
driver, followed by the properties proved about it.

Conventions of the embedding.

* A C `int` that can overflow (the factorials, the products and the sum computed
  by `perm_calc_num`) is an `Int` reduced by `wrap32` after every operation.
* A count, a loop bound or a column index is a `Nat`: the counts are taken
  non-negative, as everywhere in the specification.  A row index and a block size
  are `Int`, because they are results of `perm_calc_num`; the additions `i0 + j`
  and `i0 += np` on row indices are not reduced by `wrap32`.
* An array is a `List`; a read or a write outside the list, a division by zero
  and a failed `assert` make the whole computation `none`.
* The recursions `perm_aux` and `linearizable_aux` take a fuel argument that
  bounds the recursion depth; the callers supply the sum of the counts, which is
  the depth the C recursion reaches, since every call decrements one count.
  Running out of fuel is `none`.
* `schedule.h` is not among the sources; `step_t` and `schedule_t` carry the
  fields that `perm.c` reads.

The file has three parts: the embedding of the source, the definitions used to
state and prove the properties, and the lemmas and theorems.
-/

namespace Perm

/-! ## Machine integers -/

/-- Two's-complement reduction of an integer to the range of a 32-bit `int`. -/
def wrap32 (x : Int) : Int := (x + 2147483648) % 4294967296 - 2147483648

/-! ## The schedule (declared in `schedule.h`) -/

/-- Modelled from the spec: `step_t` is declared in `schedule.h`, which is not
part of the sources; `perm.c` reads the fields `start_time`, `stop_time` and
`result` of a step, all of them `int`. -/
structure step_t where
  start_time : Int
  stop_time : Int
  result : Int
deriving DecidableEq

/-- Modelled from the spec: `schedule_t` is declared in `schedule.h`, which is
not part of the sources; `perm.c` reads the fields `nthread`, `nstep`, `nsteps`
(one entry per thread) and `steps` (one array of steps per thread). -/
structure schedule_t where
  nthread : Nat
  nstep : Nat
  nsteps : List Nat
  steps : List (List step_t)
deriving DecidableEq

/-! ## Memory -/

/-- A table of rows of `int` cells (`int **`). -/
abbrev Table := List (List Int)

/-- Read `xs[i]` for an `int` index. -/
def idx_read {α : Type} (xs : List α) (i : Int) : Option α :=
  if i < 0 then none else xs[i.toNat]?

/-- Read `table[r][c]`. -/
def table_read (table : Table) (r : Int) (c : Nat) : Option Int :=
  (idx_read table r).bind fun row => (row[c]? : Option Int)

/-- Write `table[r][c] = v`. -/
def table_write (table : Table) (r : Int) (c : Nat) (v : Int) : Option Table :=
  (idx_read table r).bind fun row =>
    if c < row.length then some (table.set r.toNat (row.set c v)) else none

/-- Memory returned by `malloc` for `num_rows` rows of `num_cols` cells, the
cell `(r, c)` holding the indeterminate value `junk r c`. -/
def alloc_table (junk : Nat → Nat → Int) (num_rows num_cols : Nat) : Table :=
  (List.range num_rows).map fun r => (List.range num_cols).map (junk r)

/-! ## Counting -/

/-- Source `fact`: `result = 1; for (i = 1; i <= n; i++) result *= i;`. -/
def fact (n : Int) : Int :=
  (List.range n.toNat).foldl
    (fun (result : Int) (k : Nat) => wrap32 (result * ((k : Int) + 1))) 1

/-- The loop `sum = 0; for (i = 0; i < n; i++) sum += counts[i];`. -/
def sum_counts (n : Nat) (counts : List Nat) : Option Int :=
  (List.range n).foldlM (fun (sum : Int) i =>
    (counts[i]? : Option Nat).map fun (c : Nat) => wrap32 (sum + (c : Int))) (0 : Int)

/-- The loop `denom = 1; for (i = 0; i < n; i++) denom *= fact(counts[i]);`. -/
def denom_counts (n : Nat) (counts : List Nat) : Option Int :=
  (List.range n).foldlM (fun (denom : Int) i =>
    (counts[i]? : Option Nat).map fun (c : Nat) => wrap32 (denom * fact (c : Int))) (1 : Int)

/-- Source `perm_calc_num`: `fact(sum) / denom`, an `int` division. -/
def perm_calc_num (n : Nat) (counts : List Nat) : Option Int :=
  (sum_counts n counts).bind fun sum =>
  (denom_counts n counts).bind fun denom =>
  if denom = 0 ∨ (fact sum = -2147483648 ∧ denom = -1) then none
  else some (Int.tdiv (fact sum) denom)

/-! ## The permutation table builder -/

/-- The local array `new_counts` of `perm_aux` and `linearizable_aux`:
`new_counts[j] = j==i ? counts[j]-1 : counts[j]` for `j < len`. -/
def new_counts (len : Nat) (counts : List Nat) (i : Nat) : Option (List Nat) :=
  (List.range len).mapM fun j =>
    (counts[j]? : Option Nat).map fun (c : Nat) => if j = i then c - 1 else c

/-- The loop `for (j = 0; j < np; j++) table[i0+j][j0] = i;` of `perm_aux`. -/
def perm_fill (table : Table) (i0 : Int) (j0 : Nat) (i : Nat) (np : Int) : Option Table :=
  (List.range np.toNat).foldlM
    (fun (t : Table) (j : Nat) => table_write t (i0 + (j : Int)) j0 (i : Int)) table

/-- One iteration of the loop over `i` of `perm_aux`; the state is the table and
`i0`, and `recur` is the recursive call for column `j0 + 1`. -/
def perm_aux_iter (recur : Table → Int → List Nat → Option Table)
    (j0 len : Nat) (counts : List Nat) (st : Table × Int) (i : Nat) : Option (Table × Int) :=
  (counts[i]? : Option Nat).bind fun c =>
    if c ≠ 0 then
      (new_counts len counts i).bind fun nc =>
      (perm_calc_num len nc).bind fun np =>
      (perm_fill st.1 st.2 j0 i np).bind fun t1 =>
      (recur t1 st.2 nc).bind fun t2 =>
      some (t2, st.2 + np)
    else some st

/-- Source `perm_aux`. -/
def perm_aux : Nat → Table → Int → Nat → Nat → List Nat → Option Table
  | 0, table, i0, j0, len, counts =>
    ((List.range len).foldlM
      (perm_aux_iter (fun _ _ _ => none) j0 len counts) (table, i0)).map Prod.fst
  | fuel + 1, table, i0, j0, len, counts =>
    ((List.range len).foldlM
      (perm_aux_iter (fun t i nc => perm_aux fuel t i (j0 + 1) len nc) j0 len counts)
      (table, i0)).map Prod.fst

/-- Source `perm_compute`; `junk` is the content of the memory `malloc` returns. -/
def perm_compute (junk : Nat → Nat → Int) (n : Nat) (counts : List Nat) : Option Table :=
  (perm_calc_num n counts).bind fun num_rows =>
  (sum_counts n counts).bind fun num_cols =>
  perm_aux counts.sum (alloc_table junk num_rows.toNat num_cols.toNat) 0 0 n counts

/-! ## The ordering filter -/

/-- The loop of `check_times` that counts the cells of `row[0 .. m-1]` equal to
`tid_next`. -/
def count_prior (row : List Int) (m : Nat) (tid_next : Int) : Option Nat :=
  (List.range m).foldlM (fun (tid_next_op_index : Nat) i =>
    (row[i]? : Option Int).map fun x =>
      if x = tid_next then tid_next_op_index + 1 else tid_next_op_index) 0

/-- The last loop of `check_times`, over the positions `is` of the row:
`if (next_stop_time < steps[row[i]][ops_index[row[i]]++].start_time) return false;`. -/
def scan_placed (steps : List (List step_t)) (row : List Int) (next_stop_time : Int) :
    List Nat → List Nat → Option Bool
  | [], _ => some true
  | i :: rest, ops_index =>
    (row[i]? : Option Int).bind fun t =>
    (idx_read ops_index t).bind fun k =>
    (idx_read steps t).bind fun th =>
    (th[k]? : Option step_t).bind fun s =>
      if next_stop_time < s.start_time then some false
      else scan_placed steps row next_stop_time rest (ops_index.set t.toNat (k + 1))

/-- Source `check_times`. -/
def check_times (row : List Int) (curr_total_op_count : Nat) (tid_next : Int)
    (schedule : schedule_t) (nthread : Nat) : Option Bool :=
  (count_prior row (curr_total_op_count - 1) tid_next).bind fun tid_next_op_index =>
  (idx_read schedule.steps tid_next).bind fun th =>
  (th[tid_next_op_index]? : Option step_t).bind fun s =>
    if s.stop_time < 0 then
      (if s.stop_time = -2 then some true else none)
    else
      scan_placed schedule.steps row s.stop_time
        (List.range (curr_total_op_count - 1)) (List.replicate nthread 0)

/-- The body of the loop over `j` of `linearizable_aux`, on row `r = i0 + j`. -/
def lin_cell (schedule : schedule_t) (nthread j0 i : Nat) (table : Table) (r : Int) :
    Option Table :=
  (table_read table r 0).bind fun c0 =>
    if c0 ≥ 0 then
      (idx_read table r).bind fun row =>
      (check_times row j0 (i : Int) schedule nthread).bind fun ok =>
        if ok then table_write table r j0 (i : Int) else table_write table r 0 (-1)
    else some table

/-- The loop `for (j = 0; j < np; j++) ...` of `linearizable_aux`. -/
def lin_fill (schedule : schedule_t) (nthread : Nat) (table : Table) (i0 : Int) (j0 : Nat)
    (i : Nat) (np : Int) : Option Table :=
  (List.range np.toNat).foldlM
    (fun (t : Table) (j : Nat) => lin_cell schedule nthread j0 i t (i0 + (j : Int))) table

/-- One iteration of the loop over `i` of `linearizable_aux`. -/
def linearizable_aux_iter (recur : Table → Int → List Nat → Option Table)
    (schedule : schedule_t) (j0 nthread : Nat) (counts : List Nat) (st : Table × Int) (i : Nat) :
    Option (Table × Int) :=
  (counts[i]? : Option Nat).bind fun c =>
    if c ≠ 0 then
      (new_counts nthread counts i).bind fun nc =>
      (perm_calc_num nthread nc).bind fun np =>
      (lin_fill schedule nthread st.1 st.2 j0 i np).bind fun t1 =>
      (recur t1 st.2 nc).bind fun t2 =>
      some (t2, st.2 + np)
    else some st

/-- Source `linearizable_aux`. -/
def linearizable_aux : Nat → Table → Int → Nat → Nat → List Nat → schedule_t → Option Table
  | 0, table, i0, j0, nthread, counts, schedule =>
    ((List.range nthread).foldlM
      (linearizable_aux_iter (fun _ _ _ => none) schedule j0 nthread counts)
      (table, i0)).map Prod.fst
  | fuel + 1, table, i0, j0, nthread, counts, schedule =>
    ((List.range nthread).foldlM
      (linearizable_aux_iter
        (fun t i nc => linearizable_aux fuel t i (j0 + 1) nthread nc schedule)
        schedule j0 nthread counts)
      (table, i0)).map Prod.fst

/-- The table of `num_rows` rows of `num_cols` cells, all set to 0. -/
def zero_table (num_rows num_cols : Nat) : Table :=
  List.replicate num_rows (List.replicate num_cols 0)

/-- Source `perm_compute_linear`. -/
def perm_compute_linear (schedule : schedule_t) (counts : List Nat) : Option Table :=
  (perm_calc_num schedule.nthread counts).bind fun num_rows =>
  linearizable_aux counts.sum (zero_table num_rows.toNat schedule.nstep) 0 0
    schedule.nthread counts schedule

/-! ## Stuck histories -/

/-- The loop `for (; j<ns; j++) if (steps[i][j].result == -2) break;` of
`perm_compute_linear_stuck`, with `k` iterations left before `j` reaches `ns`;
the value is `j` after the loop. -/
def first_pending (steps : List (List step_t)) (i : Nat) : Nat → Nat → Option Nat
  | 0, j => some j
  | k + 1, j =>
    ((steps[i]? : Option (List step_t)).bind fun th => (th[j]? : Option step_t)).bind fun s =>
      if s.result = -2 then some j else first_pending steps i k (j + 1)

/-- The first loop of `perm_compute_linear_stuck`, which fills `counts`. -/
def stuck_counts (schedule : schedule_t) (tid : Int) : Option (List Nat) :=
  (List.range schedule.nthread).mapM fun i =>
    (schedule.nsteps[i]? : Option Nat).bind fun ns =>
    (first_pending schedule.steps i ns 0).bind fun j =>
      if (i : Int) = tid then (if j < ns then some (j + 1) else none) else some j

/-- Source `perm_compute_linear_stuck`.  The C function ends without a `return`;
the value here is what it has computed when it ends, the `counts` array and the
table `result`. -/
def perm_compute_linear_stuck (schedule : schedule_t) (tid : Int) :
    Option (List Nat × Table) :=
  (stuck_counts schedule tid).bind fun counts =>
  (perm_calc_num schedule.nthread counts).bind fun num_rows =>
  (sum_counts schedule.nthread counts).bind fun num_cols =>
  (linearizable_aux counts.sum (zero_table num_rows.toNat num_cols.toNat) 0 0
    schedule.nthread counts schedule).bind fun result =>
  some (counts, result)

/-! ## Definitions used in the statements and proofs -/

/-- The multinomial coefficient written as in the specification. -/
def multinomial (counts : List Nat) : Nat :=
  counts.sum.factorial / (counts.map Nat.factorial).prod

/-- The counts vector with entry `i` decremented, the value of `new_counts`. -/
def decr (counts : List Nat) (i : Nat) : List Nat :=
  counts.set i (counts.getD i 0 - 1)

/-- The rows enumerated for `counts` by a recursion of depth `d`: for each label
`i` with a nonzero count, in ascending order, the rows for the decremented counts
with `i` put in front. -/
def perms : Nat → List Nat → List (List Nat)
  | 0, _ => [[]]
  | d + 1, counts =>
    (List.range counts.length).flatMap fun i =>
      if counts.getD i 0 ≠ 0 then (perms d (decr counts i)).map (fun p => i :: p) else []

/-- Replace row `r` of the table by the result of `f` on it. -/
def row_update (f : List Int → Option (List Int)) (table : Table) (r : Int) : Option Table :=
  (idx_read table r).bind fun row => (f row).map fun row' => table.set r.toNat row'

/-- Write `row[c] = v`. -/
def set_cell (c : Nat) (v : Int) (row : List Int) : Option (List Int) :=
  if c < row.length then some (row.set c v) else none

/-- What `perm_aux` does to a row at column `j0` for label `i`. -/
def perm_op (j0 i : Nat) (row : List Int) : Option (List Int) :=
  set_cell j0 (i : Int) row

/-- What `linearizable_aux` does to a row at column `j0` for label `i`. -/
def lin_op (schedule : schedule_t) (nthread j0 i : Nat) (row : List Int) : Option (List Int) :=
  (row[0]? : Option Int).bind fun c0 =>
    if c0 ≥ 0 then
      (check_times row j0 (i : Int) schedule nthread).bind fun ok =>
        if ok then set_cell j0 (i : Int) row else set_cell 0 (-1) row
    else some row

/-- Apply `f` to every row of a block. -/
def each_row (f : List Int → Option (List Int)) : List (List Int) → Option (List (List Int))
  | [] => some []
  | row :: rows => (f row).bind fun row' => (each_row f rows).map fun rows' => row' :: rows'

/-- Apply the row operation for the labels of `p` to a row, from column `j` on. -/
def run_row (op : Nat → Nat → List Int → Option (List Int)) :
    Nat → List Nat → List Int → Option (List Int)
  | _, [], row => some row
  | j, t :: ts, row => (op j t row).bind fun row' => run_row op (j + 1) ts row'

/-- Apply `run_row` to each row of a block with the label sequence of the same index. -/
def run_block (op : Nat → Nat → List Int → Option (List Int)) (j : Nat) :
    List (List Nat) → List (List Int) → Option (List (List Int))
  | [], [] => some []
  | p :: ps, row :: rows =>
    (run_row op j p row).bind fun row' => (run_block op j ps rows).map fun rows' => row' :: rows'
  | [], _ :: _ => none
  | _ :: _, [] => none

/-- The loop over the rows of a block, for a row operation `f`. -/
def block_fill (f : List Int → Option (List Int)) (table : Table) (i0 : Int) (np : Int) :
    Option Table :=
  (List.range np.toNat).foldlM (fun (t : Table) (j : Nat) => row_update f t (i0 + (j : Int))) table

/-- The loop body shared by `perm_aux` and `linearizable_aux`, for a row operation `op`. -/
def block_iter (op : Nat → Nat → List Int → Option (List Int))
    (recur : Table → Int → List Nat → Option Table)
    (j0 len : Nat) (counts : List Nat) (st : Table × Int) (i : Nat) : Option (Table × Int) :=
  (counts[i]? : Option Nat).bind fun c =>
    if c ≠ 0 then
      (new_counts len counts i).bind fun nc =>
      (perm_calc_num len nc).bind fun np =>
      (block_fill (op j0 i) st.1 st.2 np).bind fun t1 =>
      (recur t1 st.2 nc).bind fun t2 =>
      some (t2, st.2 + np)
    else some st

/-- The recursion shared by `perm_aux` and `linearizable_aux`. -/
def block_aux (op : Nat → Nat → List Int → Option (List Int)) :
    Nat → Table → Int → Nat → Nat → List Nat → Option Table
  | 0, table, i0, j0, len, counts =>
    ((List.range len).foldlM
      (block_iter op (fun _ _ _ => none) j0 len counts) (table, i0)).map Prod.fst
  | fuel + 1, table, i0, j0, len, counts =>
    ((List.range len).foldlM
      (block_iter op (fun t i nc => block_aux op fuel t i (j0 + 1) len nc) j0 len counts)
      (table, i0)).map Prod.fst

/-- The label sequences of the blocks of the labels `is` at one level. -/
def blocks (d : Nat) (counts : List Nat) (is : List Nat) : List (List Nat) :=
  is.flatMap fun i =>
    if counts.getD i 0 ≠ 0 then (perms d (decr counts i)).map (fun p => i :: p) else []

/-- A label sequence as a row of `int` cells. -/
def to_row (p : List Nat) : List Int := p.map fun (x : Nat) => (x : Int)

/-- The rows of the table of `perm_compute`. -/
def perm_rows (counts : List Nat) : Table := (perms counts.sum counts).map to_row

/-- The step that the label at position `i` of the label sequence `p` stands for: the step
of thread `p[i]` whose index is the number of occurrences of `p[i]` before position `i`. -/
def step_at (schedule : schedule_t) (p : List Nat) (i : Nat) : Option step_t :=
  (p[i]? : Option Nat).bind fun t =>
  (schedule.steps[t]? : Option (List step_t)).bind fun th =>
  (th[(p.take i).count t]? : Option step_t)

/-- The comparison `check_times` makes with the placed position `i` of the labels `a`. -/
def placed_ok (schedule : schedule_t) (a : List Nat) (stop : Int) (i : Nat) : Bool :=
  match step_at schedule a i with
  | some sp => !decide (stop < sp.start_time)
  | none => true

/-- The value of `check_times` on a row whose placed cells hold the labels `a`, for the
next label `t`: it reads the step of `t` numbered by the occurrences of `t` among all but
the last placed label, and compares with all but the last placed position. -/
def check_value (schedule : schedule_t) (a : List Nat) (t : Nat) : Option Bool :=
  (schedule.steps[t]? : Option (List step_t)).bind fun th =>
  (th[(a.take (a.length - 1)).count t]? : Option step_t).bind fun s =>
    if s.stop_time < 0 then (if s.stop_time = -2 then some true else none)
    else some ((List.range' 0 (a.length - 1)).all fun i => placed_ok schedule a s.stop_time i)

/-- The array `ops_index` after the positions below `k` have been scanned. -/
def ops_after (nthread : Nat) (a : List Nat) (k : Nat) : List Nat :=
  (List.range nthread).map fun t => (a.take k).count t

/-- The steps of a label sequence all exist, and its labels are thread numbers. -/
def labels_ok (schedule : schedule_t) (nthread : Nat) (a : List Nat) : Prop :=
  ∀ i (hi : i < a.length), a[i] < nthread ∧ ∃ sp, step_at schedule a i = some sp

/-- A stop time is non-negative or the marker -2 of a pending step. -/
def stop_times_ok (schedule : schedule_t) : Prop :=
  ∀ th ∈ schedule.steps, ∀ s ∈ th, 0 ≤ s.stop_time ∨ s.stop_time = -2

/-- The label sequence passes every call of `check_times` made for its row from column
`from_col` on. -/
def checks_pass (schedule : schedule_t) (p : List Nat) (from_col : Nat) : Prop :=
  ∀ j t, from_col ≤ j → p[j]? = some t → check_value schedule (p.take j) t = some true

/-- The real-time rule on a label sequence: no step is placed after a step whose start
time is greater than its own stop time, unless its own stop time is the marker -2. -/
def respects_real_time (schedule : schedule_t) (p : List Nat) : Prop :=
  ∀ q, q < p.length → ∀ pp, pp < q →
    ∀ sq ∈ step_at schedule p q, ∀ sp ∈ step_at schedule p pp,
      ¬ (sq.stop_time ≠ -2 ∧ sq.stop_time < sp.start_time)

instance (schedule : schedule_t) (p : List Nat) : Decidable (respects_real_time schedule p) := by
  unfold respects_real_time
  infer_instance

/-- Every thread has at least as many steps in the schedule as `counts` asks for. -/
def steps_cover (schedule : schedule_t) (counts : List Nat) : Prop :=
  ∀ t (ht : t < counts.length), counts[t] ≤ (schedule.steps.getD t []).length

instance (schedule : schedule_t) (counts : List Nat) : Decidable (steps_cover schedule counts) := by
  unfold steps_cover
  infer_instance

instance (schedule : schedule_t) : Decidable (stop_times_ok schedule) := by
  unfold stop_times_ok
  infer_instance

/-- Two threads with one step each, the step of thread 0 ending (stop 1) before the step
of thread 1 starts (start 2). -/
def sched_sequential : schedule_t :=
  { nthread := 2, nstep := 2, nsteps := [1, 1],
    steps := [[{ start_time := 0, stop_time := 1, result := 0 }],
              [{ start_time := 2, stop_time := 3, result := 0 }]] }

/-- Two threads with one step each: thread A (label 0) runs from 0 to 5 and thread B
(label 1) from 1 to 2, inside the step of A. -/
def sched_overlap : schedule_t :=
  { nthread := 2, nstep := 2, nsteps := [1, 1],
    steps := [[{ start_time := 0, stop_time := 5, result := 0 }],
              [{ start_time := 1, stop_time := 2, result := 0 }]] }

/-- The index of the first step with result -2 among the first `ns` steps of a thread, and
`ns` when there is none. -/
def first_pending_index (th : List step_t) (ns : Nat) : Nat :=
  (th.take ns).findIdx fun s => decide (s.result = -2)

/-- The schedule of the stuck-history scenario: thread 0 has one completed step with
result `r0`, thread 1 has one pending step. -/
def sched_stuck (r0 : Int) : schedule_t :=
  { nthread := 2, nstep := 2, nsteps := [1, 1],
    steps := [[{ start_time := 0, stop_time := 1, result := r0 }],
              [{ start_time := 2, stop_time := -2, result := -2 }]] }

/-- The arrays `nsteps` and `steps` have an entry for each thread, and `nsteps[i]` is at
most the number of steps stored for thread `i`. -/
def schedule_wf (schedule : schedule_t) : Prop :=
  schedule.nsteps.length = schedule.nthread ∧
    ∀ i (hi : i < schedule.nsteps.length), schedule.nsteps[i] ≤ (schedule.steps.getD i []).length

instance (schedule : schedule_t) : Decidable (schedule_wf schedule) := by
  unfold schedule_wf
  infer_instance

/-- The sum of the counts as `perm_calc_num` computes it, in `int` arithmetic. -/
def wrapped_sum (counts : List Nat) : Int :=
  counts.foldl (fun (sum : Int) (c : Nat) => wrap32 (sum + (c : Int))) 0

/-- The product of the factorials of the counts as `perm_calc_num` computes it, in `int`
arithmetic. -/
def wrapped_denom (counts : List Nat) : Int :=
  counts.foldl (fun (denom : Int) (c : Nat) => wrap32 (denom * fact (c : Int))) 1

/-- Two threads: thread 0 has a completed step (5 to 6) and then a pending step, thread 1
has one step that starts at 10. -/
def sched_pending : schedule_t :=
  { nthread := 2, nstep := 3, nsteps := [2, 1],
    steps := [[{ start_time := 5, stop_time := 6, result := 0 },
               { start_time := 7, stop_time := -2, result := -2 }],
              [{ start_time := 10, stop_time := 11, result := 0 }]] }

/-- The row that `linearizable_aux` leaves for a label sequence: with the labels `a`
placed, the labels `b` still to place and `k` cells still holding 0, the next label is
written when `check_times` does not return false, and otherwise the first cell is set to
-1 and the row stays as it is. -/
def lin_cells (schedule : schedule_t) : List Nat → List Nat → Nat → List Int
  | a, [], k => to_row a ++ List.replicate k 0
  | a, t :: b, k =>
    if check_value schedule a t = some false then
      (to_row a ++ List.replicate k 0).set 0 (-1)
    else lin_cells schedule (a ++ [t]) b (k - 1)

/-- The rows of the table of `perm_compute_linear`. -/
def lin_rows (schedule : schedule_t) (counts : List Nat) : Table :=
  (perms counts.sum counts).map fun p => lin_cells schedule [] p schedule.nstep

/-- Every row that is flagged in `t` (its first cell is negative) is the same row in `t2`. -/
def frozen (t t2 : Table) : Prop :=
  ∀ (r : Nat) (row : List Int) (c0 : Int),
    t[r]? = some row → row[0]? = some c0 → c0 < 0 → t2[r]? = some row

/-- The schedule with the steps of each thread `t` cut down to the first `counts[t]`, so
that a read of `steps[t][k]` with `counts[t] ≤ k` is a read outside the array. -/
def restrict_steps (schedule : schedule_t) (counts : List Nat) : schedule_t :=
  { schedule with
    steps := List.zipWith (fun (th : List step_t) (c : Nat) => th.take c) schedule.steps counts }

/-- The read of `steps[t][k]`. -/
def step_read (schedule : schedule_t) (t k : Nat) : Option step_t :=
  (schedule.steps[t]? : Option (List step_t)).bind fun th => (th[k]? : Option step_t)

/-- A write `table[r][c] = v`, as the triple `(r, c, v)`. -/
abbrev Write := Int × Nat × Int

/-- The writes of the loop `for (j = 0; j < np; j++) table[i0+j][j0] = i;` of `perm_aux`,
in the order in which they are made. -/
def perm_fill_writes (i0 : Int) (j0 : Nat) (i : Nat) (np : Int) : List Write :=
  (List.range np.toNat).map fun (j : Nat) => (i0 + (j : Int), j0, (i : Int))

/-- One iteration of the loop over `i` of `perm_aux`, recording the writes instead of
making them; the state is the list of writes so far and `i0`. -/
def perm_aux_writes_iter (recur : Int → List Nat → Option (List Write))
    (j0 len : Nat) (counts : List Nat) (st : List Write × Int) (i : Nat) :
    Option (List Write × Int) :=
  (counts[i]? : Option Nat).bind fun c =>
    if c ≠ 0 then
      (new_counts len counts i).bind fun nc =>
      (perm_calc_num len nc).bind fun np =>
      (recur st.2 nc).bind fun ws =>
      some (st.1 ++ perm_fill_writes st.2 j0 i np ++ ws, st.2 + np)
    else some st

/-- Source `perm_aux`, recording the writes `table[i0+j][j0] = i` instead of making them. -/
def perm_aux_writes : Nat → Int → Nat → Nat → List Nat → Option (List Write)
  | 0, i0, j0, len, counts =>
    ((List.range len).foldlM
      (perm_aux_writes_iter (fun _ _ => none) j0 len counts) ([], i0)).map Prod.fst
  | fuel + 1, i0, j0, len, counts =>
    ((List.range len).foldlM
      (perm_aux_writes_iter (fun i nc => perm_aux_writes fuel i (j0 + 1) len nc) j0 len counts)
      ([], i0)).map Prod.fst

/-- Make the recorded writes on a table, in order. -/
def replay (ws : List Write) (table : Table) : Option Table :=
  ws.foldlM (fun (t : Table) (w : Write) => table_write t w.1 w.2.1 w.2.2) table

/-- The cells of a list of writes. -/
def cells (ws : List Write) : List (Int × Nat) := ws.map fun (w : Write) => (w.1, w.2.1)

/-- Two threads with 7 and 6 completed steps, 13 steps in all. -/
def sched_thirteen : schedule_t :=
  { nthread := 2, nstep := 13, nsteps := [7, 6],
    steps := [List.replicate 7 { start_time := 0, stop_time := 0, result := 0 },
              List.replicate 6 { start_time := 0, stop_time := 0, result := 0 }] }

/-! # Lemmas and theorems -/

theorem wrap32_of_range (x : Int) (h1 : -2147483648 ≤ x) (h2 : x < 2147483648) :
    wrap32 x = x := by
  unfold wrap32; omega

theorem fact_small : ∀ n : Nat, n ≤ 12 → fact (n : Int) = (n.factorial : Int) := by
  decide

theorem factorial_le_12 {n : Nat} (h : n ≤ 12) : n.factorial ≤ 479001600 := by
  have := Nat.factorial_le h
  simpa using this

theorem prod_factorial_dvd (counts : List Nat) :
    (counts.map Nat.factorial).prod ∣ counts.sum.factorial := by
  induction counts with
  | nil => simp
  | cons c cs ih =>
    simp only [List.map_cons, List.prod_cons, List.sum_cons]
    exact (Nat.mul_dvd_mul_left _ ih).trans (Nat.factorial_mul_factorial_dvd_factorial_add c cs.sum)

theorem prod_factorial_pos (counts : List Nat) : 0 < (counts.map Nat.factorial).prod := by
  induction counts with
  | nil => simp
  | cons c cs ih =>
    simp only [List.map_cons, List.prod_cons]
    exact Nat.mul_pos (Nat.factorial_pos c) ih

theorem multinomial_mul (counts : List Nat) :
    multinomial counts * (counts.map Nat.factorial).prod = counts.sum.factorial :=
  Nat.div_mul_cancel (prod_factorial_dvd counts)

theorem sum_take_le (counts : List Nat) (m : Nat) : (counts.take m).sum ≤ counts.sum := by
  conv_rhs => rw [← List.take_append_drop m counts]
  rw [List.sum_append]
  omega

theorem prod_factorial_take_le (counts : List Nat) (m : Nat) :
    ((counts.take m).map Nat.factorial).prod ≤ (counts.map Nat.factorial).prod := by
  conv_rhs => rw [← List.take_append_drop m counts]
  rw [List.map_append, List.prod_append]
  exact Nat.le_mul_of_pos_right _ (prod_factorial_pos _)

theorem mem_le_sum {counts : List Nat} {c : Nat} (h : c ∈ counts) : c ≤ counts.sum :=
  List.single_le_sum (by simp) c h

theorem sum_counts_take (counts : List Nat) (hs : counts.sum ≤ 12) :
    ∀ m, m ≤ counts.length → sum_counts m counts = some (((counts.take m).sum : Nat) : Int) := by
  intro m
  induction m with
  | zero => intro _; simp [sum_counts]
  | succ m ih =>
    intro hm
    have hlt : m < counts.length := hm
    have ih' := ih (Nat.le_of_lt hlt)
    unfold sum_counts at ih' ⊢
    rw [List.range_succ, List.foldlM_append, ih']
    have h1 := sum_take_le counts (m + 1)
    rw [List.take_succ, List.getElem?_eq_getElem hlt] at h1 ⊢
    simp only [Option.toList_some, List.sum_append, List.sum_cons, List.sum_nil] at h1 ⊢
    simp only [List.foldlM_cons, List.foldlM_nil, Option.map_some', Option.some_bind,
      Option.bind_eq_bind, Option.pure_def, Option.bind_some, List.getElem?_eq_getElem hlt]
    rw [wrap32_of_range _ (by omega) (by omega)]
    congr 1

theorem denom_counts_take (counts : List Nat) (hs : counts.sum ≤ 12) :
    ∀ m, m ≤ counts.length →
      denom_counts m counts = some ((((counts.take m).map Nat.factorial).prod : Nat) : Int) := by
  intro m
  have hP : (counts.map Nat.factorial).prod ≤ 479001600 :=
    (Nat.le_of_dvd (Nat.factorial_pos _) (prod_factorial_dvd counts)).trans (factorial_le_12 hs)
  induction m with
  | zero => intro _; simp [denom_counts]
  | succ m ih =>
    intro hm
    have hlt : m < counts.length := hm
    have ih' := ih (Nat.le_of_lt hlt)
    unfold denom_counts at ih' ⊢
    rw [List.range_succ, List.foldlM_append, ih']
    have h1 := (prod_factorial_take_le counts (m + 1)).trans hP
    have hc : counts[m] ≤ 12 := (mem_le_sum (List.getElem_mem hlt)).trans hs
    rw [List.take_succ, List.getElem?_eq_getElem hlt] at h1 ⊢
    simp only [Option.toList_some, List.map_append, List.map_cons, List.map_nil,
      List.prod_append, List.prod_cons, List.prod_nil, mul_one] at h1 ⊢
    simp only [List.foldlM_cons, List.foldlM_nil, Option.map_some', Option.some_bind,
      Option.bind_eq_bind, Option.pure_def, Option.bind_some, List.getElem?_eq_getElem hlt,
      fact_small _ hc]
    rw [wrap32_of_range]
    · push_cast; rfl
    · have : (0 : Int) ≤ ((((counts.take m).map Nat.factorial).prod * counts[m].factorial : Nat) : Int) :=
        Int.natCast_nonneg _
      push_cast at this; omega
    · have : ((((counts.take m).map Nat.factorial).prod * counts[m].factorial : Nat) : Int) < 2147483648 := by
        exact_mod_cast (by omega : ((counts.take m).map Nat.factorial).prod * counts[m].factorial < 2147483648)
      push_cast at this; omega

theorem sum_counts_eq (n : Nat) (counts : List Nat) (hn : counts.length = n)
    (hs : counts.sum ≤ 12) : sum_counts n counts = some ((counts.sum : Nat) : Int) := by
  have := sum_counts_take counts hs n (by omega)
  rwa [← hn, List.take_length, hn] at this

theorem denom_counts_eq (n : Nat) (counts : List Nat) (hn : counts.length = n)
    (hs : counts.sum ≤ 12) :
    denom_counts n counts = some (((counts.map Nat.factorial).prod : Nat) : Int) := by
  have := denom_counts_take counts hs n (by omega)
  rwa [← hn, List.take_length, hn] at this

theorem perm_calc_num_eq (n : Nat) (counts : List Nat) (hn : counts.length = n)
    (hs : counts.sum ≤ 12) :
    perm_calc_num n counts = some ((multinomial counts : Nat) : Int) := by
  unfold perm_calc_num
  rw [sum_counts_eq n counts hn hs, denom_counts_eq n counts hn hs]
  simp only [Option.some_bind, fact_small _ hs]
  have hpos := prod_factorial_pos counts
  have hf := Nat.factorial_pos counts.sum
  rw [if_neg]
  · unfold multinomial
    rw [Int.tdiv_eq_ediv (by positivity) (by positivity)]
    norm_cast
  · rintro (h | ⟨h, _⟩)
    · have : (counts.map Nat.factorial).prod = 0 := by exact_mod_cast h
      omega
    · have : (0 : Int) ≤ (counts.sum.factorial : Int) := Int.natCast_nonneg _
      omega

theorem decr_length (counts : List Nat) (i : Nat) : (decr counts i).length = counts.length := by
  simp [decr]

theorem split_at (counts : List Nat) (i : Nat) (hi : i < counts.length) :
    counts = counts.take i ++ counts[i] :: counts.drop (i + 1) := by
  rw [← List.drop_eq_getElem_cons hi, List.take_append_drop]

theorem decr_split (counts : List Nat) (i : Nat) (hi : i < counts.length) :
    decr counts i = counts.take i ++ (counts[i] - 1) :: counts.drop (i + 1) := by
  unfold decr
  rw [List.set_eq_take_append_cons_drop, if_pos hi, List.getD_eq_getElem _ _ hi]

theorem decr_sum (counts : List Nat) (i : Nat) (hi : i < counts.length) (hc : counts[i] ≠ 0) :
    (decr counts i).sum + 1 = counts.sum := by
  rw [decr_split counts i hi]
  conv_rhs => rw [split_at counts i hi]
  simp only [List.sum_append, List.sum_cons]
  omega

theorem decr_prod (counts : List Nat) (i : Nat) (hi : i < counts.length) (hc : counts[i] ≠ 0) :
    (counts.map Nat.factorial).prod = counts[i] * ((decr counts i).map Nat.factorial).prod := by
  rw [decr_split counts i hi]
  conv_lhs => rw [split_at counts i hi]
  simp only [List.map_append, List.map_cons, List.prod_append, List.prod_cons]
  obtain ⟨k, hk⟩ := Nat.exists_eq_succ_of_ne_zero hc
  rw [hk, Nat.succ_sub_one, Nat.factorial_succ]
  simp only [Nat.succ_eq_add_one]
  ring

theorem decr_getElem (counts : List Nat) (i j : Nat) (hj : j < counts.length)
    (hd : j < (decr counts i).length) :
    (decr counts i)[j] = if j = i then counts[j] - 1 else counts[j] := by
  unfold decr
  rw [List.getElem_set]
  by_cases h : i = j
  · subst h; rw [if_pos rfl, if_pos rfl, List.getD_eq_getElem _ _ hj]
  · rw [if_neg h, if_neg (Ne.symm h)]

theorem mapM_range_some {α : Type} (f : Nat → Option α) (g : Nat → α) :
    ∀ n, (∀ j, j < n → f j = some (g j)) → (List.range n).mapM f = some ((List.range n).map g) := by
  intro n
  induction n with
  | zero => intro _; rfl
  | succ n ih =>
    intro h
    rw [List.range_succ, List.mapM_append, ih (fun j hj => h j (Nat.lt_succ_of_lt hj)),
      List.mapM_cons, List.mapM_nil, h n (Nat.lt_succ_self n), List.map_append]
    rfl

theorem new_counts_eq (len : Nat) (counts : List Nat) (i : Nat) (hn : counts.length = len) :
    new_counts len counts i = some (decr counts i) := by
  unfold new_counts
  rw [mapM_range_some _ (fun j => if j = i then counts.getD j 0 - 1 else counts.getD j 0)]
  · congr 1
    apply List.ext_getElem
    · simp [decr_length, hn]
    · intro j h1 h2
      have h2' := h2
      rw [decr_length] at h2
      rw [decr_getElem counts i j h2 h2', List.getElem_map, List.getElem_range,
        List.getD_eq_getElem _ _ h2]
  · intro j hj
    have hj' : j < counts.length := by omega
    rw [List.getElem?_eq_getElem hj', List.getD_eq_getElem _ _ hj']
    rfl

/-- The part of the block-size sum over the labels below `m`. -/
theorem block_sum_upto (counts : List Nat) :
    ∀ m, m ≤ counts.length →
      ((List.range m).map fun i =>
          if counts.getD i 0 ≠ 0 then multinomial (decr counts i) else 0).sum
        * (counts.map Nat.factorial).prod
        = (counts.sum - 1).factorial * (counts.take m).sum := by
  intro m
  induction m with
  | zero => intro _; simp
  | succ m ih =>
    intro hm
    have hlt : m < counts.length := hm
    rw [List.range_succ, List.map_append, List.sum_append, Nat.add_mul, ih (Nat.le_of_lt hlt),
      List.take_succ, List.getElem?_eq_getElem hlt]
    simp only [List.map_cons, List.map_nil, List.sum_cons, List.sum_nil, Option.toList_some,
      List.sum_append, Nat.add_zero, Nat.mul_add, List.getD_eq_getElem _ _ hlt]
    congr 1
    by_cases hc : counts[m] = 0
    · simp [hc]
    · rw [if_pos hc, decr_prod counts m hlt hc, Nat.mul_comm counts[m], ← Nat.mul_assoc,
        multinomial_mul]
      have := decr_sum counts m hlt hc
      congr 2
      omega

/-- The block sizes of one level add up to the size of the whole block. -/
theorem block_sum (counts : List Nat) (hpos : counts.sum ≠ 0) :
    ((List.range counts.length).map fun i =>
        if counts.getD i 0 ≠ 0 then multinomial (decr counts i) else 0).sum
      = multinomial counts := by
  have h := block_sum_upto counts counts.length (Nat.le_refl _)
  rw [List.take_length] at h
  have h2 : (counts.sum - 1).factorial * counts.sum = counts.sum.factorial := by
    obtain ⟨k, hk⟩ := Nat.exists_eq_succ_of_ne_zero hpos
    rw [hk, Nat.succ_sub_one, Nat.factorial_succ, Nat.mul_comm]
  rw [h2, ← multinomial_mul counts] at h
  exact Nat.eq_of_mul_eq_mul_right (prod_factorial_pos counts) h

theorem multinomial_of_sum_zero (counts : List Nat) (h : counts.sum = 0) :
    multinomial counts = 1 := by
  have hz : ∀ c ∈ counts, c = 0 := fun c hc => Nat.le_zero.mp (h ▸ mem_le_sum hc)
  have hp : (counts.map Nat.factorial).prod = 1 := by
    apply List.prod_eq_one
    intro x hx
    obtain ⟨c, hc, rfl⟩ := List.mem_map.mp hx
    rw [hz c hc]; rfl
  unfold multinomial
  rw [h, hp]; rfl

theorem perms_length : ∀ (d : Nat) (counts : List Nat), counts.sum = d →
    (perms d counts).length = multinomial counts := by
  intro d
  induction d with
  | zero => intro counts h; simp [perms, multinomial_of_sum_zero counts h]
  | succ d ih =>
    intro counts h
    rw [← block_sum counts (by omega)]
    unfold perms
    rw [List.length_flatMap]
    congr 1
    apply List.map_congr_left
    intro i hi
    have hi' : i < counts.length := List.mem_range.mp hi
    show (if counts.getD i 0 ≠ 0 then (perms d (decr counts i)).map (fun p => i :: p)
      else []).length = _
    by_cases hc : counts.getD i 0 = 0
    · rw [if_neg (not_not.mpr hc), if_neg (not_not.mpr hc)]; rfl
    · rw [if_pos hc, if_pos hc, List.length_map]
      apply ih
      have hc' : counts[i] ≠ 0 := by rwa [List.getD_eq_getElem _ _ hi'] at hc
      have := decr_sum counts i hi' hc'
      omega

theorem set_self_of_getElem? {α : Type} (l : List α) (n : Nat) (a : α) (h : l[n]? = some a) :
    l.set n a = l := by
  apply List.ext_getElem?
  intro m
  rw [List.getElem?_set]
  by_cases hnm : n = m
  · subst hnm
    rw [if_pos rfl, h]
    have : n < l.length := (List.getElem?_eq_some.mp h).1
    simp [this]
  · rw [if_neg hnm]

theorem table_write_eq (table : Table) (r : Int) (c : Nat) (v : Int) :
    table_write table r c v = row_update (set_cell c v) table r := by
  unfold table_write row_update set_cell
  cases idx_read table r with
  | none => rfl
  | some row =>
    simp only [Option.some_bind]
    split <;> rfl

theorem idx_read_toNat {α : Type} (xs : List α) (r : Int) (x : α) (h : idx_read xs r = some x) :
    xs[r.toNat]? = some x := by
  unfold idx_read at h
  split at h
  · exact absurd h (by simp)
  · exact h

theorem lin_cell_eq (schedule : schedule_t) (nthread j0 i : Nat) (table : Table) (r : Int) :
    lin_cell schedule nthread j0 i table r =
      row_update (lin_op schedule nthread j0 i) table r := by
  unfold lin_cell row_update lin_op table_read
  cases hr : idx_read table r with
  | none => rfl
  | some row =>
    simp only [Option.some_bind]
    cases h0 : (row[0]? : Option Int) with
    | none => rfl
    | some c0 =>
      simp only [Option.some_bind]
      by_cases hc : c0 ≥ 0
      · rw [if_pos hc, if_pos hc]
        cases check_times row j0 (i : Int) schedule nthread with
        | none => rfl
        | some ok =>
          simp only [Option.some_bind]
          cases ok
          · simp only [Bool.false_eq_true, if_false, table_write_eq, row_update, hr,
              Option.some_bind]
          · simp only [if_true, table_write_eq, row_update, hr, Option.some_bind]
      · rw [if_neg hc, if_neg hc, Option.map_some',
          set_self_of_getElem? _ _ _ (idx_read_toNat _ _ _ hr)]

theorem perm_fill_eq (table : Table) (i0 : Int) (j0 i : Nat) (np : Int) :
    perm_fill table i0 j0 i np = block_fill (perm_op j0 i) table i0 np := by
  unfold perm_fill block_fill perm_op
  congr 1
  funext t j
  exact table_write_eq _ _ _ _

theorem lin_fill_eq (schedule : schedule_t) (nthread : Nat) (table : Table) (i0 : Int)
    (j0 i : Nat) (np : Int) :
    lin_fill schedule nthread table i0 j0 i np =
      block_fill (lin_op schedule nthread j0 i) table i0 np := by
  unfold lin_fill block_fill
  congr 1
  funext t j
  exact lin_cell_eq _ _ _ _ _ _

theorem perm_aux_iter_eq (recur : Table → Int → List Nat → Option Table) (j0 len : Nat)
    (counts : List Nat) :
    perm_aux_iter recur j0 len counts = block_iter perm_op recur j0 len counts := by
  funext st i
  unfold perm_aux_iter block_iter
  simp only [perm_fill_eq]

theorem linearizable_aux_iter_eq (recur : Table → Int → List Nat → Option Table)
    (schedule : schedule_t) (j0 nthread : Nat) (counts : List Nat) :
    linearizable_aux_iter recur schedule j0 nthread counts =
      block_iter (lin_op schedule nthread) recur j0 nthread counts := by
  funext st i
  unfold linearizable_aux_iter block_iter
  simp only [lin_fill_eq]

theorem perm_aux_eq_block : ∀ (fuel : Nat) (table : Table) (i0 : Int) (j0 len : Nat)
    (counts : List Nat),
    perm_aux fuel table i0 j0 len counts = block_aux perm_op fuel table i0 j0 len counts := by
  intro fuel
  induction fuel with
  | zero => intro table i0 j0 len counts; simp only [perm_aux, block_aux, perm_aux_iter_eq]
  | succ fuel ih =>
    intro table i0 j0 len counts
    simp only [perm_aux, block_aux, perm_aux_iter_eq, ih]

theorem linearizable_aux_eq_block (schedule : schedule_t) (nthread : Nat) :
    ∀ (fuel : Nat) (table : Table) (i0 : Int) (j0 : Nat) (counts : List Nat),
    linearizable_aux fuel table i0 j0 nthread counts schedule =
      block_aux (lin_op schedule nthread) fuel table i0 j0 nthread counts := by
  intro fuel
  induction fuel with
  | zero =>
    intro table i0 j0 counts
    simp only [linearizable_aux, block_aux, linearizable_aux_iter_eq]
  | succ fuel ih =>
    intro table i0 j0 counts
    simp only [linearizable_aux, block_aux, linearizable_aux_iter_eq, ih]

theorem idx_read_append {α : Type} (pre : List α) (x : α) (rest : List α) :
    idx_read (pre ++ x :: rest) (pre.length : Int) = some x := by
  unfold idx_read
  rw [if_neg (by omega), Int.toNat_ofNat, List.getElem?_append_right (Nat.le_refl _)]
  simp

theorem each_row_length (f : List Int → Option (List Int)) :
    ∀ (rows rows' : List (List Int)), each_row f rows = some rows' → rows'.length = rows.length := by
  intro rows
  induction rows with
  | nil => intro rows' h; simp only [each_row, Option.some.injEq] at h; subst h; rfl
  | cons row rows ih =>
    intro rows' h
    simp only [each_row] at h
    cases h1 : f row with
    | none => rw [h1] at h; exact absurd h (by simp)
    | some r1 =>
      rw [h1, Option.some_bind] at h
      cases h2 : each_row f rows with
      | none => rw [h2] at h; exact absurd h (by simp)
      | some rs =>
        rw [h2, Option.map_some', Option.some.injEq] at h
        subst h
        simp [ih rs h2]

theorem run_block_length (op : Nat → Nat → List Int → Option (List Int)) (j : Nat) :
    ∀ (ps : List (List Nat)) (rows rows' : List (List Int)),
      run_block op j ps rows = some rows' → rows'.length = rows.length := by
  intro ps
  induction ps with
  | nil =>
    intro rows rows' h
    cases rows with
    | nil => simp only [run_block, Option.some.injEq] at h; subst h; rfl
    | cons r rs => simp [run_block] at h
  | cons p ps ih =>
    intro rows rows' h
    cases rows with
    | nil => simp [run_block] at h
    | cons row rows =>
      simp only [run_block] at h
      cases h1 : run_row op j p row with
      | none => rw [h1] at h; exact absurd h (by simp)
      | some r1 =>
        rw [h1, Option.some_bind] at h
        cases h2 : run_block op j ps rows with
        | none => rw [h2] at h; exact absurd h (by simp)
        | some rs =>
          rw [h2, Option.map_some', Option.some.injEq] at h
          subst h
          simp [ih rows rs h2]

/-- The loop over the rows of a block applies the row operation to each row of the block
and leaves the rest of the table alone. -/
theorem block_fill_spec (f : List Int → Option (List Int)) :
    ∀ (block pre post : List (List Int)),
      block_fill f (pre ++ block ++ post) (pre.length : Int) (block.length : Int) =
        (each_row f block).map fun b' => pre ++ b' ++ post := by
  intro block
  induction block with
  | nil => intro pre post; simp [block_fill, each_row]
  | cons row rest ih =>
    intro pre post
    have ih' := ih (pre ++ [row]) post
    unfold block_fill at ih' ⊢
    rw [Int.toNat_ofNat] at ih' ⊢
    rw [List.length_cons, List.range_succ_eq_map, List.foldlM_cons]
    have hr : idx_read (pre ++ row :: rest ++ post) ((pre.length : Int) + ((0 : Nat) : Int))
        = some row := by
      have := idx_read_append pre row (rest ++ post)
      simpa using this
    simp only [row_update, hr, Option.some_bind, each_row]
    cases hf : f row with
    | none => rfl
    | some row' =>
      simp only [Option.map_some', Option.some_bind, Option.bind_eq_bind]
      have ht : (pre ++ row :: rest ++ post).set ((pre.length : Int) + ((0 : Nat) : Int)).toNat row'
          = (pre ++ [row']) ++ rest ++ post := by
        have : ((pre.length : Int) + ((0 : Nat) : Int)).toNat = pre.length := by simp
        rw [this]
        simp [List.set_append]
      rw [ht, List.foldlM_map]
      have ih2 := ih (pre ++ [row']) post
      unfold block_fill at ih2
      rw [Int.toNat_ofNat] at ih2
      have hfun : (fun (t : Table) (j : Nat) =>
            (idx_read t ((pre.length : Int) + ((j.succ : Nat) : Int))).bind fun row =>
              (f row).map fun row' => t.set ((pre.length : Int) + ((j.succ : Nat) : Int)).toNat row')
          = (fun (t : Table) (j : Nat) =>
              row_update f t ((((pre ++ [row']).length : Nat) : Int) + (j : Int))) := by
        funext t j
        unfold row_update
        have : (pre.length : Int) + ((j.succ : Nat) : Int)
            = (((pre ++ [row']).length : Nat) : Int) + (j : Int) := by
          simp only [List.length_append, List.length_singleton]; push_cast; omega
        rw [this]
      rw [hfun, ih2]
      cases each_row f rest with
      | none => rfl
      | some rs => simp

theorem run_block_cons_labels (op : Nat → Nat → List Int → Option (List Int)) (j i : Nat) :
    ∀ (ps : List (List Nat)) (rows : List (List Int)),
      run_block op j (ps.map fun p => i :: p) rows =
        (each_row (op j i) rows).bind fun rows' => run_block op (j + 1) ps rows' := by
  intro ps
  induction ps with
  | nil =>
    intro rows
    cases rows with
    | nil => rfl
    | cons row rows =>
      simp only [List.map_nil, run_block, each_row]
      cases op j i row with
      | none => rfl
      | some r1 =>
        simp only [Option.some_bind]
        cases each_row (op j i) rows with
        | none => rfl
        | some rs => rfl
  | cons p ps ih =>
    intro rows
    cases rows with
    | nil => rfl
    | cons row rows =>
      simp only [List.map_cons, run_block, run_row, each_row, ih rows]
      cases op j i row with
      | none => rfl
      | some r1 =>
        simp only [Option.some_bind]
        cases each_row (op j i) rows with
        | none =>
          simp only [Option.none_bind, Option.map_none']
          cases run_row op (j + 1) p r1 <;> rfl
        | some rs =>
          simp only [Option.some_bind, Option.map_some', run_block]

theorem run_block_append (op : Nat → Nat → List Int → Option (List Int)) (j : Nat) :
    ∀ (ps1 ps2 : List (List Nat)) (b1 b2 : List (List Int)), b1.length = ps1.length →
      run_block op j (ps1 ++ ps2) (b1 ++ b2) =
        (run_block op j ps1 b1).bind fun x => (run_block op j ps2 b2).map fun y => x ++ y := by
  intro ps1
  induction ps1 with
  | nil =>
    intro ps2 b1 b2 h
    have : b1 = [] := List.length_eq_zero.mp h
    subst this
    simp only [List.nil_append, run_block, Option.some_bind]
    cases run_block op j ps2 b2 <;> rfl
  | cons p ps1 ih =>
    intro ps2 b1 b2 h
    cases b1 with
    | nil => simp at h
    | cons row b1 =>
      have h' : b1.length = ps1.length := by simpa using h
      rw [List.cons_append, List.cons_append]
      simp only [run_block]
      rw [ih ps2 b1 b2 h']
      cases run_row op j p row with
      | none => rfl
      | some r1 =>
        simp only [Option.some_bind]
        cases run_block op j ps1 b1 with
        | none => rfl
        | some x =>
          simp only [Option.some_bind, Option.map_some']
          cases run_block op j ps2 b2 <;> rfl

theorem perms_succ (d : Nat) (counts : List Nat) :
    perms (d + 1) counts = blocks d counts (List.range counts.length) := rfl

theorem block_iter_zero (op : Nat → Nat → List Int → Option (List Int))
    (recur : Table → Int → List Nat → Option Table) (j0 len : Nat) (counts : List Nat)
    (st : Table × Int) (i : Nat) (hi : i < counts.length) (hc : counts[i] = 0) :
    block_iter op recur j0 len counts st i = some st := by
  unfold block_iter
  rw [List.getElem?_eq_getElem hi, Option.some_bind, hc]
  rfl

theorem block_iter_pos (op : Nat → Nat → List Int → Option (List Int))
    (recur : Table → Int → List Nat → Option Table) (j0 len : Nat) (counts : List Nat)
    (st : Table × Int) (i : Nat) (hi : i < counts.length) (hc : counts[i] ≠ 0)
    (hlen : counts.length = len) (hs : counts.sum ≤ 13) :
    block_iter op recur j0 len counts st i =
      (block_fill (op j0 i) st.1 st.2 ((multinomial (decr counts i) : Nat) : Int)).bind fun t1 =>
      (recur t1 st.2 (decr counts i)).bind fun t2 =>
      some (t2, st.2 + ((multinomial (decr counts i) : Nat) : Int)) := by
  unfold block_iter
  have h1 := decr_sum counts i hi hc
  rw [List.getElem?_eq_getElem hi, Option.some_bind, if_pos hc, new_counts_eq len counts i hlen,
    Option.some_bind,
    perm_calc_num_eq len (decr counts i) (by rw [decr_length]; exact hlen) (by omega),
    Option.some_bind]

theorem iter_loop (op : Nat → Nat → List Int → Option (List Int))
    (recur : Table → Int → List Nat → Option Table) (d j0 len : Nat) (counts : List Nat)
    (hlen : counts.length = len) (hsum : counts.sum = d + 1) (hd : d + 1 ≤ 12)
    (hrec : ∀ i, i < len → counts.getD i 0 ≠ 0 → ∀ (pre block post : List (List Int)),
      block.length = multinomial (decr counts i) →
      recur (pre ++ block ++ post) (pre.length : Int) (decr counts i) =
        (run_block op (j0 + 1) (perms d (decr counts i)) block).map fun b' => pre ++ b' ++ post) :
    ∀ (is : List Nat), (∀ i ∈ is, i < len) → ∀ (pre block post : List (List Int)),
      block.length = (blocks d counts is).length →
      is.foldlM (block_iter op recur j0 len counts) (pre ++ block ++ post, (pre.length : Int)) =
        (run_block op j0 (blocks d counts is) block).map fun b' =>
          (pre ++ b' ++ post, ((pre.length + block.length : Nat) : Int)) := by
  intro is
  induction is with
  | nil =>
    intro _ pre block post hb
    have : block = [] := List.length_eq_zero.mp (by simpa [blocks] using hb)
    subst this
    simp [blocks, run_block]
  | cons i is ih =>
    intro his pre block post hb
    have hi : i < len := his i (List.mem_cons_self _ _)
    have hi' : i < counts.length := by omega
    have his' : ∀ k ∈ is, k < len := fun k hk => his k (List.mem_cons_of_mem _ hk)
    have hg : counts.getD i 0 = counts[i] := List.getD_eq_getElem _ _ hi'
    rw [List.foldlM_cons]
    by_cases hc : counts[i] = 0
    · have hbl : blocks d counts (i :: is) = blocks d counts is := by
        simp only [blocks, List.flatMap_cons, hg, hc, ne_eq, not_true_eq_false, if_false,
          List.nil_append]
      rw [block_iter_zero op recur j0 len counts _ i hi' hc, hbl]
      rw [hbl] at hb
      exact ih his' pre block post hb
    · have hbl : blocks d counts (i :: is) =
          (perms d (decr counts i)).map (fun p => i :: p) ++ blocks d counts is := by
        simp only [blocks, List.flatMap_cons, hg, hc, ne_eq, not_false_eq_true, if_true]
      have hds := decr_sum counts i hi' hc
      have hN : (perms d (decr counts i)).length = multinomial (decr counts i) :=
        perms_length d (decr counts i) (by omega)
      rw [hbl, List.length_append, List.length_map, hN] at hb
      obtain ⟨b1, b2, hsplit, hb1⟩ : ∃ b1 b2 : List (List Int),
          block = b1 ++ b2 ∧ b1.length = multinomial (decr counts i) :=
        ⟨block.take (multinomial (decr counts i)), block.drop (multinomial (decr counts i)),
          (List.take_append_drop _ _).symm, by rw [List.length_take]; omega⟩
      subst hsplit
      have hb2 : b2.length = (blocks d counts is).length := by
        rw [List.length_append] at hb; omega
      rw [block_iter_pos op recur j0 len counts _ i hi' hc hlen (by omega), hbl,
        run_block_append op j0 _ _ b1 b2 (by rw [List.length_map, hN, hb1]),
        run_block_cons_labels]
      have hfill := block_fill_spec (op j0 i) b1 pre (b2 ++ post)
      rw [hb1] at hfill
      have htab : pre ++ (b1 ++ b2) ++ post = pre ++ b1 ++ (b2 ++ post) := by
        simp only [List.append_assoc]
      simp only [htab, hfill]
      cases he : each_row (op j0 i) b1 with
      | none => rfl
      | some b1' =>
        have hl1 : b1'.length = multinomial (decr counts i) := by
          rw [each_row_length _ _ _ he, hb1]
        simp only [Option.map_some', Option.some_bind, Option.bind_eq_bind]
        rw [hrec i hi (by rw [hg]; exact hc) pre b1' (b2 ++ post) hl1]
        cases hr : run_block op (j0 + 1) (perms d (decr counts i)) b1' with
        | none => rfl
        | some b1'' =>
          have hl2 : b1''.length = multinomial (decr counts i) := by
            rw [run_block_length _ _ _ _ _ hr, hl1]
          simp only [Option.map_some', Option.some_bind]
          have hst : (pre ++ b1'' ++ (b2 ++ post),
              (pre.length : Int) + ((multinomial (decr counts i) : Nat) : Int))
              = ((pre ++ b1'') ++ b2 ++ post, (((pre ++ b1'').length : Nat) : Int)) := by
            rw [List.length_append, hl2]
            simp only [List.append_assoc, Nat.cast_add]
          rw [hst, ih his' (pre ++ b1'') b2 post hb2]
          cases run_block op j0 (blocks d counts is) b2 with
          | none => rfl
          | some y =>
            simp only [Option.map_some', List.append_assoc, List.length_append, hl2, hb1,
              Nat.add_assoc]

/-- Every count is zero when the sum is zero. -/
theorem getElem_of_sum_zero (counts : List Nat) (h : counts.sum = 0) (i : Nat)
    (hi : i < counts.length) : counts[i] = 0 :=
  Nat.le_zero.mp (h ▸ mem_le_sum (List.getElem_mem hi))

theorem iter_loop_zero (op : Nat → Nat → List Int → Option (List Int))
    (recur : Table → Int → List Nat → Option Table) (j0 len : Nat) (counts : List Nat)
    (hlen : counts.length = len) (hsum : counts.sum = 0) (st : Table × Int) :
    ∀ (is : List Nat), (∀ i ∈ is, i < len) →
      is.foldlM (block_iter op recur j0 len counts) st = some st := by
  intro is
  induction is with
  | nil => intro _; rfl
  | cons i is ih =>
    intro his
    have hi : i < counts.length := by rw [hlen]; exact his i (List.mem_cons_self _ _)
    rw [List.foldlM_cons,
      block_iter_zero op recur j0 len counts st i hi (getElem_of_sum_zero counts hsum i hi)]
    exact ih fun k hk => his k (List.mem_cons_of_mem _ hk)

theorem block_aux_unfold (op : Nat → Nat → List Int → Option (List Int)) (fuel : Nat)
    (table : Table) (i0 : Int) (j0 len : Nat) (counts : List Nat) :
    block_aux op fuel table i0 j0 len counts =
      ((List.range len).foldlM
        (block_iter op
          (match fuel with
            | 0 => fun _ _ _ => none
            | f + 1 => fun t i nc => block_aux op f t i (j0 + 1) len nc) j0 len counts)
        (table, i0)).map Prod.fst := by
  cases fuel <;> rfl

/-- The recursion applies to the row of index `k` of its block the row operations for the
labels of the `k`-th enumerated sequence, and leaves the rest of the table alone. -/
theorem block_aux_spec (op : Nat → Nat → List Int → Option (List Int)) (len : Nat) :
    ∀ (d fuel : Nat) (counts : List Nat) (j0 : Nat) (pre block post : List (List Int)),
      d ≤ fuel → counts.length = len → counts.sum = d → d ≤ 12 →
      block.length = multinomial counts →
      block_aux op fuel (pre ++ block ++ post) (pre.length : Int) j0 len counts =
        (run_block op j0 (perms d counts) block).map fun b' => pre ++ b' ++ post := by
  intro d
  induction d with
  | zero =>
    intro fuel counts j0 pre block post _ hlen hsum _ hb
    rw [multinomial_of_sum_zero counts hsum] at hb
    obtain ⟨row, rfl⟩ := List.length_eq_one.mp hb
    rw [block_aux_unfold, iter_loop_zero op _ j0 len counts hlen hsum _ _
      (fun i hi => List.mem_range.mp hi)]
    rfl
  | succ d ih =>
    intro fuel counts j0 pre block post hf hlen hsum hd hb
    obtain ⟨f, rfl⟩ : ∃ f, fuel = f + 1 := ⟨fuel - 1, by omega⟩
    rw [block_aux_unfold, perms_succ, hlen]
    have hb' : block.length = (blocks d counts (List.range len)).length := by
      rw [hb, ← hlen, ← perms_succ, perms_length (d + 1) counts hsum]
    rw [iter_loop op _ d j0 len counts hlen hsum hd _ (List.range len)
      (fun i hi => List.mem_range.mp hi) pre block post hb']
    · cases run_block op j0 (blocks d counts (List.range len)) block <;> rfl
    · intro i hi hc pre' block' post' hbl
      have hi' : i < counts.length := by omega
      have hc' : counts[i] ≠ 0 := by rwa [List.getD_eq_getElem _ _ hi'] at hc
      have hds := decr_sum counts i hi' hc'
      exact ih f (decr counts i) (j0 + 1) pre' block' post' (by omega)
        (by rw [decr_length]; exact hlen) (by omega) (by omega) hbl

/-! ### Properties of the enumerated label sequences -/

theorem decr_getD (counts : List Nat) (i k : Nat) (hi : i < counts.length)
    (hc : counts[i] ≠ 0) :
    (decr counts i).getD k 0 + (if i = k then 1 else 0) = counts.getD k 0 := by
  by_cases hk : k < counts.length
  · have hk' : k < (decr counts i).length := by rw [decr_length]; exact hk
    rw [List.getD_eq_getElem _ _ hk', List.getD_eq_getElem _ _ hk, decr_getElem counts i k hk hk']
    by_cases hik : i = k
    · subst hik; rw [if_pos rfl, if_pos rfl]; omega
    · rw [if_neg hik, if_neg (Ne.symm hik)]; rfl
  · have hk' : ¬ k < (decr counts i).length := by rw [decr_length]; exact hk
    have h1 : (decr counts i).getD k 0 = 0 := by
      rw [List.getD_eq_getElem?_getD, List.getElem?_eq_none (by omega)]; rfl
    have h2 : counts.getD k 0 = 0 := by
      rw [List.getD_eq_getElem?_getD, List.getElem?_eq_none (by omega)]; rfl
    rw [h1, h2, if_neg (by omega)]

theorem mem_perms_succ {d : Nat} {counts : List Nat} {p : List Nat} :
    p ∈ perms (d + 1) counts ↔
      ∃ i, i < counts.length ∧ counts.getD i 0 ≠ 0 ∧
        ∃ q, q ∈ perms d (decr counts i) ∧ p = i :: q := by
  rw [perms_succ, blocks, List.mem_flatMap]
  constructor
  · rintro ⟨i, hi, hp⟩
    by_cases hc : counts.getD i 0 ≠ 0
    · rw [if_pos hc] at hp
      obtain ⟨q, hq, rfl⟩ := List.mem_map.mp hp
      exact ⟨i, List.mem_range.mp hi, hc, q, hq, rfl⟩
    · rw [if_neg hc] at hp
      exact absurd hp (List.not_mem_nil _)
  · rintro ⟨i, hi, hc, q, hq, rfl⟩
    refine ⟨i, List.mem_range.mpr hi, ?_⟩
    rw [if_pos hc]
    exact List.mem_map.mpr ⟨q, hq, rfl⟩

theorem getD_of_sum_zero (counts : List Nat) (h : counts.sum = 0) (k : Nat) :
    counts.getD k 0 = 0 := by
  by_cases hk : k < counts.length
  · rw [List.getD_eq_getElem _ _ hk]; exact getElem_of_sum_zero counts h k hk
  · rw [List.getD_eq_getElem?_getD, List.getElem?_eq_none (by omega)]; rfl

/-- Every enumerated sequence has the length `d`, contains each label as many times as
`counts` says, and contains only labels below the length of `counts`. -/
theorem perms_sound : ∀ (d : Nat) (counts : List Nat) (p : List Nat), counts.sum = d →
    p ∈ perms d counts →
      p.length = d ∧ (∀ k, p.count k = counts.getD k 0) ∧ ∀ x ∈ p, x < counts.length := by
  intro d
  induction d with
  | zero =>
    intro counts p hs hp
    simp only [perms, List.mem_singleton] at hp
    subst hp
    exact ⟨rfl, fun k => by rw [getD_of_sum_zero counts hs k]; rfl, fun x hx => by simp at hx⟩
  | succ d ih =>
    intro counts p hs hp
    obtain ⟨i, hi, hc, q, hq, rfl⟩ := mem_perms_succ.mp hp
    have hc' : counts[i] ≠ 0 := by rwa [List.getD_eq_getElem _ _ hi] at hc
    have hds := decr_sum counts i hi hc'
    obtain ⟨h1, h2, h3⟩ := ih (decr counts i) q (by omega) hq
    refine ⟨by rw [List.length_cons, h1], fun k => ?_, fun x hx => ?_⟩
    · rw [List.count_cons, h2 k, ← decr_getD counts i k hi hc']
      simp only [beq_iff_eq]
    · rcases List.mem_cons.mp hx with rfl | hx
      · exact hi
      · have := h3 x hx
        rwa [decr_length] at this

theorem sum_eq_zero_of_getD (counts : List Nat) (h : ∀ k, counts.getD k 0 = 0) :
    counts.sum = 0 := by
  apply List.sum_eq_zero
  intro x hx
  obtain ⟨k, hk, rfl⟩ := List.getElem_of_mem hx
  rw [← List.getD_eq_getElem _ 0 hk]
  exact h k

/-- Every sequence with the right number of copies of each label is enumerated. -/
theorem perms_complete : ∀ (d : Nat) (counts : List Nat) (s : List Nat), counts.sum = d →
    (∀ x ∈ s, x < counts.length) → (∀ k, s.count k = counts.getD k 0) →
      s ∈ perms d counts := by
  intro d
  induction d with
  | zero =>
    intro counts s hs hx hk
    cases s with
    | nil => simp [perms]
    | cons x s =>
      have := hk x
      rw [getD_of_sum_zero counts hs x, List.count_cons_self] at this
      omega
  | succ d ih =>
    intro counts s hs hx hk
    cases s with
    | nil =>
      have := sum_eq_zero_of_getD counts (fun k => by rw [← hk k]; rfl)
      omega
    | cons x s =>
      have hxl : x < counts.length := hx x (List.mem_cons_self _ _)
      have hcx : counts.getD x 0 ≠ 0 := by
        rw [← hk x, List.count_cons_self]; omega
      have hcx' : counts[x] ≠ 0 := by rwa [List.getD_eq_getElem _ _ hxl] at hcx
      have hds := decr_sum counts x hxl hcx'
      refine mem_perms_succ.mpr ⟨x, hxl, hcx, s, ?_, rfl⟩
      apply ih (decr counts x) s (by omega)
      · intro y hy
        rw [decr_length]
        exact hx y (List.mem_cons_of_mem _ hy)
      · intro k
        have h1 := hk k
        have h2 := decr_getD counts x k hxl hcx'
        rw [List.count_cons] at h1
        simp only [beq_iff_eq] at h1
        omega

/-- The enumeration is in strictly increasing lexicographic order. -/
theorem perms_sorted : ∀ (d : Nat) (counts : List Nat),
    (perms d counts).Pairwise (List.Lex (· < ·)) := by
  intro d
  induction d with
  | zero => intro counts; simp [perms]
  | succ d ih =>
    intro counts
    rw [perms_succ, blocks, List.pairwise_flatMap]
    constructor
    · intro i _
      by_cases hc : counts.getD i 0 ≠ 0
      · rw [if_pos hc, List.pairwise_map]
        exact (ih (decr counts i)).imp fun h => List.Lex.cons h
      · rw [if_neg hc]; exact List.Pairwise.nil
    · apply List.Pairwise.imp_of_mem _ (List.pairwise_lt_range counts.length)
      intro i k _ _ hik p hp q hq
      by_cases hc : counts.getD i 0 ≠ 0
      · rw [if_pos hc] at hp
        obtain ⟨p', _, rfl⟩ := List.mem_map.mp hp
        by_cases hc2 : counts.getD k 0 ≠ 0
        · rw [if_pos hc2] at hq
          obtain ⟨q', _, rfl⟩ := List.mem_map.mp hq
          exact List.Lex.rel hik
        · rw [if_neg hc2] at hq; exact absurd hq (List.not_mem_nil _)
      · rw [if_neg hc] at hp; exact absurd hp (List.not_mem_nil _)

theorem lex_irrefl : ∀ (p : List Nat), ¬ List.Lex (· < ·) p p := by
  intro p
  induction p with
  | nil => intro h; cases h
  | cons x p ih =>
    intro h
    cases h with
    | cons h => exact ih h
    | rel h => exact Nat.lt_irrefl _ h

theorem perms_nodup (d : Nat) (counts : List Nat) : (perms d counts).Nodup := by
  unfold List.Nodup
  apply (perms_sorted d counts).imp
  intro a b h hab
  subst hab
  exact lex_irrefl a h

theorem set_cell_split (a : List Int) (x : Int) (b : List Int) (v : Int) :
    set_cell a.length v (a ++ x :: b) = some (a ++ v :: b) := by
  unfold set_cell
  rw [if_pos (by simp)]
  simp

theorem run_row_perm : ∀ (p : List Nat) (a b c : List Int), b.length = p.length →
    run_row perm_op a.length p (a ++ b ++ c) = some (a ++ to_row p ++ c) := by
  intro p
  induction p with
  | nil =>
    intro a b c hb
    have : b = [] := List.length_eq_zero.mp hb
    subst this
    simp [run_row, to_row]
  | cons t ts ih =>
    intro a b c hb
    cases b with
    | nil => simp at hb
    | cons x b =>
      have hb' : b.length = ts.length := by simpa using hb
      have h1 : a ++ x :: b ++ c = a ++ x :: (b ++ c) := by simp
      have h2 : a ++ (t : Int) :: (b ++ c) = (a ++ [(t : Int)]) ++ b ++ c := by simp
      have h3 : (a ++ [(t : Int)]).length = a.length + 1 := by simp
      rw [run_row, perm_op, h1, set_cell_split, Option.some_bind, h2, ← h3,
        ih (a ++ [(t : Int)]) b c hb']
      simp [to_row]

theorem run_block_perm (d : Nat) : ∀ (ps : List (List Nat)) (rows : List (List Int)),
    rows.length = ps.length → (∀ p ∈ ps, p.length = d) → (∀ row ∈ rows, row.length = d) →
      run_block perm_op 0 ps rows = some (ps.map to_row) := by
  intro ps
  induction ps with
  | nil =>
    intro rows h _ _
    have : rows = [] := List.length_eq_zero.mp h
    subst this
    rfl
  | cons p ps ih =>
    intro rows h hp hr
    cases rows with
    | nil => simp at h
    | cons row rows =>
      have h1 := run_row_perm p [] row []
        (by rw [hp p (List.mem_cons_self _ _), hr row (List.mem_cons_self _ _)])
      simp only [List.nil_append, List.append_nil, List.length_nil] at h1
      rw [run_block, h1, Option.some_bind,
        ih rows (by simpa using h) (fun q hq => hp q (List.mem_cons_of_mem _ hq))
          (fun r hr' => hr r (List.mem_cons_of_mem _ hr'))]
      rfl

theorem alloc_table_length (junk : Nat → Nat → Int) (num_rows num_cols : Nat) :
    (alloc_table junk num_rows num_cols).length = num_rows := by
  simp [alloc_table]

theorem alloc_table_row (junk : Nat → Nat → Int) (num_rows num_cols : Nat) :
    ∀ row ∈ alloc_table junk num_rows num_cols, row.length = num_cols := by
  intro row h
  obtain ⟨r, _, rfl⟩ := List.mem_map.mp h
  simp

/-- The table of `perm_compute` holds the enumerated label sequences, in their order. -/
theorem perm_compute_eq (junk : Nat → Nat → Int) (n : Nat) (counts : List Nat)
    (hn : counts.length = n) (hs : counts.sum ≤ 12) :
    perm_compute junk n counts = some (perm_rows counts) := by
  unfold perm_compute
  rw [perm_calc_num_eq n counts hn hs, sum_counts_eq n counts hn hs]
  simp only [Option.some_bind, Int.toNat_ofNat]
  rw [perm_aux_eq_block]
  have h := block_aux_spec perm_op n counts.sum counts.sum counts 0 []
    (alloc_table junk (multinomial counts) counts.sum) [] (Nat.le_refl _) hn rfl hs
    (alloc_table_length _ _ _)
  simp only [List.nil_append, List.append_nil, List.length_nil, Nat.cast_zero] at h
  rw [h, run_block_perm counts.sum _ _
    (by rw [alloc_table_length, perms_length _ _ rfl])
    (fun p hp => (perms_sound _ _ p rfl hp).1) (alloc_table_row _ _ _)]
  rfl

theorem perm_rows_length (counts : List Nat) :
    (perm_rows counts).length = multinomial counts := by
  rw [perm_rows, List.length_map, perms_length _ _ rfl]

theorem to_row_count (p : List Nat) (k : Nat) : (to_row p).count (k : Int) = p.count k :=
  List.count_map_of_injective p _ (fun _ _ h => Int.ofNat.inj h) k

theorem to_row_length (p : List Nat) : (to_row p).length = p.length := by
  simp [to_row]

theorem to_row_injective : Function.Injective to_row :=
  List.map_injective_iff.mpr fun _ _ h => Int.ofNat.inj h

theorem to_row_lex {p q : List Nat} (h : List.Lex (· < ·) p q) :
    List.Lex (· < ·) (to_row p) (to_row q) := by
  induction h with
  | nil => exact List.Lex.nil
  | cons _ ih => exact List.Lex.cons ih
  | rel h => exact List.Lex.rel (Int.ofNat_lt.mpr h)

theorem sum_indicator (x : Int) : ∀ n : Nat,
    ((List.range n).map fun (i : Nat) => if x = (i : Int) then 1 else 0).sum =
      if 0 ≤ x ∧ x < (n : Int) then 1 else 0 := by
  intro n
  induction n with
  | zero =>
    rw [if_neg (by intro h; have := h.1; have := h.2; simp at *; omega)]
    rfl
  | succ n ih =>
    rw [List.range_succ, List.map_append, List.sum_append, ih]
    simp only [List.map_cons, List.map_nil, List.sum_cons, List.sum_nil, Nat.add_zero]
    by_cases h1 : 0 ≤ x ∧ x < (n : Int)
    · rw [if_pos h1, if_neg (by omega), if_pos (by push_cast; omega)]
    · rw [if_neg h1]
      by_cases h2 : x = (n : Int)
      · rw [if_pos h2, if_pos (by push_cast; omega)]
      · rw [if_neg h2, if_neg (by push_cast; omega)]

/-- The occurrences of the labels below `n` in a row are the cells that hold such a label. -/
theorem sum_count_range (n : Nat) : ∀ s : List Int,
    ((List.range n).map fun (i : Nat) => s.count (i : Int)).sum =
      (s.filter fun x => decide (0 ≤ x ∧ x < (n : Int))).length := by
  intro s
  induction s with
  | nil => simp
  | cons x s ih =>
    have h1 : ((List.range n).map fun (i : Nat) => (x :: s).count (i : Int)) =
        (List.range n).map fun (i : Nat) => s.count (i : Int) + if x = (i : Int) then 1 else 0 := by
      apply List.map_congr_left
      intro i _
      rw [List.count_cons]
      simp only [beq_iff_eq]
    rw [h1, List.sum_map_add, ih, sum_indicator, List.filter_cons]
    by_cases h : 0 ≤ x ∧ x < (n : Int)
    · simp [h]
    · simp [h]

/-- A row with the right length and the right number of copies of each label is the row
of a label sequence with these numbers of copies. -/
theorem arrangement_labels (counts : List Nat) (s : List Int) (hlen : s.length = counts.sum)
    (hcount : ∀ i (hi : i < counts.length), s.count (i : Int) = counts[i]) :
    ∃ p : List Nat, s = to_row p ∧ (∀ x ∈ p, x < counts.length) ∧
      ∀ k, p.count k = counts.getD k 0 := by
  have h1 : ((List.range counts.length).map fun (i : Nat) => s.count (i : Int)) = counts := by
    apply List.ext_getElem
    · simp
    · intro i h1 h2
      rw [List.getElem_map, List.getElem_range]
      exact hcount i h2
  have h2 := sum_count_range counts.length s
  rw [h1, ← hlen] at h2
  have h3 := List.filter_length_eq_length.mp h2.symm
  have h4 : ∀ x ∈ s, 0 ≤ x ∧ x < (counts.length : Int) := fun x hx => by
    simpa using h3 x hx
  have h5 : s = to_row (s.map Int.toNat) := by
    unfold to_row
    rw [List.map_map]
    conv_lhs => rw [← List.map_id s]
    apply List.map_congr_left
    intro x hx
    simp only [Function.comp_apply, id_eq]
    exact (Int.toNat_of_nonneg (h4 x hx).1).symm
  refine ⟨s.map Int.toNat, h5, ?_, ?_⟩
  · intro y hy
    obtain ⟨x, hx, rfl⟩ := List.mem_map.mp hy
    have := h4 x hx
    omega
  · intro k
    rw [← to_row_count, ← h5]
    by_cases hk : k < counts.length
    · rw [hcount k hk, List.getD_eq_getElem _ _ hk]
    · rw [List.getD_eq_getElem?_getD, List.getElem?_eq_none (by omega)]
      apply List.count_eq_zero_of_not_mem
      intro hmem
      have := h4 _ hmem
      omega

theorem mem_perm_rows_iff (counts : List Nat) (s : List Int) :
    s ∈ perm_rows counts ↔
      s.length = counts.sum ∧ ∀ i (hi : i < counts.length), s.count (i : Int) = counts[i] := by
  constructor
  · intro h
    obtain ⟨p, hp, rfl⟩ := List.mem_map.mp h
    obtain ⟨h1, h2, _⟩ := perms_sound _ _ p rfl hp
    refine ⟨by rw [to_row_length, h1], fun i hi => ?_⟩
    rw [to_row_count, h2 i, List.getD_eq_getElem _ _ hi]
  · rintro ⟨hlen, hcount⟩
    obtain ⟨p, rfl, h1, h2⟩ := arrangement_labels counts s hlen hcount
    exact List.mem_map.mpr ⟨p, perms_complete _ _ p rfl h1 h2, rfl⟩

theorem perm_rows_sorted (counts : List Nat) :
    (perm_rows counts).Pairwise (List.Lex (· < ·)) := by
  unfold perm_rows
  rw [List.pairwise_map]
  exact (perms_sorted _ _).imp to_row_lex

theorem perm_rows_nodup (counts : List Nat) : (perm_rows counts).Nodup :=
  (perms_nodup _ _).map to_row_injective

theorem perm_rows_labels (counts : List Nat) (row : List Int) (h : row ∈ perm_rows counts) :
    ∀ x ∈ row, 0 ≤ x ∧ x < (counts.length : Int) := by
  obtain ⟨p, hp, rfl⟩ := List.mem_map.mp h
  intro x hx
  obtain ⟨y, hy, rfl⟩ := List.mem_map.mp hx
  have := (perms_sound _ _ p rfl hp).2.2 y hy
  omega

/-! ## The permutation table builder: theorems -/

/-- C3: for counts of `n` entries whose sum is at most 12, the table of `perm_compute` has
`perm_calc_num n counts` rows, every row has `sum counts` cells, holds each label `i < n`
exactly `counts[i]` times, and holds nothing but labels below `n`. -/
theorem perm_compute_rows_are_arrangements (junk : Nat → Nat → Int) (n : Nat)
    (counts : List Nat) (hn : counts.length = n) (hs : counts.sum ≤ 12) :
    ∃ table, perm_compute junk n counts = some table ∧
      perm_calc_num n counts = some (table.length : Int) ∧
      ∀ row ∈ table, row.length = counts.sum ∧
        (∀ i (hi : i < counts.length), row.count (i : Int) = counts[i]) ∧
        ∀ x ∈ row, 0 ≤ x ∧ x < (n : Int) := by
  refine ⟨perm_rows counts, perm_compute_eq junk n counts hn hs, ?_, fun row hrow => ?_⟩
  · rw [perm_calc_num_eq n counts hn hs, perm_rows_length]
  · have h := (mem_perm_rows_iff counts row).mp hrow
    exact ⟨h.1, h.2, hn ▸ perm_rows_labels counts row hrow⟩

/-- C3, on the test of `main`: `counts = [1,1,2,1]` gives 60 rows of 5 cells. -/
theorem perm_compute_main_test :
    ∃ table, perm_compute (fun _ _ => 0) 4 [1, 1, 2, 1] = some table ∧
      perm_calc_num 4 [1, 1, 2, 1] = some (table.length : Int) ∧
      ∀ row ∈ table, row.length = [1, 1, 2, 1].sum ∧
        (∀ i (hi : i < [1, 1, 2, 1].length), row.count (i : Int) = [1, 1, 2, 1][i]) ∧
        ∀ x ∈ row, 0 ≤ x ∧ x < ((4 : Nat) : Int) :=
  perm_compute_rows_are_arrangements (fun _ _ => 0) 4 [1, 1, 2, 1] (by decide) (by decide)

/-- C4: for counts of `n` entries whose sum is at most 12, every sequence of `sum counts`
cells that holds each label `i < n` exactly `counts[i]` times is a row of the table of
`perm_compute`. -/
theorem perm_compute_exhaustive (junk : Nat → Nat → Int) (n : Nat) (counts : List Nat)
    (hn : counts.length = n) (hs : counts.sum ≤ 12) (s : List Int)
    (hlen : s.length = counts.sum)
    (hcount : ∀ i (hi : i < counts.length), s.count (i : Int) = counts[i]) :
    ∃ table, perm_compute junk n counts = some table ∧ s ∈ table :=
  ⟨perm_rows counts, perm_compute_eq junk n counts hn hs,
    (mem_perm_rows_iff counts s).mpr ⟨hlen, hcount⟩⟩

/-- C4, on `counts = [2,1,1]`: the sequence `2,0,1,0` is a row of the table. -/
theorem perm_compute_exhaustive_example :
    ∃ table, perm_compute (fun _ _ => 0) 3 [2, 1, 1] = some table ∧ [2, 0, 1, 0] ∈ table :=
  perm_compute_exhaustive (fun _ _ => 0) 3 [2, 1, 1] (by decide) (by decide) [2, 0, 1, 0]
    (by decide) (by decide)

/-- C5: for counts of `n` entries whose sum is at most 12, each row of the table of
`perm_compute` is lexicographically below the next one, every row is below every later
row, and no two rows are equal. -/
theorem perm_compute_rows_increasing (junk : Nat → Nat → Int) (n : Nat) (counts : List Nat)
    (hn : counts.length = n) (hs : counts.sum ≤ 12) :
    ∃ table, perm_compute junk n counts = some table ∧
      (∀ r (h : r + 1 < table.length), List.Lex (· < ·) table[r] table[r + 1]) ∧
      table.Pairwise (List.Lex (· < ·)) ∧ table.Nodup := by
  refine ⟨perm_rows counts, perm_compute_eq junk n counts hn hs, fun r h => ?_,
    perm_rows_sorted counts, perm_rows_nodup counts⟩
  exact List.pairwise_iff_getElem.mp (perm_rows_sorted counts) r (r + 1) (by omega) h
    (Nat.lt_succ_self r)

/-- C5, on the test of `main`. -/
theorem perm_compute_rows_increasing_main_test :
    ∃ table, perm_compute (fun _ _ => 0) 4 [1, 1, 2, 1] = some table ∧
      (∀ r (h : r + 1 < table.length), List.Lex (· < ·) table[r] table[r + 1]) ∧
      table.Pairwise (List.Lex (· < ·)) ∧ table.Nodup :=
  perm_compute_rows_increasing (fun _ _ => 0) 4 [1, 1, 2, 1] (by decide) (by decide)

/-! ## Counting: theorems -/

/-- C6, as stated, fails: for `counts = [7,6]` the factorial of the sum does not fit an
`int`, and `perm_calc_num` returns 532 where the multinomial coefficient is 1716. -/
theorem perm_calc_num_wraps_at_7_6 :
    perm_calc_num 2 [7, 6] = some 532 ∧ multinomial [7, 6] = 1716 ∧
      perm_calc_num 2 [7, 6] ≠ some ((multinomial [7, 6] : Nat) : Int) := by
  decide

/-- C6, amended: for counts of `n` entries whose sum is at most 12, `perm_calc_num`
returns `(sum counts)! / prod (counts_i !)`, and this is the number of distinct sequences
of `sum counts` cells that hold each label `i < n` exactly `counts[i]` times. -/
theorem perm_calc_num_exact (n : Nat) (counts : List Nat) (hn : counts.length = n)
    (hs : counts.sum ≤ 12) :
    perm_calc_num n counts =
        some ((counts.sum.factorial / (counts.map Nat.factorial).prod : Nat) : Int) ∧
      ∃ L : List (List Int), L.Nodup ∧
        (∀ s, s ∈ L ↔ s.length = counts.sum ∧
          ∀ i (hi : i < counts.length), s.count (i : Int) = counts[i]) ∧
        perm_calc_num n counts = some (L.length : Int) := by
  refine ⟨perm_calc_num_eq n counts hn hs, perm_rows counts, perm_rows_nodup counts,
    mem_perm_rows_iff counts, ?_⟩
  rw [perm_calc_num_eq n counts hn hs, perm_rows_length]

/-- C6, on `counts = [2,1,1]`: the value is `4! / (2! 1! 1!)`, which is 12. -/
theorem perm_calc_num_exact_2_1_1 :
    (perm_calc_num 3 [2, 1, 1] =
        some (([2, 1, 1].sum.factorial / ([2, 1, 1].map Nat.factorial).prod : Nat) : Int) ∧
      ∃ L : List (List Int), L.Nodup ∧
        (∀ s, s ∈ L ↔ s.length = [2, 1, 1].sum ∧
          ∀ i (hi : i < [2, 1, 1].length), s.count (i : Int) = [2, 1, 1][i]) ∧
        perm_calc_num 3 [2, 1, 1] = some (L.length : Int)) ∧
      perm_calc_num 3 [2, 1, 1] = some 12 :=
  ⟨perm_calc_num_exact 3 [2, 1, 1] (by decide) (by decide), by decide⟩

theorem idx_read_nat {α : Type} (xs : List α) (t : Nat) : idx_read xs (t : Int) = xs[t]? := by
  unfold idx_read
  rw [if_neg (by omega), Int.toNat_ofNat]

theorem count_prior_spec (row : List Int) (a : List Nat) (t : Nat) :
    ∀ m, m ≤ a.length → (∀ i, i < m → row[i]? = (a[i]? : Option Nat).map fun (x : Nat) => (x : Int)) →
      count_prior row m (t : Int) = some ((a.take m).count t) := by
  intro m
  induction m with
  | zero => intro _ _; rfl
  | succ m ih =>
    intro hm hrow
    have hlt : m < a.length := hm
    have ih' := ih (Nat.le_of_lt hlt) (fun i hi => hrow i (Nat.lt_succ_of_lt hi))
    unfold count_prior at ih' ⊢
    rw [List.range_succ, List.foldlM_append, ih']
    simp only [Option.bind_eq_bind, Option.some_bind, List.foldlM_cons, List.foldlM_nil,
      hrow m (Nat.lt_succ_self m), List.getElem?_eq_getElem hlt, Option.map_some',
      Option.pure_def, Option.bind_some]
    rw [List.take_succ, List.getElem?_eq_getElem hlt, List.count_append]
    simp only [Option.toList_some, List.count_cons, List.count_nil, beq_iff_eq, Nat.zero_add,
      Nat.cast_inj]
    by_cases h : a[m] = t
    · rw [if_pos h, if_pos h]
    · rw [if_neg h, if_neg h]; rfl

theorem ops_after_zero (nthread : Nat) (a : List Nat) :
    ops_after nthread a 0 = List.replicate nthread 0 := by
  unfold ops_after
  apply List.ext_getElem
  · simp
  · intro i h1 h2
    simp

theorem ops_after_succ (nthread : Nat) (a : List Nat) (k : Nat) (hk : k < a.length) :
    (ops_after nthread a k).set a[k] ((a.take k).count a[k] + 1) = ops_after nthread a (k + 1) := by
  unfold ops_after
  apply List.ext_getElem
  · simp
  · intro i h1 h2
    simp only [List.getElem_set, List.getElem_map, List.getElem_range]
    rw [List.take_succ, List.getElem?_eq_getElem hk, List.count_append]
    simp only [Option.toList_some, List.count_cons, List.count_nil, beq_iff_eq, Nat.zero_add]
    by_cases h : a[k] = i
    · rw [if_pos h, if_pos h, h]
    · rw [if_neg h, if_neg h]; rfl

theorem scan_placed_spec (schedule : schedule_t) (nthread : Nat) (row : List Int)
    (a : List Nat) (stop : Int) :
    ∀ m k, k + m ≤ a.length →
      (∀ i, i < k + m → row[i]? = (a[i]? : Option Nat).map fun (x : Nat) => (x : Int)) →
      (∀ i (hi : i < a.length), i < k + m →
        a[i] < nthread ∧ ∃ sp, step_at schedule a i = some sp) →
      scan_placed schedule.steps row stop (List.range' k m) (ops_after nthread a k) =
        some ((List.range' k m).all fun i => placed_ok schedule a stop i) := by
  intro m
  induction m with
  | zero => intro k _ _ _; rfl
  | succ m ih =>
    intro k hk hrow hval
    have hka : k < a.length := by omega
    obtain ⟨hlt, sp, hsp⟩ := hval k hka (by omega)
    have hsp' := hsp
    unfold step_at at hsp'
    rw [List.getElem?_eq_getElem hka, Option.some_bind] at hsp'
    cases hth : (schedule.steps[a[k]]? : Option (List step_t)) with
    | none => rw [hth] at hsp'; exact absurd hsp' (by simp)
    | some th =>
      rw [hth, Option.some_bind] at hsp'
      have hops : (ops_after nthread a k)[a[k]]? = some ((a.take k).count a[k]) := by
        unfold ops_after
        rw [List.getElem?_map, List.getElem?_range hlt]
        rfl
      rw [List.range'_succ, scan_placed, hrow k (by omega), List.getElem?_eq_getElem hka,
        Option.map_some', Option.some_bind, idx_read_nat, idx_read_nat, hops, Option.some_bind,
        hth, Option.some_bind, hsp', Option.some_bind, List.all_cons, Int.toNat_ofNat]
      have hp : placed_ok schedule a stop k = !decide (stop < sp.start_time) := by
        unfold placed_ok; rw [hsp]
      rw [hp]
      by_cases hcmp : stop < sp.start_time
      · rw [if_pos hcmp]
        simp [hcmp]
      · rw [if_neg hcmp, ops_after_succ nthread a k hka,
          ih (k + 1) (by omega) (fun i hi => hrow i (by omega))
            (fun i hi hi2 => hval i hi (by omega))]
        simp [hcmp]

theorem check_times_spec (schedule : schedule_t) (nthread : Nat) (a : List Nat) (t : Nat)
    (rest : List Int) (hval : labels_ok schedule nthread a) :
    check_times (to_row a ++ rest) a.length (t : Int) schedule nthread =
      check_value schedule a t := by
  have hrow : ∀ i, i < a.length - 1 →
      (to_row a ++ rest)[i]? = (a[i]? : Option Nat).map fun (x : Nat) => (x : Int) := by
    intro i hi
    rw [List.getElem?_append_left (by rw [to_row_length]; omega)]
    unfold to_row
    rw [List.getElem?_map]
  unfold check_times check_value
  rw [count_prior_spec (to_row a ++ rest) a t (a.length - 1) (by omega) hrow, Option.some_bind,
    idx_read_nat]
  cases (schedule.steps[t]? : Option (List step_t)) with
  | none => rfl
  | some th =>
    simp only [Option.some_bind]
    cases (th[(a.take (a.length - 1)).count t]? : Option step_t) with
    | none => rfl
    | some s =>
      simp only [Option.some_bind]
      by_cases h : s.stop_time < 0
      · rw [if_pos h, if_pos h]
      · rw [if_neg h, if_neg h, ← ops_after_zero nthread a, List.range_eq_range']
        exact scan_placed_spec schedule nthread _ a s.stop_time (a.length - 1) 0 (by omega)
          (fun i hi => hrow i (by omega)) (fun i hi _ => hval i hi)

theorem step_at_append_left (schedule : schedule_t) (a b : List Nat) (i : Nat)
    (hi : i < a.length) : step_at schedule (a ++ b) i = step_at schedule a i := by
  unfold step_at
  rw [List.getElem?_append_left hi, List.take_append_of_le_length (Nat.le_of_lt hi)]

theorem labels_ok_left (schedule : schedule_t) (nthread : Nat) (a b : List Nat)
    (h : labels_ok schedule nthread (a ++ b)) : labels_ok schedule nthread a := by
  intro i hi
  have hi' : i < (a ++ b).length := by rw [List.length_append]; omega
  obtain ⟨h1, h2⟩ := h i hi'
  rw [List.getElem_append_left hi] at h1
  rw [step_at_append_left schedule a b i hi] at h2
  exact ⟨h1, h2⟩

theorem check_value_some (schedule : schedule_t) (nthread : Nat) (a : List Nat) (t : Nat)
    (hval : labels_ok schedule nthread (a ++ [t])) (htime : stop_times_ok schedule) :
    ∃ ok, check_value schedule a t = some ok := by
  obtain ⟨_, sp, hsp⟩ := hval a.length (by simp)
  unfold step_at at hsp
  rw [List.getElem?_append_right (Nat.le_refl _)] at hsp
  simp only [Nat.sub_self, List.getElem?_cons_zero, Option.some_bind, List.take_left'] at hsp
  cases hth : (schedule.steps[t]? : Option (List step_t)) with
  | none => rw [hth] at hsp; exact absurd hsp (by simp)
  | some th =>
    rw [hth, Option.some_bind] at hsp
    have h1 : a.count t < th.length := (List.getElem?_eq_some.mp hsp).1
    have h2 : (a.take (a.length - 1)).count t ≤ a.count t :=
      (List.take_sublist _ _).count_le t
    have h3 : (a.take (a.length - 1)).count t < th.length := by omega
    unfold check_value
    rw [hth, Option.some_bind, List.getElem?_eq_getElem h3, Option.some_bind]
    have hmem : th[(a.take (a.length - 1)).count t] ∈ th := List.getElem_mem h3
    have hthm : th ∈ schedule.steps := List.mem_iff_getElem?.mpr ⟨t, hth⟩
    rcases htime th hthm _ hmem with h | h
    · rw [if_neg (by omega)]; exact ⟨_, rfl⟩
    · rw [if_pos (by omega), if_pos h]; exact ⟨_, rfl⟩

theorem to_row_append (a b : List Nat) : to_row (a ++ b) = to_row a ++ to_row b := by
  simp [to_row]

theorem lin_op_spec (schedule : schedule_t) (nthread : Nat) (a : List Nat) (t k : Nat)
    (hval : labels_ok schedule nthread a) :
    lin_op schedule nthread a.length t (to_row a ++ List.replicate (k + 1) 0) =
      (check_value schedule a t).bind fun ok =>
        some (if ok then to_row (a ++ [t]) ++ List.replicate k 0
          else (to_row a ++ List.replicate (k + 1) 0).set 0 (-1)) := by
  have h0 : ∃ c0 : Int, (to_row a ++ List.replicate (k + 1) 0)[0]? = some c0 ∧ c0 ≥ 0 := by
    cases a with
    | nil => exact ⟨0, by simp [to_row, List.replicate_succ], le_refl _⟩
    | cons x a => exact ⟨(x : Int), by simp [to_row], Int.natCast_nonneg x⟩
  obtain ⟨c0, hc0, hpos⟩ := h0
  unfold lin_op
  rw [hc0, Option.some_bind, if_pos hpos, check_times_spec schedule nthread a t _ hval]
  cases check_value schedule a t with
  | none => rfl
  | some ok =>
    simp only [Option.some_bind]
    cases ok
    · simp only [Bool.false_eq_true, if_false]
      unfold set_cell
      rw [if_pos (by simp)]
    · simp only [if_true]
      have h1 := set_cell_split (to_row a) 0 (List.replicate k 0) (t : Int)
      rw [to_row_length] at h1
      rw [List.replicate_succ, h1, to_row_append]
      simp [to_row]

theorem lin_op_flagged (schedule : schedule_t) (nthread j t : Nat) (row : List Int) (c0 : Int)
    (h0 : row[0]? = some c0) (hneg : c0 < 0) :
    lin_op schedule nthread j t row = some row := by
  unfold lin_op
  rw [h0, Option.some_bind, if_neg (by omega)]

theorem run_row_flagged (schedule : schedule_t) (nthread : Nat) (row : List Int) (c0 : Int)
    (h0 : row[0]? = some c0) (hneg : c0 < 0) :
    ∀ (p : List Nat) (j : Nat), run_row (lin_op schedule nthread) j p row = some row := by
  intro p
  induction p with
  | nil => intro j; rfl
  | cons t ts ih =>
    intro j
    rw [run_row, lin_op_flagged schedule nthread j t row c0 h0 hneg, Option.some_bind, ih]

/-- The row of a label sequence after `linearizable_aux`: the row is flagged, or it holds
the labels; it holds the labels when every call of `check_times` passes. -/
theorem run_row_lin (schedule : schedule_t) (nthread : Nat) (htime : stop_times_ok schedule) :
    ∀ (b a : List Nat) (k : Nat), labels_ok schedule nthread (a ++ b) → b.length ≤ k →
      ∃ row, run_row (lin_op schedule nthread) a.length b (to_row a ++ List.replicate k 0)
          = some row ∧
        row.length = a.length + k ∧
        (row[0]? = some (-1) ∨ row = to_row (a ++ b) ++ List.replicate (k - b.length) 0) ∧
        (checks_pass schedule (a ++ b) a.length →
          row = to_row (a ++ b) ++ List.replicate (k - b.length) 0) := by
  intro b
  induction b with
  | nil =>
    intro a k _ _
    refine ⟨_, rfl, by simp [to_row_length], Or.inr (by simp), fun _ => by simp⟩
  | cons t b ih =>
    intro a k hval hk
    obtain ⟨k, rfl⟩ : ∃ k', k = k' + 1 := ⟨k - 1, by simp at hk; omega⟩
    have hsplit : a ++ t :: b = (a ++ [t]) ++ b := by simp
    have hval1 : labels_ok schedule nthread (a ++ [t]) := by
      rw [hsplit] at hval; exact labels_ok_left schedule nthread _ _ hval
    have hval0 : labels_ok schedule nthread a := labels_ok_left schedule nthread _ _ hval1
    obtain ⟨ok, hok⟩ := check_value_some schedule nthread a t hval1 htime
    rw [run_row, lin_op_spec schedule nthread a t k hval0, hok, Option.some_bind]
    cases ok
    · simp only [Bool.false_eq_true, if_false, Option.some_bind]
      have hf : ((to_row a ++ List.replicate (k + 1) 0).set 0 (-1))[0]? = some (-1) := by
        rw [List.getElem?_set_self (by simp)]
      rw [run_row_flagged schedule nthread _ (-1) hf (by omega)]
      refine ⟨_, rfl, by simp [to_row_length], Or.inl hf, fun hpass => ?_⟩
      have := hpass a.length t (Nat.le_refl _)
        (by rw [List.getElem?_append_right (Nat.le_refl _)]; simp)
      rw [List.take_left' rfl, hok] at this
      exact absurd this (by simp)
    · simp only [if_true, Option.some_bind]
      obtain ⟨row, h1, h2, h3, h4⟩ := ih (a ++ [t]) k (by rw [← hsplit]; exact hval)
        (by simp at hk; omega)
      have hl : (a ++ [t]).length = a.length + 1 := by simp
      rw [hl] at h1 h2
      have hk' : k + 1 - (t :: b).length = k - b.length := by simp
      refine ⟨row, h1, by omega, ?_, fun hpass => ?_⟩
      · rw [hsplit, hk']; exact h3
      · rw [hsplit, hk']
        apply h4
        rw [← hsplit]
        intro j t' hj ht'
        exact hpass j t' (by omega) ht'

theorem run_block_rows (op : Nat → Nat → List Int → Option (List Int)) (j : Nat) :
    ∀ (ps : List (List Nat)) (rows rows' : List (List Int)),
      run_block op j ps rows = some rows' →
      ∀ (r : Nat) (p : List Nat) (row : List Int), ps[r]? = some p → rows[r]? = some row →
        rows'[r]? = run_row op j p row := by
  intro ps
  induction ps with
  | nil => intro rows rows' _ r p row hp _; simp at hp
  | cons q ps ih =>
    intro rows rows' h r p row hp hrow
    cases rows with
    | nil => simp at hrow
    | cons row0 rows =>
      simp only [run_block] at h
      cases h1 : run_row op j q row0 with
      | none => rw [h1] at h; exact absurd h (by simp)
      | some r1 =>
        rw [h1, Option.some_bind] at h
        cases h2 : run_block op j ps rows with
        | none => rw [h2] at h; exact absurd h (by simp)
        | some rs =>
          rw [h2, Option.map_some', Option.some.injEq] at h
          subst h
          cases r with
          | zero =>
            simp only [List.getElem?_cons_zero, Option.some.injEq] at hp hrow ⊢
            subst hp hrow
            exact h1.symm
          | succ r =>
            simp only [List.getElem?_cons_succ] at hp hrow ⊢
            exact ih rows rs h2 r p row hp hrow

theorem run_block_some (op : Nat → Nat → List Int → Option (List Int)) (j : Nat) :
    ∀ (ps : List (List Nat)) (rows : List (List Int)), rows.length = ps.length →
      (∀ p ∈ ps, ∀ row ∈ rows, ∃ row', run_row op j p row = some row') →
      ∃ rows', run_block op j ps rows = some rows' := by
  intro ps
  induction ps with
  | nil =>
    intro rows h _
    have : rows = [] := List.length_eq_zero.mp h
    subst this
    exact ⟨[], rfl⟩
  | cons q ps ih =>
    intro rows h hall
    cases rows with
    | nil => simp at h
    | cons row0 rows =>
      obtain ⟨r1, h1⟩ := hall q (List.mem_cons_self _ _) row0 (List.mem_cons_self _ _)
      obtain ⟨rs, h2⟩ := ih rows (by simpa using h) fun p hp row hrow =>
        hall p (List.mem_cons_of_mem _ hp) row (List.mem_cons_of_mem _ hrow)
      exact ⟨r1 :: rs, by rw [run_block, h1, Option.some_bind, h2]; rfl⟩

theorem count_take_lt (p : List Nat) (i : Nat) (hi : i < p.length) :
    (p.take i).count p[i] < p.count p[i] := by
  have h := congrArg (fun l => List.count p[i] l) (split_at p i hi)
  simp only [List.count_append, List.count_cons_self] at h
  omega

theorem perms_labels_ok (schedule : schedule_t) (counts : List Nat)
    (hcover : steps_cover schedule counts) (p : List Nat)
    (hp : p ∈ perms counts.sum counts) : labels_ok schedule counts.length p := by
  obtain ⟨_, h2, h3⟩ := perms_sound _ _ p rfl hp
  intro i hi
  have hlt : p[i] < counts.length := h3 _ (List.getElem_mem hi)
  refine ⟨hlt, ?_⟩
  have hc := count_take_lt p i hi
  rw [h2 p[i], List.getD_eq_getElem _ _ hlt] at hc
  have hle := hcover p[i] hlt
  obtain ⟨th, hth⟩ : ∃ th, schedule.steps[p[i]]? = some th := by
    cases h : (schedule.steps[p[i]]? : Option (List step_t)) with
    | some th => exact ⟨th, rfl⟩
    | none =>
      rw [List.getD_eq_getElem?_getD, h] at hle
      simp only [Option.getD_none, List.length_nil] at hle
      omega
  rw [List.getD_eq_getElem?_getD, hth, Option.getD_some] at hle
  have hidx : (p.take i).count p[i] < th.length := by omega
  exact ⟨th[(p.take i).count p[i]], by
    unfold step_at
    rw [List.getElem?_eq_getElem hi, Option.some_bind, hth, Option.some_bind,
      List.getElem?_eq_getElem hidx]⟩

theorem zero_table_length (num_rows num_cols : Nat) :
    (zero_table num_rows num_cols).length = num_rows := by
  simp [zero_table]

/-- The table of `perm_compute_linear`: row `r` is the row of the `r`-th enumerated
label sequence, flagged or holding the labels, and holding the labels when every call of
`check_times` for it passes. -/
theorem perm_compute_linear_spec (schedule : schedule_t) (counts : List Nat)
    (hn : counts.length = schedule.nthread) (hs : counts.sum ≤ 12)
    (hcols : counts.sum ≤ schedule.nstep) (hcover : steps_cover schedule counts)
    (htime : stop_times_ok schedule) :
    ∃ table, perm_compute_linear schedule counts = some table ∧
      table.length = (perms counts.sum counts).length ∧
      ∀ (r : Nat) (p : List Nat), (perms counts.sum counts)[r]? = some p →
        ∃ row, table[r]? = some row ∧ row.length = schedule.nstep ∧
          (row[0]? = some (-1) ∨
            row = to_row p ++ List.replicate (schedule.nstep - counts.sum) 0) ∧
          (checks_pass schedule p 0 →
            row = to_row p ++ List.replicate (schedule.nstep - counts.sum) 0) := by
  have hrow : ∀ p ∈ perms counts.sum counts,
      ∃ row, run_row (lin_op schedule schedule.nthread) 0 p (List.replicate schedule.nstep 0)
          = some row ∧ row.length = schedule.nstep ∧
        (row[0]? = some (-1) ∨
          row = to_row p ++ List.replicate (schedule.nstep - counts.sum) 0) ∧
        (checks_pass schedule p 0 →
          row = to_row p ++ List.replicate (schedule.nstep - counts.sum) 0) := by
    intro p hp
    have hlen : p.length = counts.sum := (perms_sound _ _ p rfl hp).1
    have hval := perms_labels_ok schedule counts hcover p hp
    rw [hn] at hval
    have h := run_row_lin schedule schedule.nthread htime p [] schedule.nstep
      (by simpa using hval) (by omega)
    simpa [to_row, hlen] using h
  have hlenT : (zero_table (multinomial counts) schedule.nstep).length
      = (perms counts.sum counts).length := by
    rw [zero_table_length, perms_length _ _ rfl]
  obtain ⟨rows, hrows⟩ := run_block_some (lin_op schedule schedule.nthread) 0
    (perms counts.sum counts) (zero_table (multinomial counts) schedule.nstep) hlenT
    (fun p hp row hrow' => by
      rw [zero_table, List.mem_replicate] at hrow'
      obtain ⟨row', h1, _⟩ := hrow p hp
      exact ⟨row', by rw [hrow'.2]; exact h1⟩)
  have hspec := block_aux_spec (lin_op schedule schedule.nthread) schedule.nthread counts.sum
    counts.sum counts 0 [] (zero_table (multinomial counts) schedule.nstep) []
    (Nat.le_refl _) hn rfl hs (zero_table_length _ _)
  simp only [List.nil_append, List.append_nil, List.length_nil, Nat.cast_zero, hrows,
    Option.map_some'] at hspec
  refine ⟨rows, ?_, ?_, ?_⟩
  · unfold perm_compute_linear
    rw [perm_calc_num_eq _ counts hn hs, Option.some_bind, Int.toNat_ofNat,
      linearizable_aux_eq_block, hspec]
  · rw [run_block_length _ _ _ _ _ hrows, hlenT]
  · intro r p hp
    have hr : r < (perms counts.sum counts).length := (List.getElem?_eq_some.mp hp).1
    have hz : (zero_table (multinomial counts) schedule.nstep)[r]?
        = some (List.replicate schedule.nstep 0) := by
      rw [zero_table, List.getElem?_replicate, if_pos (by rw [← perms_length _ _ rfl]; exact hr)]
    obtain ⟨row, h1, h2⟩ := hrow p (List.getElem?_mem hp)
    exact ⟨row, by rw [run_block_rows _ _ _ _ _ hrows r p _ hp hz, h1], h2⟩

theorem step_at_take (schedule : schedule_t) (p : List Nat) (j i : Nat) (hi : i < j)
    (hj : j ≤ p.length) : step_at schedule (p.take j) i = step_at schedule p i := by
  have h := step_at_append_left schedule (p.take j) (p.drop j) i
    (by rw [List.length_take]; omega)
  rw [List.take_append_drop] at h
  exact h.symm

/-- A label sequence that respects the real-time rule passes every call of `check_times`. -/
theorem respects_checks_pass (schedule : schedule_t) (nthread : Nat) (p : List Nat)
    (hval : labels_ok schedule nthread p) (htime : stop_times_ok schedule)
    (hres : respects_real_time schedule p) : checks_pass schedule p 0 := by
  intro j t _ hjt
  obtain ⟨hj, hpt⟩ := List.getElem?_eq_some.mp hjt
  obtain ⟨_, sj, hsj⟩ := hval j hj
  have hsj' := hsj
  unfold step_at at hsj'
  rw [hjt, Option.some_bind] at hsj'
  cases hth : (schedule.steps[t]? : Option (List step_t)) with
  | none => rw [hth] at hsj'; exact absurd hsj' (by simp)
  | some th =>
    rw [hth, Option.some_bind] at hsj'
    have hal : (p.take j).length = j := by rw [List.length_take]; omega
    have htt : (p.take j).take ((p.take j).length - 1) = p.take (j - 1) := by
      rw [hal, List.take_take, Nat.min_eq_left (Nat.sub_le j 1)]
    have key : ∃ q s, q ≤ j ∧ j - 1 ≤ q ∧ step_at schedule p q = some s ∧
        th[(p.take (j - 1)).count t]? = some s := by
      by_cases hlast : 1 ≤ j ∧ p[j - 1]? = some t
      · obtain ⟨h1, h2⟩ := hlast
        obtain ⟨_, s, hs⟩ := hval (j - 1) (by omega)
        have hs' := hs
        unfold step_at at hs'
        rw [h2, Option.some_bind, hth, Option.some_bind] at hs'
        exact ⟨j - 1, s, by omega, Nat.le_refl _, hs, hs'⟩
      · refine ⟨j, sj, Nat.le_refl _, by omega, hsj, ?_⟩
        cases j with
        | zero => exact hsj'
        | succ j =>
          have hj' : j < p.length := by omega
          have hne : p[j] ≠ t := by
            intro h
            apply hlast
            refine ⟨by omega, ?_⟩
            rw [Nat.add_sub_cancel, List.getElem?_eq_getElem hj', h]
          rw [List.take_succ, List.getElem?_eq_getElem hj', List.count_append] at hsj'
          simp only [Option.toList_some, List.count_cons, List.count_nil, beq_iff_eq, hne,
            if_false, Nat.add_zero] at hsj'
          rw [Nat.add_sub_cancel]
          exact hsj'
    obtain ⟨q, s, hq1, hq2, hsq, hidx⟩ := key
    unfold check_value
    rw [hth, Option.some_bind, htt, hidx, Option.some_bind]
    have hstop := htime th (List.getElem?_mem hth) s (List.getElem?_mem hidx)
    by_cases hneg : s.stop_time < 0
    · rw [if_pos hneg, if_pos (by omega)]
    · rw [if_neg hneg]
      congr 1
      rw [List.all_eq_true]
      intro i hi
      have hi' : i < j - 1 := by
        rw [hal] at hi
        have := (List.mem_range'_1.mp hi).2
        omega
      unfold placed_ok
      rw [step_at_take schedule p j i (by omega) (by omega)]
      cases hsp : step_at schedule p i with
      | none => rfl
      | some sp =>
        have := hres q (by omega) i (by omega) s hsq sp hsp
        simp only [Bool.not_eq_true', decide_eq_false_iff_not]
        intro hlt
        exact this ⟨by omega, hlt⟩

theorem labels_of_arrangement (counts : List Nat) (p : List Nat) (hlen : p.length = counts.sum)
    (hcount : ∀ i (hi : i < counts.length), p.count i = counts[i]) :
    p ∈ perms counts.sum counts := by
  obtain ⟨q, hq, h1, h2⟩ := arrangement_labels counts (to_row p)
    (by rw [to_row_length, hlen]) (fun i hi => by rw [to_row_count, hcount i hi])
  have : p = q := to_row_injective hq
  subst this
  exact perms_complete _ _ p rfl h1 h2

/-! ## The ordering filter: theorems -/

/-- C1, evaluation at the failing input: the step of thread 0 ends before the step of
thread 1 starts, and the row `1,0`, which places thread 1 first, is not flagged, because
`check_times` compares with all placed cells but the last one. -/
theorem soundness_fails_on_last_placed :
    perm_compute_linear sched_sequential [1, 1] = some [[0, 1], [1, 0]] ∧
      step_at sched_sequential [1, 0] 1 = some { start_time := 0, stop_time := 1, result := 0 } ∧
      step_at sched_sequential [1, 0] 0 = some { start_time := 2, stop_time := 3, result := 0 } ∧
      ¬ respects_real_time sched_sequential [1, 0] := by
  decide

/-- C2: for a schedule and counts with `counts[t]` at most the number of steps of thread
`t`, stop times non-negative or -2, the sum of the counts at most 12 and at most the number
of columns, every arrangement of the labels that respects the real-time rule is a row of
the table of `perm_compute_linear` (followed by the unused cells, which hold 0), and the
first cell of that row is not -1. -/
theorem filter_complete (schedule : schedule_t) (counts : List Nat)
    (hn : counts.length = schedule.nthread) (hs : counts.sum ≤ 12)
    (hcols : counts.sum ≤ schedule.nstep) (hcover : steps_cover schedule counts)
    (htime : stop_times_ok schedule) (p : List Nat) (hlen : p.length = counts.sum)
    (hcount : ∀ i (hi : i < counts.length), p.count i = counts[i])
    (hrt : respects_real_time schedule p) :
    ∃ table, perm_compute_linear schedule counts = some table ∧
      ∃ r, ∃ h : r < table.length,
        table[r] = to_row p ++ List.replicate (schedule.nstep - counts.sum) 0 ∧
        table[r][0]? ≠ some (-1) := by
  obtain ⟨table, h1, h2, h3⟩ := perm_compute_linear_spec schedule counts hn hs hcols hcover htime
  have hp := labels_of_arrangement counts p hlen hcount
  obtain ⟨r, hr, hrp⟩ := List.getElem_of_mem hp
  have hval := perms_labels_ok schedule counts hcover p hp
  obtain ⟨row, hrow, _, _, h4⟩ := h3 r p (by rw [List.getElem?_eq_getElem hr, hrp])
  have hrow' := h4 (respects_checks_pass schedule counts.length p hval htime hrt)
  obtain ⟨hrt', hget⟩ := List.getElem?_eq_some.mp hrow
  refine ⟨table, h1, r, hrt', by rw [hget, hrow'], ?_⟩
  rw [hget, hrow']
  cases p with
  | nil =>
    cases hk : schedule.nstep - counts.sum with
    | zero => simp [to_row]
    | succ k => simp [to_row, List.replicate_succ]
  | cons x p =>
    simp only [to_row, List.map_cons, List.cons_append, List.getElem?_cons_zero, ne_eq,
      Option.some.injEq]
    omega

/-- C2, on the schedule of two steps one after the other: the arrangement `0,1` respects
the real-time rule and is a row that is not flagged. -/
theorem filter_complete_example :
    ∃ table, perm_compute_linear sched_sequential [1, 1] = some table ∧
      ∃ r, ∃ h : r < table.length,
        table[r] = to_row [0, 1] ++ List.replicate (sched_sequential.nstep - [1, 1].sum) 0 ∧
        table[r][0]? ≠ some (-1) :=
  filter_complete sched_sequential [1, 1] (by decide) (by decide) (by decide) (by decide)
    (by decide) [0, 1] (by decide) (by decide) (by decide)

/-- C7, amended: for a schedule and counts with `nthread` the number of counts, `nstep`
their sum, the sum at most 12, `counts[t]` at most the number of steps of thread `t` and stop times
non-negative or -2, the tables of `perm_compute_linear` and `perm_compute` have
`perm_calc_num` rows each, and every row of the first has -1 in its first cell or is equal
to the row of the same index of the second. -/
theorem filter_rows_flagged_or_equal (junk : Nat → Nat → Int) (schedule : schedule_t)
    (counts : List Nat) (hn : counts.length = schedule.nthread)
    (hcols : schedule.nstep = counts.sum) (hs : counts.sum ≤ 12)
    (hcover : steps_cover schedule counts) (htime : stop_times_ok schedule) :
    ∃ lin tab, perm_compute_linear schedule counts = some lin ∧
      perm_compute junk schedule.nthread counts = some tab ∧
      perm_calc_num schedule.nthread counts = some (lin.length : Int) ∧
      lin.length = tab.length ∧
      ∀ r (h1 : r < lin.length) (h2 : r < tab.length),
        lin[r][0]? = some (-1) ∨ lin[r] = tab[r] := by
  obtain ⟨lin, h1, h2, h3⟩ := perm_compute_linear_spec schedule counts hn hs (by omega) hcover
    htime
  have hlen : lin.length = (perm_rows counts).length := by
    rw [h2, perm_rows, List.length_map]
  refine ⟨lin, perm_rows counts, h1, perm_compute_eq junk _ counts hn hs, ?_, hlen, ?_⟩
  · rw [perm_calc_num_eq _ counts hn hs, hlen, perm_rows_length]
  · intro r hr1 hr2
    have hr : r < (perms counts.sum counts).length := by rw [← h2]; exact hr1
    obtain ⟨row, hrow, _, h4, _⟩ := h3 r _ (List.getElem?_eq_getElem hr)
    obtain ⟨_, hget⟩ := List.getElem?_eq_some.mp hrow
    rw [hget]
    rcases h4 with h4 | h4
    · exact Or.inl h4
    · right
      rw [h4, hcols, Nat.sub_self]
      simp [perm_rows]

/-- C7, on the schedule of two steps one after the other. -/
theorem filter_rows_flagged_or_equal_example :
    ∃ lin tab, perm_compute_linear sched_sequential [1, 1] = some lin ∧
      perm_compute (fun _ _ => 0) sched_sequential.nthread [1, 1] = some tab ∧
      perm_calc_num sched_sequential.nthread [1, 1] = some (lin.length : Int) ∧
      lin.length = tab.length ∧
      ∀ r (h1 : r < lin.length) (h2 : r < tab.length),
        lin[r][0]? = some (-1) ∨ lin[r] = tab[r] :=
  filter_rows_flagged_or_equal (fun _ _ => 0) sched_sequential [1, 1] (by decide) (by decide)
    (by decide) (by decide) (by decide)

/-- C10, as stated, fails: in the scenario of the step of B inside the step of A it is not
the case that the row `A,B` is flagged and the row `B,A` is not. -/
theorem overlap_row_not_flagged :
    ¬ ∃ table, perm_compute_linear sched_overlap [1, 1] = some table ∧
      table.map (fun row => decide (row[0]? = some (-1))) = [true, false] := by
  rintro ⟨table, h1, h2⟩
  have h : perm_compute_linear sched_overlap [1, 1] = some [[0, 1], [1, 0]] := by decide
  rw [h, Option.some.injEq] at h1
  subst h1
  revert h2
  decide

/-- C10, amended: in the scenario of the step of B inside the step of A the table has the
two rows `A,B` and `B,A`, neither is flagged, and both orders respect the real-time rule
(neither step ends before the other starts). -/
theorem overlap_both_rows_survive :
    perm_compute_linear sched_overlap [1, 1] = some [[0, 1], [1, 0]] ∧
      respects_real_time sched_overlap [0, 1] ∧ respects_real_time sched_overlap [1, 0] := by
  decide

theorem first_pending_spec (steps : List (List step_t)) (i : Nat) (th : List step_t)
    (hth : steps.getD i [] = th) :
    ∀ k j, j + k ≤ th.length →
      first_pending steps i k j =
        some (j + ((th.drop j).take k).findIdx fun s => decide (s.result = -2)) := by
  intro k
  induction k with
  | zero => intro j _; simp [first_pending]
  | succ k ih =>
    intro j hj
    have hjl : j < th.length := by omega
    have hs : (steps[i]? : Option (List step_t)) = some th := by
      cases h : (steps[i]? : Option (List step_t)) with
      | some th' =>
        rw [List.getD_eq_getElem?_getD, h, Option.getD_some] at hth
        rw [hth]
      | none =>
        rw [List.getD_eq_getElem?_getD, h] at hth
        simp only [Option.getD_none] at hth
        rw [← hth] at hjl
        simp at hjl
    rw [first_pending, hs, Option.some_bind, List.getElem?_eq_getElem hjl, Option.some_bind,
      List.drop_eq_getElem_cons hjl, List.take_succ_cons, List.findIdx_cons]
    by_cases hr : th[j].result = -2
    · rw [if_pos hr]
      simp [hr]
    · rw [if_neg hr, ih (j + 1) (by omega)]
      simp [hr]
      omega

/-! ## Stuck histories: theorems -/

/-- C8: for a schedule whose arrays have an entry per thread, and a thread `tid` with a
step of result -2 among its `nsteps[tid]` steps (so `tid` is below `nthread`), the first loop of
`perm_compute_linear_stuck` ends without failing the assertion, and the `counts` it fills
have, for every thread other than `tid`, the index of its first step with result -2 (its
number of steps if there is none) and, for `tid`, that index plus one. -/
theorem stuck_counts_spec (schedule : schedule_t) (tid : Nat) (hwf : schedule_wf schedule)
    (hstuck : ∃ s ∈ (schedule.steps.getD tid []).take (schedule.nsteps.getD tid 0),
      s.result = -2) :
    ∃ counts, stuck_counts schedule (tid : Int) = some counts ∧
      counts.length = schedule.nthread ∧
      ∀ i (hi : i < counts.length),
        counts[i] =
          if i = tid then
            first_pending_index (schedule.steps.getD i []) (schedule.nsteps.getD i 0) + 1
          else first_pending_index (schedule.steps.getD i []) (schedule.nsteps.getD i 0) := by
  obtain ⟨hw1, hw2⟩ := hwf
  refine ⟨(List.range schedule.nthread).map fun i =>
      if i = tid then
        first_pending_index (schedule.steps.getD i []) (schedule.nsteps.getD i 0) + 1
      else first_pending_index (schedule.steps.getD i []) (schedule.nsteps.getD i 0), ?_, ?_, ?_⟩
  · unfold stuck_counts
    apply mapM_range_some
    intro i hi
    have hi' : i < schedule.nsteps.length := by omega
    have hns : schedule.nsteps.getD i 0 = schedule.nsteps[i] := List.getD_eq_getElem _ _ hi'
    have hfp := first_pending_spec schedule.steps i _ rfl schedule.nsteps[i] 0
      (by have := hw2 i hi'; omega)
    rw [List.getElem?_eq_getElem hi', Option.some_bind, hfp, Option.some_bind]
    simp only [List.drop_zero, Nat.zero_add, Nat.cast_inj, hns, first_pending_index]
    by_cases h : i = tid
    · rw [if_pos h, if_pos h, if_pos]
      obtain ⟨s, hs, hres⟩ := hstuck
      rw [← h, hns] at hs
      have hlt := List.findIdx_lt_length_of_exists
        (p := fun s : step_t => decide (s.result = -2)) ⟨s, hs, by simpa using hres⟩
      have hlen : ((schedule.steps.getD i []).take schedule.nsteps[i]).length
          = schedule.nsteps[i] := by
        rw [List.length_take]
        have := hw2 i hi'
        omega
      omega
    · rw [if_neg h, if_neg h]
  · simp
  · intro i hi
    simp

/-- C8, on the schedule of the stuck-history scenario with `tid = 1`: the counts are
`[1,1]`. -/
theorem stuck_counts_example :
    (∃ counts, stuck_counts (sched_stuck 7) ((1 : Nat) : Int) = some counts ∧
      counts.length = (sched_stuck 7).nthread ∧
      ∀ i (hi : i < counts.length),
        counts[i] =
          if i = 1 then
            first_pending_index ((sched_stuck 7).steps.getD i [])
              ((sched_stuck 7).nsteps.getD i 0) + 1
          else first_pending_index ((sched_stuck 7).steps.getD i [])
              ((sched_stuck 7).nsteps.getD i 0)) ∧
      stuck_counts (sched_stuck 7) 1 = some [1, 1] :=
  ⟨stuck_counts_spec (sched_stuck 7) 1 (by decide)
    ⟨{ start_time := 2, stop_time := -2, result := -2 }, by decide, by decide⟩, by decide⟩

/-- C9: in the stuck-history scenario (thread 0 with one completed step of result
`r0 ≥ 0`, thread 1 with one pending step), `perm_compute_linear_stuck` with `tid = 1`
computes the counts `[1,1]` and the table of the two rows `0,1` and `1,0`, neither of
which is flagged. -/
theorem stuck_scenario (r0 : Int) (hr : 0 ≤ r0) :
    perm_compute_linear_stuck (sched_stuck r0) 1 = some ([1, 1], [[0, 1], [1, 0]]) := by
  have hc : stuck_counts (sched_stuck r0) 1 = some [1, 1] := by
    have h : ¬ r0 = -2 := by omega
    have hrange : List.range (sched_stuck r0).nthread = [0, 1] := rfl
    unfold stuck_counts
    rw [hrange, List.mapM_cons, List.mapM_cons, List.mapM_nil]
    simp [sched_stuck, first_pending, h]
  unfold perm_compute_linear_stuck
  rw [hc]
  rfl

/-- C9, with the result 7 for the completed step. -/
theorem stuck_scenario_example :
    perm_compute_linear_stuck (sched_stuck 7) 1 = some ([1, 1], [[0, 1], [1, 0]]) :=
  stuck_scenario 7 (by decide)

/-- Fuel beyond the sum of the counts does not change the result of `perm_aux`. -/
theorem perm_aux_enough_fuel (fuel n : Nat) (counts : List Nat) (table : Table)
    (hn : counts.length = n) (hs : counts.sum ≤ 12) (hf : counts.sum ≤ fuel)
    (hrows : table.length = multinomial counts) :
    perm_aux fuel table 0 0 n counts = perm_aux counts.sum table 0 0 n counts := by
  have h1 := block_aux_spec perm_op n counts.sum fuel counts 0 [] table [] hf hn rfl hs hrows
  have h2 := block_aux_spec perm_op n counts.sum counts.sum counts 0 [] table []
    (Nat.le_refl _) hn rfl hs hrows
  simp only [List.nil_append, List.append_nil, List.length_nil, Nat.cast_zero] at h1 h2
  rw [perm_aux_eq_block, perm_aux_eq_block, h1, h2]

/-- Fuel beyond the sum of the counts does not change the result of `linearizable_aux`. -/
theorem linearizable_aux_enough_fuel (fuel : Nat) (schedule : schedule_t) (counts : List Nat)
    (table : Table) (hn : counts.length = schedule.nthread) (hs : counts.sum ≤ 12)
    (hf : counts.sum ≤ fuel) (hrows : table.length = multinomial counts) :
    linearizable_aux fuel table 0 0 schedule.nthread counts schedule =
      linearizable_aux counts.sum table 0 0 schedule.nthread counts schedule := by
  have h1 := block_aux_spec (lin_op schedule schedule.nthread) schedule.nthread counts.sum fuel
    counts 0 [] table [] hf hn rfl hs hrows
  have h2 := block_aux_spec (lin_op schedule schedule.nthread) schedule.nthread counts.sum
    counts.sum counts 0 [] table [] (Nat.le_refl _) hn rfl hs hrows
  simp only [List.nil_append, List.append_nil, List.length_nil, Nat.cast_zero] at h1 h2
  rw [linearizable_aux_eq_block, linearizable_aux_eq_block, h1, h2]

theorem foldlM_index_some {β : Type} (counts : List Nat) (f : β → Nat → β) :
    ∀ (m : Nat) (init : β), m ≤ counts.length →
      (List.range m).foldlM (fun (acc : β) (i : Nat) =>
          (counts[i]? : Option Nat).map fun (c : Nat) => f acc c) init
        = some ((counts.take m).foldl f init) := by
  intro m
  induction m with
  | zero => intro init _; rfl
  | succ m ih =>
    intro init hm
    have hlt : m < counts.length := hm
    rw [List.range_succ, List.foldlM_append, ih init (Nat.le_of_lt hlt), List.take_succ,
      List.getElem?_eq_getElem hlt, List.foldl_append]
    simp only [Option.bind_eq_bind, Option.some_bind, List.foldlM_cons, List.foldlM_nil,
      List.getElem?_eq_getElem hlt, Option.map_some', Option.pure_def, Option.bind_some,
      Option.toList_some, List.foldl_cons, List.foldl_nil]

theorem sum_counts_wrapped (n : Nat) (counts : List Nat) (hn : counts.length = n) :
    sum_counts n counts = some (wrapped_sum counts) := by
  unfold sum_counts wrapped_sum
  rw [foldlM_index_some counts (fun (sum : Int) (c : Nat) => wrap32 (sum + (c : Int))) n 0
    (by omega), ← hn, List.take_length]

theorem denom_counts_wrapped (n : Nat) (counts : List Nat) (hn : counts.length = n) :
    denom_counts n counts = some (wrapped_denom counts) := by
  unfold denom_counts wrapped_denom
  rw [foldlM_index_some counts (fun (denom : Int) (c : Nat) => wrap32 (denom * fact (c : Int)))
    n 1 (by omega), ← hn, List.take_length]

/-! ## Counting: overflow -/

/-- C11, as stated, fails: for `counts = [7,6]` the factorial of the sum, 13!, exceeds the
range of `int`, and `perm_calc_num` does not fail: it returns 532. -/
theorem perm_calc_num_no_capacity_error :
    (2147483647 < Nat.factorial ([7, 6] : List Nat).sum) ∧ perm_calc_num 2 [7, 6] ≠ none ∧
      perm_calc_num 2 [7, 6] = some 532 := by
  decide

/-- Without the reads of the array, `perm_calc_num` is the `int` quotient of the two folds
`wrapped_sum` and `wrapped_denom`, and has no value when the division is undefined. -/
theorem perm_calc_num_wrapped (n : Nat) (counts : List Nat) (hn : counts.length = n) :
    perm_calc_num n counts =
      if wrapped_denom counts = 0 ∨
          (fact (wrapped_sum counts) = -2147483648 ∧ wrapped_denom counts = -1) then none
      else some (Int.tdiv (fact (wrapped_sum counts)) (wrapped_denom counts)) := by
  unfold perm_calc_num
  rw [sum_counts_wrapped n counts hn, denom_counts_wrapped n counts hn]
  rfl

/-- The folds of `perm_calc_num` on `counts = [7,6]`: the wrapped `13!` is 1932053504, the
product is 3628800, and the quotient is 532. -/
theorem perm_calc_num_wrapped_7_6 :
    (perm_calc_num 2 [7, 6] =
      if wrapped_denom [7, 6] = 0 ∨
          (fact (wrapped_sum [7, 6]) = -2147483648 ∧ wrapped_denom [7, 6] = -1) then none
      else some (Int.tdiv (fact (wrapped_sum [7, 6])) (wrapped_denom [7, 6]))) ∧
      fact (wrapped_sum [7, 6]) = 1932053504 ∧ wrapped_denom [7, 6] = 3628800 ∧
      Int.tdiv (fact (wrapped_sum [7, 6])) (wrapped_denom [7, 6]) = 532 :=
  ⟨perm_calc_num_wrapped 2 [7, 6] (by decide), by decide, by decide, by decide⟩

/-- C11, amended: overflow is not reported.  For `counts = [7,6]`, whose sum 13 has
`13! > 2^31 - 1`, `perm_calc_num` returns 532, the quotient of the wrapped `13!`
(1932053504) by `7! * 6!`, where the multinomial coefficient is 1716; and for every vector
of `n` counts with sum at most 12 no factorial and no product exceeds the range of `int`,
and `perm_calc_num` returns the exact value. -/
theorem perm_calc_num_overflow_unreported (n : Nat) (counts : List Nat)
    (hn : counts.length = n) (hs : counts.sum ≤ 12) :
    (counts.sum.factorial ≤ 2147483647 ∧
      (∀ c ∈ counts, c.factorial ≤ 2147483647 ∧ fact (c : Int) = (c.factorial : Int)) ∧
      (counts.map Nat.factorial).prod ≤ 2147483647 ∧
      fact ((counts.sum : Nat) : Int) = (counts.sum.factorial : Int) ∧
      perm_calc_num n counts =
        some ((counts.sum.factorial / (counts.map Nat.factorial).prod : Nat) : Int)) ∧
    (2147483647 < Nat.factorial ([7, 6] : List Nat).sum ∧
      wrap32 ((Nat.factorial 13 : Nat) : Int) = 1932053504 ∧
      fact (((([7, 6] : List Nat).sum : Nat)) : Int) = 1932053504 ∧
      perm_calc_num 2 [7, 6] = some 532 ∧
      Int.tdiv 1932053504 ((Nat.factorial 7 * Nat.factorial 6 : Nat) : Int) = 532 ∧
      Nat.factorial 13 / (Nat.factorial 7 * Nat.factorial 6) = 1716) := by
  have hP : (counts.map Nat.factorial).prod ≤ 479001600 :=
    (Nat.le_of_dvd (Nat.factorial_pos _) (prod_factorial_dvd counts)).trans (factorial_le_12 hs)
  have hS := factorial_le_12 hs
  refine ⟨⟨by omega, fun c hc => ?_, by omega, fact_small _ hs,
    perm_calc_num_eq n counts hn hs⟩, by decide⟩
  have hc12 : c ≤ 12 := (mem_le_sum hc).trans hs
  have := factorial_le_12 hc12
  exact ⟨by omega, fact_small c hc12⟩

/-- C11, on `counts = [6,6]`, the largest sum without overflow: the value is 924. -/
theorem perm_calc_num_overflow_unreported_6_6 :
    ((([6, 6] : List Nat).sum.factorial ≤ 2147483647 ∧
      (∀ c ∈ ([6, 6] : List Nat),
        c.factorial ≤ 2147483647 ∧ fact (c : Int) = (c.factorial : Int)) ∧
      (([6, 6] : List Nat).map Nat.factorial).prod ≤ 2147483647 ∧
      fact ((([6, 6] : List Nat).sum : Nat) : Int) = (([6, 6] : List Nat).sum.factorial : Int) ∧
      perm_calc_num 2 [6, 6] =
        some ((([6, 6] : List Nat).sum.factorial /
          (([6, 6] : List Nat).map Nat.factorial).prod : Nat) : Int)) ∧
    (2147483647 < Nat.factorial ([7, 6] : List Nat).sum ∧
      wrap32 ((Nat.factorial 13 : Nat) : Int) = 1932053504 ∧
      fact (((([7, 6] : List Nat).sum : Nat)) : Int) = 1932053504 ∧
      perm_calc_num 2 [7, 6] = some 532 ∧
      Int.tdiv 1932053504 ((Nat.factorial 7 * Nat.factorial 6 : Nat) : Int) = 532 ∧
      Nat.factorial 13 / (Nat.factorial 7 * Nat.factorial 6) = 1716)) ∧
    perm_calc_num 2 [6, 6] = some 924 :=
  ⟨perm_calc_num_overflow_unreported 2 [6, 6] (by decide) (by decide), by decide⟩

/-- C17: for counts of `n` entries with sum between 1 and 12, the block sizes that
`perm_aux` and `linearizable_aux` compute at one level, `perm_calc_num` of `new_counts` for
each label with a nonzero count, add up to `perm_calc_num n counts`. -/
theorem block_sizes_tile (n : Nat) (counts : List Nat) (hn : counts.length = n)
    (h1 : 1 ≤ counts.sum) (hs : counts.sum ≤ 12) :
    ∃ total parts, perm_calc_num n counts = some total ∧
      (List.range n).mapM (fun (i : Nat) =>
        if counts.getD i 0 ≠ 0 then (new_counts n counts i).bind (perm_calc_num n)
        else some (0 : Int)) = some parts ∧
      parts.sum = total := by
  refine ⟨((multinomial counts : Nat) : Int),
    (List.range n).map (fun (i : Nat) =>
      (((if counts.getD i 0 ≠ 0 then multinomial (decr counts i) else 0 : Nat)) : Int)),
    perm_calc_num_eq n counts hn hs, ?_, ?_⟩
  · apply mapM_range_some
    intro i hi
    have hi' : i < counts.length := by omega
    by_cases hc : counts.getD i 0 ≠ 0
    · have hc' : counts[i] ≠ 0 := by rwa [List.getD_eq_getElem _ _ hi'] at hc
      have := decr_sum counts i hi' hc'
      rw [if_pos hc, if_pos hc, new_counts_eq n counts i hn, Option.some_bind,
        perm_calc_num_eq n (decr counts i) (by rw [decr_length]; exact hn) (by omega)]
    · rw [if_neg hc, if_neg hc]
      rfl
  · rw [← block_sum counts (by omega), hn, Nat.cast_list_sum, List.map_map]
    rfl

/-- C17, on `counts = [2,1,1]`: the blocks have 6, 3 and 3 rows, 12 in all. -/
theorem block_sizes_tile_2_1_1 :
    (∃ total parts, perm_calc_num 3 [2, 1, 1] = some total ∧
      (List.range 3).mapM (fun (i : Nat) =>
        if [2, 1, 1].getD i 0 ≠ 0 then (new_counts 3 [2, 1, 1] i).bind (perm_calc_num 3)
        else some (0 : Int)) = some parts ∧
      parts.sum = total) ∧
      (List.range 3).mapM (fun (i : Nat) =>
        if [2, 1, 1].getD i 0 ≠ 0 then (new_counts 3 [2, 1, 1] i).bind (perm_calc_num 3)
        else some (0 : Int)) = some [6, 3, 3] :=
  ⟨block_sizes_tile 3 [2, 1, 1] (by decide) (by decide) (by decide), by decide⟩

/-- C18: for counts of `n` entries with sum at most 12, every intermediate of
`perm_calc_num` is the exact value and fits an `int` (the partial sums, the factorials up
to the factorial of the sum, the partial products of factorials), the denominator is
positive and divides the numerator, so the division truncates nothing, and the result is
the multinomial coefficient.  The bound is tight: `counts = [7,6]` has sum 13 and the
value returned, 532, is not the coefficient 1716. -/
theorem perm_calc_num_safe_range (n : Nat) (counts : List Nat) (hn : counts.length = n)
    (hs : counts.sum ≤ 12) :
    (∀ m, m ≤ n → sum_counts m counts = some (((counts.take m).sum : Nat) : Int) ∧
      (counts.take m).sum ≤ 2147483647) ∧
    (∀ k : Nat, k ≤ counts.sum → fact (k : Int) = (k.factorial : Int) ∧
      k.factorial ≤ 2147483647) ∧
    (∀ m, m ≤ n →
      denom_counts m counts = some ((((counts.take m).map Nat.factorial).prod : Nat) : Int) ∧
      ((counts.take m).map Nat.factorial).prod ≤ 2147483647) ∧
    0 < (counts.map Nat.factorial).prod ∧
    (counts.map Nat.factorial).prod ∣ counts.sum.factorial ∧
    Int.tdiv (fact ((counts.sum : Nat) : Int)) (((counts.map Nat.factorial).prod : Nat) : Int)
      * (((counts.map Nat.factorial).prod : Nat) : Int) = fact ((counts.sum : Nat) : Int) ∧
    perm_calc_num n counts =
      some ((counts.sum.factorial / (counts.map Nat.factorial).prod : Nat) : Int) ∧
    (([7, 6] : List Nat).sum = 13 ∧ perm_calc_num 2 [7, 6] = some 532 ∧
      Nat.factorial 13 / (Nat.factorial 7 * Nat.factorial 6) = 1716) := by
  have hP : (counts.map Nat.factorial).prod ≤ 479001600 :=
    (Nat.le_of_dvd (Nat.factorial_pos _) (prod_factorial_dvd counts)).trans (factorial_le_12 hs)
  refine ⟨fun m hm => ⟨sum_counts_take counts hs m (by omega), ?_⟩,
    fun k hk => ⟨fact_small k (by omega), ?_⟩,
    fun m hm => ⟨denom_counts_take counts hs m (by omega), ?_⟩,
    prod_factorial_pos counts, prod_factorial_dvd counts, ?_, perm_calc_num_eq n counts hn hs,
    by decide⟩
  · have := sum_take_le counts m
    omega
  · have := factorial_le_12 (n := k) (by omega)
    omega
  · have := prod_factorial_take_le counts m
    omega
  · rw [fact_small _ hs, Int.tdiv_eq_ediv (by positivity) (by positivity)]
    exact Int.ediv_mul_cancel (by exact_mod_cast prod_factorial_dvd counts)

/-- C18, on the test of `main`, `counts = [1,1,2,1]`. -/
theorem perm_calc_num_safe_range_main_test :
    (∀ m, m ≤ 4 → sum_counts m [1, 1, 2, 1] = some ((([1, 1, 2, 1].take m).sum : Nat) : Int) ∧
      ([1, 1, 2, 1].take m).sum ≤ 2147483647) ∧
    (∀ k : Nat, k ≤ [1, 1, 2, 1].sum → fact (k : Int) = (k.factorial : Int) ∧
      k.factorial ≤ 2147483647) ∧
    (∀ m, m ≤ 4 →
      denom_counts m [1, 1, 2, 1] =
        some (((([1, 1, 2, 1].take m).map Nat.factorial).prod : Nat) : Int) ∧
      (([1, 1, 2, 1].take m).map Nat.factorial).prod ≤ 2147483647) ∧
    0 < ([1, 1, 2, 1].map Nat.factorial).prod ∧
    ([1, 1, 2, 1].map Nat.factorial).prod ∣ [1, 1, 2, 1].sum.factorial ∧
    Int.tdiv (fact (([1, 1, 2, 1].sum : Nat) : Int))
        ((([1, 1, 2, 1].map Nat.factorial).prod : Nat) : Int)
      * ((([1, 1, 2, 1].map Nat.factorial).prod : Nat) : Int)
        = fact (([1, 1, 2, 1].sum : Nat) : Int) ∧
    perm_calc_num 4 [1, 1, 2, 1] =
      some (([1, 1, 2, 1].sum.factorial / ([1, 1, 2, 1].map Nat.factorial).prod : Nat) : Int) ∧
    (([7, 6] : List Nat).sum = 13 ∧ perm_calc_num 2 [7, 6] = some 532 ∧
      Nat.factorial 13 / (Nat.factorial 7 * Nat.factorial 6) = 1716) :=
  perm_calc_num_safe_range 4 [1, 1, 2, 1] (by decide) (by decide)

/-! ## The real-time check: evaluation -/

/-- C12, evaluation at the failing input: on the row whose first cell holds the label 1,
for the next label 0 at column 1, the step of thread 0 (stop time 1) ends before the
placed step of thread 1 starts (start time 2), and `check_times` returns true, because
its loops stop before the last placed cell. -/
theorem check_times_misses_last_placed :
    check_times [1, 0] 1 0 sched_sequential 2 = some true ∧
      step_at sched_sequential [1, 0] 1 = some { start_time := 0, stop_time := 1, result := 0 } ∧
      step_at sched_sequential [1, 0] 0 = some { start_time := 2, stop_time := 3, result := 0 } := by
  decide

/-- C13, evaluation at the failing input: the row prefix `1,0` is not flagged, the next
unplaced step of thread 0 is its step 1, which is pending, and `check_times` returns
false for the label 0 at column 2, because it counts the occurrences of 0 without the last
placed cell and so reads the stop time of step 0; the row ends up flagged. -/
theorem pending_step_flagged :
    check_times [1, 0, 0] 2 0 sched_pending 2 = some false ∧
      step_at sched_pending [1, 0, 0] 2 =
        some { start_time := 7, stop_time := -2, result := -2 } ∧
      perm_compute_linear sched_pending [2, 1] = some [[0, 0, 1], [0, 1, 0], [-1, 0, 0]] := by
  decide

theorem run_row_lin_cells (schedule : schedule_t) (nthread : Nat)
    (htime : stop_times_ok schedule) :
    ∀ (b a : List Nat) (k : Nat), labels_ok schedule nthread (a ++ b) → b.length ≤ k →
      run_row (lin_op schedule nthread) a.length b (to_row a ++ List.replicate k 0)
        = some (lin_cells schedule a b k) := by
  intro b
  induction b with
  | nil => intro a k _ _; rfl
  | cons t b ih =>
    intro a k hval hk
    obtain ⟨k, rfl⟩ : ∃ k', k = k' + 1 := ⟨k - 1, by simp at hk; omega⟩
    have hsplit : a ++ t :: b = (a ++ [t]) ++ b := by simp
    have hval1 : labels_ok schedule nthread (a ++ [t]) := by
      rw [hsplit] at hval; exact labels_ok_left schedule nthread _ _ hval
    have hval0 : labels_ok schedule nthread a := labels_ok_left schedule nthread _ _ hval1
    obtain ⟨ok, hok⟩ := check_value_some schedule nthread a t hval1 htime
    rw [run_row, lin_op_spec schedule nthread a t k hval0, hok, Option.some_bind, lin_cells, hok]
    cases ok
    · simp only [Bool.false_eq_true, if_false, Option.some_bind, if_true]
      have hf : ((to_row a ++ List.replicate (k + 1) 0).set 0 (-1))[0]? = some (-1) := by
        rw [List.getElem?_set_self (by simp)]
      exact run_row_flagged schedule nthread _ (-1) hf (by omega) b (a.length + 1)
    · simp only [if_true, Option.some_bind, Option.some.injEq, Bool.true_eq_false, if_false,
        Nat.add_sub_cancel]
      have h := ih (a ++ [t]) k (by rw [← hsplit]; exact hval) (by simp at hk; omega)
      rw [List.length_append, List.length_singleton] at h
      exact h

theorem run_block_const (op : Nat → Nat → List Int → Option (List Int)) (j : Nat)
    (row0 : List Int) (f : List Nat → List Int) :
    ∀ (ps : List (List Nat)), (∀ p ∈ ps, run_row op j p row0 = some (f p)) →
      run_block op j ps (List.replicate ps.length row0) = some (ps.map f) := by
  intro ps
  induction ps with
  | nil => intro _; rfl
  | cons p ps ih =>
    intro h
    rw [List.length_cons, List.replicate_succ, run_block, h p (List.mem_cons_self _ _),
      Option.some_bind, ih (fun q hq => h q (List.mem_cons_of_mem _ hq))]
    rfl

/-- The table of `perm_compute_linear`, row by row. -/
theorem perm_compute_linear_eq (schedule : schedule_t) (counts : List Nat)
    (hn : counts.length = schedule.nthread) (hs : counts.sum ≤ 12)
    (hcols : counts.sum ≤ schedule.nstep) (hcover : steps_cover schedule counts)
    (htime : stop_times_ok schedule) :
    perm_compute_linear schedule counts = some (lin_rows schedule counts) := by
  have hrow : ∀ p ∈ perms counts.sum counts,
      run_row (lin_op schedule schedule.nthread) 0 p (List.replicate schedule.nstep 0)
        = some (lin_cells schedule [] p schedule.nstep) := by
    intro p hp
    have hlen : p.length = counts.sum := (perms_sound _ _ p rfl hp).1
    have hval := perms_labels_ok schedule counts hcover p hp
    rw [hn] at hval
    have h := run_row_lin_cells schedule schedule.nthread htime p [] schedule.nstep
      (by simpa using hval) (by omega)
    simpa [to_row] using h
  have hblock := run_block_const (lin_op schedule schedule.nthread) 0
    (List.replicate schedule.nstep 0) (fun p => lin_cells schedule [] p schedule.nstep)
    (perms counts.sum counts) hrow
  have hz : zero_table (multinomial counts) schedule.nstep
      = List.replicate (perms counts.sum counts).length (List.replicate schedule.nstep 0) := by
    rw [zero_table, perms_length _ _ rfl]
  have hspec := block_aux_spec (lin_op schedule schedule.nthread) schedule.nthread counts.sum
    counts.sum counts 0 [] (zero_table (multinomial counts) schedule.nstep) []
    (Nat.le_refl _) hn rfl hs (zero_table_length _ _)
  rw [hz, hblock] at hspec
  simp only [List.nil_append, List.append_nil, List.length_nil, Nat.cast_zero,
    Option.map_some'] at hspec
  unfold perm_compute_linear
  rw [perm_calc_num_eq _ counts hn hs, Option.some_bind, Int.toNat_ofNat,
    linearizable_aux_eq_block, hz, hspec]
  rfl

theorem check_value_short (schedule : schedule_t) (a : List Nat) (t : Nat)
    (ha : a.length ≤ 1) : check_value schedule a t ≠ some false := by
  unfold check_value
  have h0 : a.length - 1 = 0 := by omega
  rw [h0]
  cases (schedule.steps[t]? : Option (List step_t)) with
  | none => simp
  | some th =>
    simp only [Option.some_bind]
    cases (th[(a.take 0).count t]? : Option step_t) with
    | none => simp
    | some s =>
      simp only [Option.some_bind]
      by_cases h : s.stop_time < 0
      · rw [if_pos h]
        by_cases h2 : s.stop_time = -2
        · rw [if_pos h2]; simp
        · rw [if_neg h2]; simp
      · rw [if_neg h]
        simp

/-- The two shapes of a row of the filter: all the labels followed by the cells left at 0,
or, when `check_times` returns false at column `c`, -1 in the first cell, the labels of the
columns below `c` in the next cells and 0 from column `c` on. -/
theorem lin_cells_cases (schedule : schedule_t) :
    ∀ (b a : List Nat) (k : Nat), b.length ≤ k →
      (lin_cells schedule a b k = to_row (a ++ b) ++ List.replicate (k - b.length) 0 ∧
        ∀ j t, a.length ≤ j → (a ++ b)[j]? = some t →
          check_value schedule ((a ++ b).take j) t ≠ some false) ∨
      ∃ c t, a.length ≤ c ∧ (a ++ b)[c]? = some t ∧
        check_value schedule ((a ++ b).take c) t = some false ∧
        lin_cells schedule a b k =
          (to_row ((a ++ b).take c) ++ List.replicate (k + a.length - c) 0).set 0 (-1) := by
  intro b
  induction b with
  | nil =>
    intro a k _
    left
    refine ⟨by simp [lin_cells], fun j t hj hjt => ?_⟩
    rw [List.append_nil] at hjt
    have := (List.getElem?_eq_some.mp hjt).1
    omega
  | cons t b ih =>
    intro a k hk
    obtain ⟨k, rfl⟩ : ∃ k', k = k' + 1 := ⟨k - 1, by simp at hk; omega⟩
    have hsplit : a ++ t :: b = (a ++ [t]) ++ b := by simp
    have hat : (a ++ t :: b)[a.length]? = some t := by
      rw [List.getElem?_append_right (Nat.le_refl _)]; simp
    rw [lin_cells]
    by_cases hc : check_value schedule a t = some false
    · right
      refine ⟨a.length, t, Nat.le_refl _, hat, ?_, ?_⟩
      · rw [List.take_left' rfl]; exact hc
      · rw [if_pos hc, List.take_left' rfl, Nat.add_sub_cancel]
    · rw [if_neg hc, Nat.add_sub_cancel]
      have hl : (a ++ [t]).length = a.length + 1 := by simp
      have hkb : k + 1 - (t :: b).length = k - b.length := by simp
      rcases ih (a ++ [t]) k (by simp at hk; omega) with ⟨h1, h2⟩ | ⟨c, t', h1, h2, h3, h4⟩
      · left
        rw [hsplit, hkb]
        refine ⟨h1, fun j t' hj hjt => ?_⟩
        by_cases hja : j = a.length
        · subst hja
          rw [← hsplit, hat, Option.some.injEq] at hjt
          subst hjt
          rw [← hsplit, List.take_left' rfl]
          exact hc
        · exact h2 j t' (by omega) hjt
      · right
        rw [hl] at h1 h4
        refine ⟨c, t', by omega, by rw [hsplit]; exact h2, by rw [hsplit]; exact h3, ?_⟩
        rw [hsplit, h4]
        congr 3
        omega

theorem frozen_refl (t : Table) : frozen t t := fun _ _ _ h _ _ => h

theorem frozen_trans {t1 t2 t3 : Table} (h12 : frozen t1 t2) (h23 : frozen t2 t3) :
    frozen t1 t3 :=
  fun r row c0 h h0 hneg => h23 r row c0 (h12 r row c0 h h0 hneg) h0 hneg

theorem row_update_frozen (f : List Int → Option (List Int))
    (hf : ∀ (row : List Int) (c0 : Int), row[0]? = some c0 → c0 < 0 → f row = some row)
    (t t2 : Table) (r : Int) (h : row_update f t r = some t2) : frozen t t2 := by
  unfold row_update at h
  cases hr : idx_read t r with
  | none => rw [hr] at h; exact absurd h (by simp)
  | some row0 =>
    rw [hr, Option.some_bind] at h
    cases hfr : f row0 with
    | none => rw [hfr] at h; exact absurd h (by simp)
    | some row1 =>
      rw [hfr, Option.map_some', Option.some.injEq] at h
      subst h
      have hget := idx_read_toNat t r row0 hr
      intro r2 row c0 h2 h0 hneg
      by_cases heq : r.toNat = r2
      · subst heq
        rw [hget, Option.some.injEq] at h2
        subst h2
        rw [hf row0 c0 h0 hneg, Option.some.injEq] at hfr
        subst hfr
        rw [List.getElem?_set_self (List.getElem?_eq_some.mp hget).1]
      · rw [List.getElem?_set_ne heq]
        exact h2

theorem foldlM_frozen {α : Type} (step : Table → α → Option Table)
    (hstep : ∀ (t : Table) (x : α) (t2 : Table), step t x = some t2 → frozen t t2) :
    ∀ (xs : List α) (t t2 : Table), xs.foldlM step t = some t2 → frozen t t2 := by
  intro xs
  induction xs with
  | nil =>
    intro t t2 h
    rw [List.foldlM_nil] at h
    cases h
    exact frozen_refl t
  | cons x xs ih =>
    intro t t2 h
    rw [List.foldlM_cons] at h
    cases h1 : step t x with
    | none => rw [h1] at h; exact absurd h (by simp)
    | some t1 =>
      rw [h1] at h
      exact frozen_trans (hstep t x t1 h1) (ih t1 t2 h)

theorem foldlM_frozen_fst {α : Type} (step : Table × Int → α → Option (Table × Int))
    (hstep : ∀ (st : Table × Int) (x : α) (st2 : Table × Int),
      step st x = some st2 → frozen st.1 st2.1) :
    ∀ (xs : List α) (st st2 : Table × Int), xs.foldlM step st = some st2 →
      frozen st.1 st2.1 := by
  intro xs
  induction xs with
  | nil =>
    intro st st2 h
    rw [List.foldlM_nil] at h
    cases h
    exact frozen_refl st.1
  | cons x xs ih =>
    intro st st2 h
    rw [List.foldlM_cons] at h
    cases h1 : step st x with
    | none => rw [h1] at h; exact absurd h (by simp)
    | some st1 =>
      rw [h1] at h
      exact frozen_trans (hstep st x st1 h1) (ih st1 st2 h)

theorem block_iter_frozen (op : Nat → Nat → List Int → Option (List Int))
    (hop : ∀ (j i : Nat) (row : List Int) (c0 : Int),
      row[0]? = some c0 → c0 < 0 → op j i row = some row)
    (recur : Table → Int → List Nat → Option Table)
    (hrec : ∀ (t : Table) (i0 : Int) (nc : List Nat) (t2 : Table),
      recur t i0 nc = some t2 → frozen t t2)
    (j0 len : Nat) (counts : List Nat) (st : Table × Int) (i : Nat) (st2 : Table × Int)
    (h : block_iter op recur j0 len counts st i = some st2) : frozen st.1 st2.1 := by
  unfold block_iter at h
  cases hc : (counts[i]? : Option Nat) with
  | none => rw [hc] at h; exact absurd h (by simp)
  | some c =>
    rw [hc, Option.some_bind] at h
    by_cases hz : c ≠ 0
    · rw [if_pos hz] at h
      cases hnc : new_counts len counts i with
      | none => rw [hnc] at h; exact absurd h (by simp)
      | some nc =>
        rw [hnc, Option.some_bind] at h
        cases hnp : perm_calc_num len nc with
        | none => rw [hnp] at h; exact absurd h (by simp)
        | some np =>
          rw [hnp, Option.some_bind] at h
          cases hfill : block_fill (op j0 i) st.1 st.2 np with
          | none => rw [hfill] at h; exact absurd h (by simp)
          | some t1 =>
            rw [hfill, Option.some_bind] at h
            cases hr : recur t1 st.2 nc with
            | none => rw [hr] at h; exact absurd h (by simp)
            | some t2 =>
              rw [hr, Option.some_bind, Option.some.injEq] at h
              subst h
              have h1 : frozen st.1 t1 :=
                foldlM_frozen (fun (t : Table) (j : Nat) => row_update (op j0 i) t (st.2 + (j : Int)))
                  (fun t j t2 ht => row_update_frozen (op j0 i) (hop j0 i) t t2 _ ht)
                  _ st.1 t1 hfill
              exact frozen_trans h1 (hrec t1 st.2 nc t2 hr)
    · rw [if_neg hz, Option.some.injEq] at h
      subst h
      exact frozen_refl _

theorem block_aux_frozen (op : Nat → Nat → List Int → Option (List Int))
    (hop : ∀ (j i : Nat) (row : List Int) (c0 : Int),
      row[0]? = some c0 → c0 < 0 → op j i row = some row) (len : Nat) :
    ∀ (fuel : Nat) (table : Table) (i0 : Int) (j0 : Nat) (counts : List Nat) (t2 : Table),
      block_aux op fuel table i0 j0 len counts = some t2 → frozen table t2 := by
  intro fuel
  induction fuel with
  | zero =>
    intro table i0 j0 counts t2 h
    rw [block_aux_unfold] at h
    cases hf : (List.range len).foldlM
        (block_iter op (fun _ _ _ => none) j0 len counts) (table, i0) with
    | none => simp only [hf, Option.map_none'] at h; exact absurd h (by simp)
    | some st =>
      simp only [hf, Option.map_some', Option.some.injEq] at h
      subst h
      exact foldlM_frozen_fst _
        (fun st x st2 hs => block_iter_frozen op hop _ (fun _ _ _ _ hn => absurd hn (by simp))
          j0 len counts st x st2 hs) _ (table, i0) st hf
  | succ fuel ih =>
    intro table i0 j0 counts t2 h
    rw [block_aux_unfold] at h
    cases hf : (List.range len).foldlM
        (block_iter op (fun t i nc => block_aux op fuel t i (j0 + 1) len nc) j0 len counts)
        (table, i0) with
    | none => simp only [hf, Option.map_none'] at h; exact absurd h (by simp)
    | some st =>
      simp only [hf, Option.map_some', Option.some.injEq] at h
      subst h
      exact foldlM_frozen_fst _
        (fun st x st2 hs => block_iter_frozen op hop _
          (fun t i nc t2 hn => ih t i (j0 + 1) nc t2 hn) j0 len counts st x st2 hs)
        _ (table, i0) st hf

theorem set_zero_append (l z : List Int) (v : Int) (hl : l ≠ []) :
    (l ++ z).set 0 v = v :: l.drop 1 ++ z := by
  cases l with
  | nil => exact absurd rfl hl
  | cons x l => simp

theorem to_row_take (p : List Nat) (c : Nat) : to_row (p.take c) = (to_row p).take c := by
  simp [to_row, List.map_take]

theorem head_not_flag (p : List Nat) (k : Nat) :
    (to_row p ++ List.replicate k 0)[0]? ≠ some (-1) := by
  cases p with
  | nil =>
    cases k with
    | zero => simp [to_row]
    | succ k => simp [to_row, List.replicate_succ]
  | cons x p =>
    simp only [to_row, List.map_cons, List.cons_append, List.getElem?_cons_zero, ne_eq,
      Option.some.injEq]
    omega

/-! ## The ordering filter: flagged rows -/

/-- C14: the loop body of `linearizable_aux` leaves the table as it is on a row whose
first cell is negative; every row flagged before a call of `linearizable_aux` is the same
row after it; and in the table of `perm_compute_linear` every row with -1 in its first
cell has, for some column `c` with `1 ≤ c`, the labels of the row of `perm_compute` of the
same index in the cells 1 to `c - 1` and the initial 0 from the cell `c` on. -/
theorem flagged_rows_frozen (junk : Nat → Nat → Int) (schedule : schedule_t)
    (counts : List Nat) (hn : counts.length = schedule.nthread) (hs : counts.sum ≤ 12)
    (hcols : counts.sum ≤ schedule.nstep) (hcover : steps_cover schedule counts)
    (htime : stop_times_ok schedule) :
    (∀ (nthread j0 i : Nat) (table : Table) (r : Int) (c0 : Int),
      table_read table r 0 = some c0 → c0 < 0 →
      lin_cell schedule nthread j0 i table r = some table) ∧
    (∀ (fuel : Nat) (table table2 : Table) (i0 : Int) (j0 : Nat) (cs : List Nat),
      linearizable_aux fuel table i0 j0 schedule.nthread cs schedule = some table2 →
      ∀ (r : Nat) (row : List Int) (c0 : Int),
        table[r]? = some row → row[0]? = some c0 → c0 < 0 → table2[r]? = some row) ∧
    ∃ lin tab, perm_compute_linear schedule counts = some lin ∧
      perm_compute junk schedule.nthread counts = some tab ∧
      lin.length = tab.length ∧
      ∀ r (h1 : r < lin.length) (h2 : r < tab.length), lin[r][0]? = some (-1) →
        ∃ c, 1 ≤ c ∧ c < counts.sum ∧
          lin[r] = -1 :: (tab[r].take c).drop 1 ++ List.replicate (schedule.nstep - c) 0 := by
  refine ⟨?_, ?_, lin_rows schedule counts, perm_rows counts,
    perm_compute_linear_eq schedule counts hn hs hcols hcover htime,
    perm_compute_eq junk _ counts hn hs, by simp [lin_rows, perm_rows], ?_⟩
  · intro nthread j0 i table r c0 h0 hneg
    unfold lin_cell
    rw [h0, Option.some_bind, if_neg (by omega)]
  · intro fuel table table2 i0 j0 cs h
    rw [linearizable_aux_eq_block] at h
    exact block_aux_frozen (lin_op schedule schedule.nthread)
      (fun j i row c0 h0 hneg => lin_op_flagged schedule schedule.nthread j i row c0 h0 hneg)
      schedule.nthread fuel table i0 j0 cs table2 h
  · intro r h1 h2 hflag
    have hr : r < (perms counts.sum counts).length := by simpa [lin_rows] using h1
    have hl : (lin_rows schedule counts)[r]
        = lin_cells schedule [] (perms counts.sum counts)[r] schedule.nstep := by
      simp [lin_rows]
    have ht : (perm_rows counts)[r] = to_row (perms counts.sum counts)[r] := by
      simp [perm_rows]
    have hp := List.getElem_mem hr
    have hlen : (perms counts.sum counts)[r].length = counts.sum :=
      (perms_sound _ _ _ rfl hp).1
    rw [hl] at hflag ⊢
    rw [ht]
    rcases lin_cells_cases schedule (perms counts.sum counts)[r] [] schedule.nstep
      (by omega) with ⟨h3, _⟩ | ⟨c, t, _, h4, h5, h6⟩
    · rw [h3, List.nil_append] at hflag
      exact absurd hflag (head_not_flag _ _)
    · rw [List.nil_append] at h4 h5 h6
      have hc : c < counts.sum := by
        rw [← hlen]; exact (List.getElem?_eq_some.mp h4).1
      have hc2 : 1 < c := by
        by_contra hle
        exact check_value_short schedule _ t
          (by rw [List.length_take]; omega) h5
      refine ⟨c, by omega, hc, ?_⟩
      rw [h6, to_row_take, set_zero_append _ _ _ (by
        intro hnil
        have := congrArg List.length hnil
        rw [List.length_take, to_row_length, hlen] at this
        simp at this
        omega)]
      simp

/-- C14, on the schedule with a pending step: row 2 is flagged at column 2. -/
theorem flagged_rows_frozen_example :
    ((∀ (nthread j0 i : Nat) (table : Table) (r : Int) (c0 : Int),
      table_read table r 0 = some c0 → c0 < 0 →
      lin_cell sched_pending nthread j0 i table r = some table) ∧
    (∀ (fuel : Nat) (table table2 : Table) (i0 : Int) (j0 : Nat) (cs : List Nat),
      linearizable_aux fuel table i0 j0 sched_pending.nthread cs sched_pending = some table2 →
      ∀ (r : Nat) (row : List Int) (c0 : Int),
        table[r]? = some row → row[0]? = some c0 → c0 < 0 → table2[r]? = some row) ∧
    ∃ lin tab, perm_compute_linear sched_pending [2, 1] = some lin ∧
      perm_compute (fun _ _ => 0) sched_pending.nthread [2, 1] = some tab ∧
      lin.length = tab.length ∧
      ∀ r (h1 : r < lin.length) (h2 : r < tab.length), lin[r][0]? = some (-1) →
        ∃ c, 1 ≤ c ∧ c < [2, 1].sum ∧
          lin[r] = -1 :: (tab[r].take c).drop 1 ++
            List.replicate (sched_pending.nstep - c) 0) ∧
      perm_compute_linear sched_pending [2, 1] = some [[0, 0, 1], [0, 1, 0], [-1, 0, 0]] :=
  ⟨flagged_rows_frozen (fun _ _ => 0) sched_pending [2, 1] (by decide) (by decide) (by decide)
    (by decide) (by decide), by decide⟩

theorem step_read_restrict (schedule : schedule_t) (counts : List Nat) (t k : Nat)
    (ht : t < counts.length) (hk : k < counts[t]) :
    step_read (restrict_steps schedule counts) t k = step_read schedule t k := by
  unfold step_read restrict_steps
  simp only [List.getElem?_zipWith, List.getElem?_eq_getElem ht]
  cases (schedule.steps[t]? : Option (List step_t)) with
  | none => rfl
  | some th =>
    simp only [Option.some_bind]
    exact List.getElem?_take_of_lt hk

theorem check_value_eq_read (schedule : schedule_t) (a : List Nat) (t : Nat) :
    check_value schedule a t =
      (step_read schedule t ((a.take (a.length - 1)).count t)).bind fun s =>
        if s.stop_time < 0 then (if s.stop_time = -2 then some true else none)
        else some ((List.range' 0 (a.length - 1)).all fun i =>
          placed_ok schedule a s.stop_time i) := by
  unfold check_value step_read
  cases (schedule.steps[t]? : Option (List step_t)) <;> rfl

theorem step_at_eq_read (schedule : schedule_t) (a : List Nat) (i : Nat) :
    step_at schedule a i =
      (a[i]? : Option Nat).bind fun t => step_read schedule t ((a.take i).count t) := rfl

theorem all_congr_mem {α : Type} (l : List α) (f g : α → Bool) (h : ∀ x ∈ l, f x = g x) :
    l.all f = l.all g := by
  induction l with
  | nil => rfl
  | cons x l ih =>
    rw [List.all_cons, List.all_cons, h x (List.mem_cons_self _ _),
      ih (fun y hy => h y (List.mem_cons_of_mem _ hy))]

/-- In an enumerated sequence every label is a thread number and stands for a step whose
index is below the count of its thread. -/
theorem perms_within_counts (counts : List Nat) (p : List Nat)
    (hp : p ∈ perms counts.sum counts) (i : Nat) (hi : i < p.length) :
    ∃ ht : p[i] < counts.length, (p.take i).count p[i] < counts[p[i]] := by
  obtain ⟨_, h2, h3⟩ := perms_sound _ _ p rfl hp
  have hlt : p[i] < counts.length := h3 _ (List.getElem_mem hi)
  refine ⟨hlt, ?_⟩
  have hc := count_take_lt p i hi
  rw [h2 p[i], List.getD_eq_getElem _ _ hlt] at hc
  exact hc

theorem step_at_restrict (schedule : schedule_t) (counts : List Nat) (p : List Nat)
    (hp : p ∈ perms counts.sum counts) (j i : Nat) (hij : i < j) (hj : j ≤ p.length) :
    step_at (restrict_steps schedule counts) (p.take j) i = step_at schedule (p.take j) i := by
  have hi : i < p.length := by omega
  obtain ⟨ht, hk⟩ := perms_within_counts counts p hp i hi
  rw [step_at_eq_read, step_at_eq_read, List.getElem?_take_of_lt hij,
    List.getElem?_eq_getElem hi, Option.some_bind, Option.some_bind, List.take_take,
    Nat.min_eq_left (Nat.le_of_lt hij)]
  exact step_read_restrict schedule counts _ _ ht hk

theorem check_value_restrict (schedule : schedule_t) (counts : List Nat) (p : List Nat)
    (hp : p ∈ perms counts.sum counts) (j t : Nat) (hjt : p[j]? = some t) :
    check_value (restrict_steps schedule counts) (p.take j) t =
      check_value schedule (p.take j) t := by
  obtain ⟨hj, hpt⟩ := List.getElem?_eq_some.mp hjt
  subst hpt
  obtain ⟨ht', hk⟩ := perms_within_counts counts p hp j hj
  have hal : (p.take j).length = j := by rw [List.length_take]; omega
  have hidx : ((p.take j).take ((p.take j).length - 1)).count p[j] < counts[p[j]] := by
    have := (List.take_sublist ((p.take j).length - 1) (p.take j)).count_le p[j]
    omega
  rw [check_value_eq_read, check_value_eq_read,
    step_read_restrict schedule counts p[j] _ ht' hidx]
  cases step_read schedule p[j] (((p.take j).take ((p.take j).length - 1)).count p[j]) with
  | none => rfl
  | some s =>
    simp only [Option.some_bind]
    by_cases hneg : s.stop_time < 0
    · rw [if_pos hneg, if_pos hneg]
    · rw [if_neg hneg, if_neg hneg]
      congr 1
      apply all_congr_mem
      intro i hi
      have hi' : i < j - 1 := by
        rw [hal] at hi
        have := (List.mem_range'_1.mp hi).2
        omega
      unfold placed_ok
      rw [step_at_restrict schedule counts p hp j i (by omega) (by omega)]

theorem lin_cells_congr (s1 s2 : schedule_t) :
    ∀ (b a : List Nat) (k : Nat),
      (∀ j t, a.length ≤ j → (a ++ b)[j]? = some t →
        check_value s1 ((a ++ b).take j) t = check_value s2 ((a ++ b).take j) t) →
      lin_cells s1 a b k = lin_cells s2 a b k := by
  intro b
  induction b with
  | nil => intro a k _; rfl
  | cons t b ih =>
    intro a k h
    have hsplit : a ++ t :: b = (a ++ [t]) ++ b := by simp
    have hat : (a ++ t :: b)[a.length]? = some t := by
      rw [List.getElem?_append_right (Nat.le_refl _)]; simp
    have h0 := h a.length t (Nat.le_refl _) hat
    rw [List.take_left' rfl] at h0
    rw [lin_cells, lin_cells, h0,
      ih (a ++ [t]) (k - 1) (fun j t' hj hjt => by
        rw [← hsplit] at hjt ⊢
        exact h j t' (by rw [List.length_append, List.length_singleton] at hj; omega) hjt)]

theorem lin_rows_restrict (schedule : schedule_t) (counts : List Nat) :
    lin_rows (restrict_steps schedule counts) counts = lin_rows schedule counts := by
  unfold lin_rows
  apply List.map_congr_left
  intro p hp
  show lin_cells (restrict_steps schedule counts) [] p schedule.nstep = _
  apply lin_cells_congr
  intro j t _ hjt
  rw [List.nil_append] at hjt ⊢
  exact check_value_restrict schedule counts p hp j t hjt

theorem restrict_steps_cover (schedule : schedule_t) (counts : List Nat)
    (hcover : steps_cover schedule counts) (t : Nat) (ht : t < counts.length) :
    ((restrict_steps schedule counts).steps.getD t []).length = counts[t] := by
  have hc := hcover t ht
  unfold restrict_steps
  simp only [List.getD_eq_getElem?_getD, List.getElem?_zipWith, List.getElem?_eq_getElem ht]
    at hc ⊢
  cases h : (schedule.steps[t]? : Option (List step_t)) with
  | none =>
    rw [h] at hc
    simp only [Option.getD_none, List.length_nil] at hc ⊢
    omega
  | some th =>
    rw [h] at hc
    simp only [Option.getD_some, List.length_take] at hc ⊢
    omega

theorem restrict_steps_time (schedule : schedule_t) (counts : List Nat)
    (htime : stop_times_ok schedule) : stop_times_ok (restrict_steps schedule counts) := by
  intro th hth s hs
  obtain ⟨t, ht⟩ := List.mem_iff_getElem?.mp hth
  unfold restrict_steps at ht
  simp only [List.getElem?_zipWith] at ht
  cases h1 : (schedule.steps[t]? : Option (List step_t)) with
  | none => rw [h1] at ht; exact absurd ht (by simp)
  | some th0 =>
    cases h2 : (counts[t]? : Option Nat) with
    | none => rw [h1, h2] at ht; exact absurd ht (by simp)
    | some c =>
      rw [h1, h2, Option.some.injEq] at ht
      subst ht
      exact htime th0 (List.getElem?_mem h1) s (List.mem_of_mem_take hs)

theorem lin_cells_values (schedule : schedule_t) (nthread : Nat) (p : List Nat) (k : Nat)
    (hp : ∀ y ∈ p, y < nthread) (hk : p.length ≤ k) :
    ∀ x ∈ lin_cells schedule [] p k, x = -1 ∨ x = 0 ∨ (0 ≤ x ∧ x < (nthread : Int)) := by
  have hrow : ∀ (q : List Nat) (m : Nat), (∀ y ∈ q, y < nthread) →
      ∀ x ∈ to_row q ++ List.replicate m 0, x = 0 ∨ (0 ≤ x ∧ x < (nthread : Int)) := by
    intro q m hq x hx
    rcases List.mem_append.mp hx with h | h
    · obtain ⟨y, hy, rfl⟩ := List.mem_map.mp h
      have := hq y hy
      right
      omega
    · left
      exact (List.mem_replicate.mp h).2
  intro x hx
  rcases lin_cells_cases schedule p [] k hk with ⟨h1, _⟩ | ⟨c, t, _, _, _, h4⟩
  · rw [h1] at hx
    exact Or.inr (hrow _ _ (by simpa using hp) x hx)
  · rw [h4] at hx
    rcases List.mem_or_eq_of_mem_set hx with h | h
    · exact Or.inr (hrow _ _ (fun y hy => hp y (List.mem_of_mem_take (by simpa using hy))) x h)
    · exact Or.inl h

/-! ## The ordering filter: short tables and index safety -/

/-- C16: `check_times` never returns false when `curr_total_op_count ≤ 1`, and returns
true when the step it reads exists and has a stop time that is non-negative or -2; so for
a schedule and counts with sum at most 2 the table of `perm_compute_linear` has no row
with -1 in its first cell: its rows are the rows of `perm_compute`, followed by the cells
left at 0. -/
theorem short_tables_never_flagged (schedule : schedule_t) (counts : List Nat)
    (hn : counts.length = schedule.nthread) (hs : counts.sum ≤ 2)
    (hcols : counts.sum ≤ schedule.nstep) (hcover : steps_cover schedule counts)
    (htime : stop_times_ok schedule) :
    (∀ (row : List Int) (j0 : Nat) (t : Int) (sch : schedule_t) (nthread : Nat), j0 ≤ 1 →
      check_times row j0 t sch nthread ≠ some false) ∧
    (∀ (row : List Int) (j0 : Nat) (t : Int) (sch : schedule_t) (nthread : Nat)
      (th : List step_t) (s : step_t), j0 ≤ 1 → idx_read sch.steps t = some th →
      th[0]? = some s → (0 ≤ s.stop_time ∨ s.stop_time = -2) →
      check_times row j0 t sch nthread = some true) ∧
    ∃ table, perm_compute_linear schedule counts = some table ∧
      (∀ row ∈ table, row[0]? ≠ some (-1)) ∧
      table = (perm_rows counts).map fun row =>
        row ++ List.replicate (schedule.nstep - counts.sum) 0 := by
  have hcount : ∀ (row : List Int) (t : Int), count_prior row 0 t = some 0 := fun _ _ => rfl
  have hrows : lin_rows schedule counts = (perm_rows counts).map fun row =>
      row ++ List.replicate (schedule.nstep - counts.sum) 0 := by
    unfold lin_rows perm_rows
    rw [List.map_map]
    apply List.map_congr_left
    intro p hp
    have hlen : p.length = counts.sum := (perms_sound _ _ p rfl hp).1
    rcases lin_cells_cases schedule p [] schedule.nstep (by omega) with
      ⟨h1, _⟩ | ⟨c, t, _, h4, h5, _⟩
    · simpa [hlen] using h1
    · rw [List.nil_append] at h4 h5
      have hc := (List.getElem?_eq_some.mp h4).1
      exact absurd h5 (check_value_short schedule _ t (by rw [List.length_take]; omega))
  refine ⟨?_, ?_, lin_rows schedule counts,
    perm_compute_linear_eq schedule counts hn (by omega) hcols hcover htime, ?_, hrows⟩
  · intro row j0 t sch nthread hj
    have h0 : j0 - 1 = 0 := by omega
    unfold check_times
    rw [h0, hcount]
    cases idx_read sch.steps t with
    | none => simp
    | some th =>
      simp only [Option.some_bind]
      cases (th[0]? : Option step_t) with
      | none => simp
      | some s =>
        simp only [Option.some_bind]
        by_cases h : s.stop_time < 0
        · rw [if_pos h]
          by_cases h2 : s.stop_time = -2
          · rw [if_pos h2]; simp
          · rw [if_neg h2]; simp
        · rw [if_neg h]
          simp [scan_placed]
  · intro row j0 t sch nthread th s hj hth hs0 hstop
    have h0 : j0 - 1 = 0 := by omega
    unfold check_times
    rw [h0, hcount, Option.some_bind, hth, Option.some_bind, hs0, Option.some_bind]
    by_cases h : s.stop_time < 0
    · rw [if_pos h, if_pos (by omega)]
    · rw [if_neg h]
      rfl
  · intro row hrow
    rw [hrows] at hrow
    obtain ⟨row0, h0, rfl⟩ := List.mem_map.mp hrow
    obtain ⟨p, _, rfl⟩ := List.mem_map.mp h0
    exact head_not_flag p _

/-- C16, on the schedule of two steps one after the other: both rows are kept. -/
theorem short_tables_never_flagged_example :
    (∀ (row : List Int) (j0 : Nat) (t : Int) (sch : schedule_t) (nthread : Nat), j0 ≤ 1 →
      check_times row j0 t sch nthread ≠ some false) ∧
    (∀ (row : List Int) (j0 : Nat) (t : Int) (sch : schedule_t) (nthread : Nat)
      (th : List step_t) (s : step_t), j0 ≤ 1 → idx_read sch.steps t = some th →
      th[0]? = some s → (0 ≤ s.stop_time ∨ s.stop_time = -2) →
      check_times row j0 t sch nthread = some true) ∧
    ∃ table, perm_compute_linear sched_sequential [1, 1] = some table ∧
      (∀ row ∈ table, row[0]? ≠ some (-1)) ∧
      table = (perm_rows [1, 1]).map fun row =>
        row ++ List.replicate (sched_sequential.nstep - [1, 1].sum) 0 :=
  short_tables_never_flagged sched_sequential [1, 1] (by decide) (by decide) (by decide)
    (by decide) (by decide)

/-- C19: for a schedule and counts with `counts[t]` at most the number of steps of thread
`t`, stop times non-negative or -2 and sum at most 12, the filter gives the same table on
the schedule whose steps are cut down to exactly `counts[t]` per thread, where a read of
`steps[t][k]` with `counts[t] ≤ k`, a label outside `[0, nthread)` used as an index and a
failed assertion all make the result `none`; and every cell of the table holds -1, the
initial 0 or a label below `nthread`. -/
theorem filter_index_safe (schedule : schedule_t) (counts : List Nat)
    (hn : counts.length = schedule.nthread) (hs : counts.sum ≤ 12)
    (hcols : counts.sum ≤ schedule.nstep) (hcover : steps_cover schedule counts)
    (htime : stop_times_ok schedule) :
    ∃ table, perm_compute_linear schedule counts = some table ∧
      perm_compute_linear (restrict_steps schedule counts) counts = some table ∧
      (∀ t (ht : t < counts.length),
        ((restrict_steps schedule counts).steps.getD t []).length = counts[t]) ∧
      ∀ row ∈ table, ∀ x ∈ row,
        x = -1 ∨ x = 0 ∨ (0 ≤ x ∧ x < (schedule.nthread : Int)) := by
  refine ⟨lin_rows schedule counts,
    perm_compute_linear_eq schedule counts hn hs hcols hcover htime, ?_,
    restrict_steps_cover schedule counts hcover, ?_⟩
  · rw [← lin_rows_restrict schedule counts]
    exact perm_compute_linear_eq (restrict_steps schedule counts) counts hn hs hcols
      (fun t ht => by rw [restrict_steps_cover schedule counts hcover t ht])
      (restrict_steps_time schedule counts htime)
  · intro row hrow
    obtain ⟨p, hp, rfl⟩ := List.mem_map.mp hrow
    obtain ⟨h1, _, h3⟩ := perms_sound _ _ p rfl hp
    exact lin_cells_values schedule schedule.nthread p schedule.nstep
      (fun y hy => by rw [← hn]; exact h3 y hy) (by omega)

/-- C19, on the schedule with a pending step. -/
theorem filter_index_safe_example :
    ∃ table, perm_compute_linear sched_pending [2, 1] = some table ∧
      perm_compute_linear (restrict_steps sched_pending [2, 1]) [2, 1] = some table ∧
      (∀ t (ht : t < [2, 1].length),
        ((restrict_steps sched_pending [2, 1]).steps.getD t []).length = [2, 1][t]) ∧
      ∀ row ∈ table, ∀ x ∈ row,
        x = -1 ∨ x = 0 ∨ (0 ≤ x ∧ x < (sched_pending.nthread : Int)) :=
  filter_index_safe sched_pending [2, 1] (by decide) (by decide) (by decide) (by decide)
    (by decide)

theorem perm_fill_replay (table : Table) (i0 : Int) (j0 i : Nat) (np : Int) :
    perm_fill table i0 j0 i np = replay (perm_fill_writes i0 j0 i np) table := by
  unfold perm_fill replay perm_fill_writes
  rw [List.foldlM_map]

theorem replay_append (a b : List Write) (t : Table) :
    replay (a ++ b) t = (replay a t).bind fun t1 => replay b t1 := by
  unfold replay
  rw [List.foldlM_append]
  rfl

theorem replay_nil (t : Table) : replay [] t = some t := rfl

theorem writes_iter_acc (recur : Int → List Nat → Option (List Write)) (j0 len : Nat)
    (counts : List Nat) (ws0 : List Write) (i0 : Int) (i : Nat) :
    perm_aux_writes_iter recur j0 len counts (ws0, i0) i =
      (perm_aux_writes_iter recur j0 len counts ([], i0) i).map fun st =>
        (ws0 ++ st.1, st.2) := by
  unfold perm_aux_writes_iter
  cases (counts[i]? : Option Nat) with
  | none => rfl
  | some c =>
    simp only [Option.some_bind]
    by_cases hc : c ≠ 0
    · rw [if_pos hc, if_pos hc]
      cases new_counts len counts i with
      | none => rfl
      | some nc =>
        simp only [Option.some_bind]
        cases perm_calc_num len nc with
        | none => rfl
        | some np =>
          simp only [Option.some_bind]
          cases recur i0 nc with
          | none => rfl
          | some ws => simp
    · rw [if_neg hc, if_neg hc]
      simp

theorem writes_loop_acc (recur : Int → List Nat → Option (List Write)) (j0 len : Nat)
    (counts : List Nat) :
    ∀ (is : List Nat) (ws0 : List Write) (i0 : Int),
      is.foldlM (perm_aux_writes_iter recur j0 len counts) (ws0, i0) =
        (is.foldlM (perm_aux_writes_iter recur j0 len counts) ([], i0)).map fun st =>
          (ws0 ++ st.1, st.2) := by
  intro is
  induction is with
  | nil => intro ws0 i0; simp
  | cons i is ih =>
    intro ws0 i0
    rw [List.foldlM_cons, List.foldlM_cons, writes_iter_acc recur j0 len counts ws0 i0 i]
    cases perm_aux_writes_iter recur j0 len counts ([], i0) i with
    | none => rfl
    | some st =>
      obtain ⟨w1, i1⟩ := st
      simp only [Option.map_some', Option.bind_eq_bind, Option.some_bind]
      rw [ih (ws0 ++ w1) i1, ih w1 i1]
      cases is.foldlM (perm_aux_writes_iter recur j0 len counts) ([], i1) with
      | none => rfl
      | some st2 => simp

theorem iter_link (recur : Table → Int → List Nat → Option Table)
    (recurW : Int → List Nat → Option (List Write))
    (hrec : ∀ (t : Table) (i0 : Int) (nc : List Nat),
      recur t i0 nc = (recurW i0 nc).bind fun ws => replay ws t)
    (j0 len : Nat) (counts : List Nat) (t : Table) (i0 : Int) (i : Nat) :
    perm_aux_iter recur j0 len counts (t, i0) i =
      (perm_aux_writes_iter recurW j0 len counts ([], i0) i).bind fun st =>
        (replay st.1 t).map fun t2 => (t2, st.2) := by
  unfold perm_aux_iter perm_aux_writes_iter
  cases (counts[i]? : Option Nat) with
  | none => rfl
  | some c =>
    simp only [Option.some_bind]
    by_cases hc : c ≠ 0
    · rw [if_pos hc, if_pos hc]
      cases new_counts len counts i with
      | none => rfl
      | some nc =>
        simp only [Option.some_bind]
        cases perm_calc_num len nc with
        | none => rfl
        | some np =>
          simp only [Option.some_bind, perm_fill_replay, hrec]
          cases recurW i0 nc with
          | none =>
            simp only [Option.none_bind]
            cases replay (perm_fill_writes i0 j0 i np) t <;> rfl
          | some ws =>
            simp only [Option.some_bind, List.nil_append, replay_append]
            cases replay (perm_fill_writes i0 j0 i np) t with
            | none => rfl
            | some t1 =>
              simp only [Option.some_bind]
              cases replay ws t1 <;> rfl
    · rw [if_neg hc, if_neg hc]
      rfl

theorem loop_link (recur : Table → Int → List Nat → Option Table)
    (recurW : Int → List Nat → Option (List Write))
    (hrec : ∀ (t : Table) (i0 : Int) (nc : List Nat),
      recur t i0 nc = (recurW i0 nc).bind fun ws => replay ws t)
    (j0 len : Nat) (counts : List Nat) :
    ∀ (is : List Nat) (t : Table) (i0 : Int),
      is.foldlM (perm_aux_iter recur j0 len counts) (t, i0) =
        (is.foldlM (perm_aux_writes_iter recurW j0 len counts) ([], i0)).bind fun st =>
          (replay st.1 t).map fun t2 => (t2, st.2) := by
  intro is
  induction is with
  | nil => intro t i0; rfl
  | cons i is ih =>
    intro t i0
    rw [List.foldlM_cons, List.foldlM_cons, iter_link recur recurW hrec j0 len counts t i0 i]
    cases perm_aux_writes_iter recurW j0 len counts ([], i0) i with
    | none => rfl
    | some st =>
      obtain ⟨w1, i1⟩ := st
      simp only [Option.some_bind, Option.bind_eq_bind]
      rw [writes_loop_acc recurW j0 len counts is w1 i1]
      cases hr : replay w1 t with
      | none =>
        simp only [Option.map_none', Option.none_bind]
        cases is.foldlM (perm_aux_writes_iter recurW j0 len counts) ([], i1) with
        | none => rfl
        | some st2 => simp [replay_append, hr]
      | some t1 =>
        simp only [Option.map_some', Option.some_bind]
        rw [ih t1 i1]
        cases is.foldlM (perm_aux_writes_iter recurW j0 len counts) ([], i1) with
        | none => rfl
        | some st2 => simp [replay_append, hr]

/-- The result of `perm_aux` is the result of making the recorded writes, in order. -/
theorem perm_aux_replay : ∀ (fuel : Nat) (table : Table) (i0 : Int) (j0 len : Nat)
    (counts : List Nat),
    perm_aux fuel table i0 j0 len counts =
      (perm_aux_writes fuel i0 j0 len counts).bind fun ws => replay ws table := by
  intro fuel
  induction fuel with
  | zero =>
    intro table i0 j0 len counts
    simp only [perm_aux, perm_aux_writes]
    rw [loop_link (fun _ _ _ => none) (fun _ _ => none) (fun _ _ _ => rfl)]
    cases (List.range len).foldlM
        (perm_aux_writes_iter (fun _ _ => none) j0 len counts) ([], i0) with
    | none => rfl
    | some st =>
      simp only [Option.some_bind, Option.map_some', Option.map_map]
      cases replay st.1 table <;> rfl
  | succ fuel ih =>
    intro table i0 j0 len counts
    simp only [perm_aux, perm_aux_writes]
    rw [loop_link (fun t i nc => perm_aux fuel t i (j0 + 1) len nc)
      (fun i nc => perm_aux_writes fuel i (j0 + 1) len nc)
      (fun t i nc => ih t i (j0 + 1) len nc)]
    cases (List.range len).foldlM
        (perm_aux_writes_iter (fun i nc => perm_aux_writes fuel i (j0 + 1) len nc) j0 len counts)
        ([], i0) with
    | none => rfl
    | some st =>
      simp only [Option.some_bind, Option.map_some', Option.map_map]
      cases replay st.1 table <;> rfl

theorem cells_append (a b : List Write) : cells (a ++ b) = cells a ++ cells b := by
  simp [cells]

theorem fill_cells_count (i0 : Int) (j0 i : Nat) (r : Int) (c : Nat) :
    ∀ N : Nat, (cells (perm_fill_writes i0 j0 i (N : Int))).count (r, c) =
      if i0 ≤ r ∧ r < i0 + (N : Int) ∧ c = j0 then 1 else 0 := by
  intro N
  induction N with
  | zero =>
    rw [if_neg (by intro h; have := h.1; have := h.2.1; simp at *; omega)]
    rfl
  | succ N ih =>
    unfold perm_fill_writes cells at ih ⊢
    rw [Int.toNat_ofNat] at ih ⊢
    rw [List.range_succ, List.map_append, List.map_append, List.count_append, ih]
    simp only [List.map_cons, List.map_nil, List.count_cons, List.count_nil, beq_iff_eq,
      Prod.mk.injEq, Nat.zero_add]
    by_cases h1 : i0 ≤ r ∧ r < i0 + (N : Int) ∧ c = j0
    · rw [if_pos h1, if_neg (by omega), if_pos (by push_cast; omega)]
    · rw [if_neg h1]
      by_cases h2 : i0 + (N : Int) = r ∧ j0 = c
      · rw [if_pos h2, if_pos (by push_cast; omega)]
      · rw [if_neg h2, if_neg (by push_cast; omega)]

theorem writes_iter_zero (recur : Int → List Nat → Option (List Write)) (j0 len : Nat)
    (counts : List Nat) (st : List Write × Int) (i : Nat) (hi : i < counts.length)
    (hc : counts[i] = 0) : perm_aux_writes_iter recur j0 len counts st i = some st := by
  unfold perm_aux_writes_iter
  rw [List.getElem?_eq_getElem hi, Option.some_bind, hc]
  rfl

theorem writes_iter_pos (recur : Int → List Nat → Option (List Write)) (j0 len : Nat)
    (counts : List Nat) (st : List Write × Int) (i : Nat) (hi : i < counts.length)
    (hc : counts[i] ≠ 0) (hlen : counts.length = len) (hs : counts.sum ≤ 13) :
    perm_aux_writes_iter recur j0 len counts st i =
      (recur st.2 (decr counts i)).bind fun ws =>
        some (st.1 ++ perm_fill_writes st.2 j0 i ((multinomial (decr counts i) : Nat) : Int)
          ++ ws, st.2 + ((multinomial (decr counts i) : Nat) : Int)) := by
  unfold perm_aux_writes_iter
  have h1 := decr_sum counts i hi hc
  rw [List.getElem?_eq_getElem hi, Option.some_bind, if_pos hc, new_counts_eq len counts i hlen,
    Option.some_bind,
    perm_calc_num_eq len (decr counts i) (by rw [decr_length]; exact hlen) (by omega),
    Option.some_bind]

theorem writes_loop_spec (recur : Int → List Nat → Option (List Write)) (d j0 len : Nat)
    (counts : List Nat) (hlen : counts.length = len) (hsum : counts.sum = d + 1)
    (hd : d + 1 ≤ 12)
    (hrec : ∀ i, i < len → counts.getD i 0 ≠ 0 → ∀ (i0 : Int),
      ∃ ws, recur i0 (decr counts i) = some ws ∧
        ∀ (r : Int) (c : Nat), (cells ws).count (r, c) =
          if i0 ≤ r ∧ r < i0 + ((multinomial (decr counts i) : Nat) : Int) ∧
            j0 + 1 ≤ c ∧ c < j0 + 1 + d then 1 else 0) :
    ∀ (is : List Nat), (∀ i ∈ is, i < len) → ∀ (i0 : Int),
      ∃ ws, is.foldlM (perm_aux_writes_iter recur j0 len counts) ([], i0) =
          some (ws, i0 + (((blocks d counts is).length : Nat) : Int)) ∧
        ∀ (r : Int) (c : Nat), (cells ws).count (r, c) =
          if i0 ≤ r ∧ r < i0 + (((blocks d counts is).length : Nat) : Int) ∧
            j0 ≤ c ∧ c < j0 + (d + 1) then 1 else 0 := by
  intro is
  induction is with
  | nil =>
    intro _ i0
    refine ⟨[], by simp [blocks], fun r c => ?_⟩
    rw [if_neg (by intro h; have := h.1; have := h.2.1; simp [blocks] at *; omega)]
    rfl
  | cons i is ih =>
    intro his i0
    have hi : i < len := his i (List.mem_cons_self _ _)
    have hi' : i < counts.length := by omega
    have his' : ∀ k ∈ is, k < len := fun k hk => his k (List.mem_cons_of_mem _ hk)
    have hg : counts.getD i 0 = counts[i] := List.getD_eq_getElem _ _ hi'
    rw [List.foldlM_cons]
    by_cases hc : counts[i] = 0
    · have hbl : blocks d counts (i :: is) = blocks d counts is := by
        simp only [blocks, List.flatMap_cons, hg, hc, ne_eq, not_true_eq_false, if_false,
          List.nil_append]
      rw [writes_iter_zero recur j0 len counts _ i hi' hc, hbl]
      exact ih his' i0
    · have hbl : (blocks d counts (i :: is)).length =
          multinomial (decr counts i) + (blocks d counts is).length := by
        have hds := decr_sum counts i hi' hc
        simp only [blocks, List.flatMap_cons, hg, hc, ne_eq, not_false_eq_true, if_true,
          List.length_append, List.length_map]
        rw [perms_length d (decr counts i) (by omega)]
      obtain ⟨w1, hw1, hcount1⟩ := hrec i hi (by rw [hg]; exact hc) i0
      obtain ⟨w2, hw2, hcount2⟩ :=
        ih his' (i0 + ((multinomial (decr counts i) : Nat) : Int))
      rw [writes_iter_pos recur j0 len counts _ i hi' hc hlen (by omega), hw1]
      simp only [Option.some_bind, Option.bind_eq_bind, List.nil_append]
      rw [writes_loop_acc, hw2]
      refine ⟨perm_fill_writes i0 j0 i ((multinomial (decr counts i) : Nat) : Int) ++ w1 ++ w2,
        ?_, fun r c => ?_⟩
      · rw [Option.map_some', hbl]
        simp only [Nat.cast_add, Int.add_assoc]
      · rw [cells_append, cells_append, List.count_append, List.count_append,
          fill_cells_count, hcount1, hcount2, hbl]
        push_cast
        split_ifs <;> omega

theorem writes_aux_unfold (fuel : Nat) (i0 : Int) (j0 len : Nat) (counts : List Nat) :
    perm_aux_writes fuel i0 j0 len counts =
      ((List.range len).foldlM
        (perm_aux_writes_iter
          (match fuel with
            | 0 => fun _ _ => none
            | f + 1 => fun i nc => perm_aux_writes f i (j0 + 1) len nc) j0 len counts)
        ([], i0)).map Prod.fst := by
  cases fuel <;> rfl

theorem writes_loop_zero (recur : Int → List Nat → Option (List Write)) (j0 len : Nat)
    (counts : List Nat) (hlen : counts.length = len) (hsum : counts.sum = 0)
    (st : List Write × Int) :
    ∀ (is : List Nat), (∀ i ∈ is, i < len) →
      is.foldlM (perm_aux_writes_iter recur j0 len counts) st = some st := by
  intro is
  induction is with
  | nil => intro _; rfl
  | cons i is ih =>
    intro his
    have hi : i < counts.length := by rw [hlen]; exact his i (List.mem_cons_self _ _)
    rw [List.foldlM_cons,
      writes_iter_zero recur j0 len counts st i hi (getElem_of_sum_zero counts hsum i hi)]
    exact ih fun k hk => his k (List.mem_cons_of_mem _ hk)

/-- The recorded writes of `perm_aux` hit every cell of the block of rows
`i0 .. i0 + multinomial counts - 1` and columns `j0 .. j0 + d - 1` once, and no other
cell. -/
theorem perm_aux_writes_spec (len : Nat) :
    ∀ (d fuel : Nat) (counts : List Nat) (i0 : Int) (j0 : Nat),
      d ≤ fuel → counts.length = len → counts.sum = d → d ≤ 12 →
      ∃ ws, perm_aux_writes fuel i0 j0 len counts = some ws ∧
        ∀ (r : Int) (c : Nat), (cells ws).count (r, c) =
          if i0 ≤ r ∧ r < i0 + ((multinomial counts : Nat) : Int) ∧ j0 ≤ c ∧ c < j0 + d
          then 1 else 0 := by
  intro d
  induction d with
  | zero =>
    intro fuel counts i0 j0 _ hlen hsum _
    refine ⟨[], ?_, fun r c => ?_⟩
    · rw [writes_aux_unfold, writes_loop_zero _ j0 len counts hlen hsum _ _
        (fun i hi => List.mem_range.mp hi)]
      rfl
    · rw [if_neg (by omega)]
      rfl
  | succ d ih =>
    intro fuel counts i0 j0 hf hlen hsum hd
    obtain ⟨f, rfl⟩ : ∃ f, fuel = f + 1 := ⟨fuel - 1, by omega⟩
    obtain ⟨ws, hws, hcount⟩ := writes_loop_spec
      (fun i nc => perm_aux_writes f i (j0 + 1) len nc) d j0 len counts hlen hsum hd
      (fun i hi hc i0' => by
        have hi' : i < counts.length := by omega
        have hc' : counts[i] ≠ 0 := by rwa [List.getD_eq_getElem _ _ hi'] at hc
        have hds := decr_sum counts i hi' hc'
        exact ih f (decr counts i) i0' (j0 + 1) (by omega)
          (by rw [decr_length]; exact hlen) (by omega) (by omega))
      (List.range len) (fun i hi => List.mem_range.mp hi) i0
    refine ⟨ws, ?_, fun r c => ?_⟩
    · rw [writes_aux_unfold, hws]
      rfl
    · rw [hcount r c, ← hlen, ← perms_succ, perms_length (d + 1) counts hsum]

/-! ## The permutation table builder: writes -/

/-- C15: for counts of `n` entries whose sum is at most 12, `perm_aux(table, 0, 0, n,
counts)` terminates; its result on any table is the result of its recorded writes made in
order, so on the table that `perm_compute` allocates no write falls outside; and the
recorded writes hit every cell `(r, c)` with `r < perm_calc_num n counts` and
`c < sum counts` exactly once and no other cell. -/
theorem perm_aux_writes_each_cell_once (junk : Nat → Nat → Int) (n : Nat)
    (counts : List Nat) (hn : counts.length = n) (hs : counts.sum ≤ 12) :
    ∃ (num_rows : Nat) (ws : List Write) (result : Table),
      perm_calc_num n counts = some (num_rows : Int) ∧
      perm_aux_writes counts.sum 0 0 n counts = some ws ∧
      (∀ table : Table, perm_aux counts.sum table 0 0 n counts = replay ws table) ∧
      perm_aux counts.sum (alloc_table junk num_rows counts.sum) 0 0 n counts = some result ∧
      ∀ (r : Int) (c : Nat), (cells ws).count (r, c) =
        if 0 ≤ r ∧ r < (num_rows : Int) ∧ c < counts.sum then 1 else 0 := by
  obtain ⟨ws, hws, hcount⟩ := perm_aux_writes_spec n counts.sum counts.sum counts 0 0
    (Nat.le_refl _) hn rfl hs
  have hpc := perm_compute_eq junk n counts hn hs
  unfold perm_compute at hpc
  rw [perm_calc_num_eq n counts hn hs, sum_counts_eq n counts hn hs] at hpc
  simp only [Option.some_bind, Int.toNat_ofNat] at hpc
  refine ⟨multinomial counts, ws, perm_rows counts, perm_calc_num_eq n counts hn hs, hws,
    fun table => by rw [perm_aux_replay, hws]; rfl, hpc, fun r c => ?_⟩
  rw [hcount r c]
  simp only [Int.zero_add, Nat.zero_le, true_and, Nat.zero_add]

/-- C15, on `counts = [2,1]`: 3 rows of 3 cells, 9 writes. -/
theorem perm_aux_writes_2_1 :
    (∃ (num_rows : Nat) (ws : List Write) (result : Table),
      perm_calc_num 2 [2, 1] = some (num_rows : Int) ∧
      perm_aux_writes [2, 1].sum 0 0 2 [2, 1] = some ws ∧
      (∀ table : Table, perm_aux [2, 1].sum table 0 0 2 [2, 1] = replay ws table) ∧
      perm_aux [2, 1].sum (alloc_table (fun _ _ => 0) num_rows [2, 1].sum) 0 0 2 [2, 1]
        = some result ∧
      ∀ (r : Int) (c : Nat), (cells ws).count (r, c) =
        if 0 ≤ r ∧ r < (num_rows : Int) ∧ c < [2, 1].sum then 1 else 0) ∧
      perm_aux_writes [2, 1].sum 0 0 2 [2, 1] =
        some [(0, 0, 0), (1, 0, 0), (0, 1, 0), (0, 2, 1), (1, 1, 1), (1, 2, 0), (2, 0, 1),
          (2, 1, 0), (2, 2, 0)] :=
  ⟨perm_aux_writes_each_cell_once (fun _ _ => 0) 2 [2, 1] (by decide) (by decide), by decide⟩

theorem row_update_length (f : List Int → Option (List Int)) (t t2 : Table) (r : Int)
    (h : row_update f t r = some t2) : t2.length = t.length := by
  unfold row_update at h
  cases hr : idx_read t r with
  | none => rw [hr] at h; exact absurd h (by simp)
  | some row0 =>
    rw [hr, Option.some_bind] at h
    cases hfr : f row0 with
    | none => rw [hfr] at h; exact absurd h (by simp)
    | some row1 =>
      rw [hfr, Option.map_some', Option.some.injEq] at h
      subst h
      exact List.length_set _ _ _

theorem foldlM_none_of_mem {α : Type} (step : Table → α → Option Table) (P : Table → Prop)
    (x : α) (hkeep : ∀ (t : Table) (y : α) (t2 : Table), step t y = some t2 → P t → P t2)
    (hfail : ∀ t : Table, P t → step t x = none) :
    ∀ (xs : List α) (t : Table), x ∈ xs → P t → xs.foldlM step t = none := by
  intro xs
  induction xs with
  | nil => intro t hx _; exact absurd hx (List.not_mem_nil _)
  | cons y ys ih =>
    intro t hx hP
    rw [List.foldlM_cons]
    cases hs : step t y with
    | none => rfl
    | some t1 =>
      rcases List.mem_cons.mp hx with rfl | hmem
      · rw [hfail t hP] at hs
        exact absurd hs (by simp)
      · exact ih t1 hmem (hkeep t y t1 hs hP)

/-- The loop over the rows of a block fails when the block has more rows than the
table. -/
theorem block_fill_none (f : List Int → Option (List Int)) (table : Table) (N : Nat)
    (h : table.length < N) : block_fill f table 0 (N : Int) = none := by
  unfold block_fill
  rw [Int.toNat_ofNat]
  apply foldlM_none_of_mem _ (fun t => t.length = table.length) table.length
  · intro t y t2 hs hP
    rw [row_update_length f t t2 _ hs, hP]
  · intro t hP
    unfold row_update idx_read
    rw [if_neg (by omega)]
    have : ((0 : Int) + ((table.length : Nat) : Int)).toNat = t.length := by
      rw [hP]; simp
    rw [this, List.getElem?_eq_none (Nat.le_refl _)]
    rfl
  · exact List.mem_range.mpr h
  · rfl

/-- With the counts `[7,6]` the first block has 924 rows; on a table of fewer rows the
recursion fails at its first fill loop. -/
theorem block_aux_7_6_none (op : Nat → Nat → List Int → Option (List Int)) (fuel : Nat)
    (table : Table) (h : table.length < 924) :
    block_aux op fuel table 0 0 2 [7, 6] = none := by
  have hm : multinomial (decr [7, 6] 0) = 924 := by decide
  have hr : List.range 2 = [0, 1] := rfl
  rw [block_aux_unfold, hr, List.foldlM_cons,
    block_iter_pos op _ 0 2 [7, 6] (table, 0) 0 (by decide) (by decide) rfl (by decide), hm,
    block_fill_none (op 0 0) table 924 h]
  rfl

theorem perm_compute_7_6_none (junk : Nat → Nat → Int) : perm_compute junk 2 [7, 6] = none := by
  have h1 : perm_calc_num 2 [7, 6] = some 532 := by decide
  have h2 : sum_counts 2 [7, 6] = some 13 := by decide
  unfold perm_compute
  rw [h1, h2, Option.some_bind, Option.some_bind, perm_aux_eq_block]
  exact block_aux_7_6_none perm_op _ _ (by rw [alloc_table_length]; decide)

theorem perm_compute_linear_7_6_none : perm_compute_linear sched_thirteen [7, 6] = none := by
  have h1 : perm_calc_num sched_thirteen.nthread [7, 6] = some 532 := by decide
  unfold perm_compute_linear
  rw [h1, Option.some_bind, linearizable_aux_eq_block]
  exact block_aux_7_6_none _ _ _ (by rw [zero_table_length]; decide)

/-- C7, as stated, fails: the schedule of 13 steps with the counts `[7,6]` meets the
conditions that the claim lists, `perm_calc_num` returns 532 for it, and neither
`perm_compute_linear` nor `perm_compute` produces a table: the first block alone has 924
rows. -/
theorem filter_tables_missing_at_7_6 :
    ([7, 6].length = sched_thirteen.nthread ∧ sched_thirteen.nstep = [7, 6].sum ∧
      steps_cover sched_thirteen [7, 6] ∧ stop_times_ok sched_thirteen) ∧
    perm_calc_num sched_thirteen.nthread [7, 6] = some 532 ∧
    perm_compute_linear sched_thirteen [7, 6] = none ∧
    (∀ junk : Nat → Nat → Int, perm_compute junk sched_thirteen.nthread [7, 6] = none) ∧
    ¬ ∃ lin tab, perm_compute_linear sched_thirteen [7, 6] = some lin ∧
      perm_compute (fun _ _ => 0) sched_thirteen.nthread [7, 6] = some tab ∧
      ∀ r (h1 : r < lin.length) (h2 : r < tab.length),
        lin[r][0]? = some (-1) ∨ lin[r] = tab[r] := by
  refine ⟨by decide, by decide, perm_compute_linear_7_6_none,
    fun junk => perm_compute_7_6_none junk, ?_⟩
  rintro ⟨lin, tab, h, _⟩
  rw [perm_compute_linear_7_6_none] at h
  exact absurd h (by simp)

end Perm
